import Mathlib

/-!
# DHT layout engine (xlators/cluster/dht/src/dht-layout.c)

A shallow embedding of the layout operations of the distributed hash table
translator, followed by theorems about them.

Conventions of the embedding.

* `uint32_t` values are natural numbers; arithmetic that can wrap is written
  with an explicit `% 2 ^ 32`.  `int` values are integers.
* A pointer to a subvolume (`xlator_t *`) is `Option Nat`: `none` is `NULL`,
  `some a` is the address `a`.
* A layout is never `NULL` in the embedding; `layout->cnt` is the length of
  the entry list, the flexible array member `list[]`.
* Logging calls are dropped.
* A memory access outside an object is an explicit fault (`Except.error`).
-/

namespace Dht

/-! ## Constants -/

/-- The constants that `dht-layout.c` takes from `dht-common.h`.  The header is
not among the sources at hand, so the values are parameters of the model. -/
structure dht_consts where
  DHT_HASH_TYPE_DM : Int
  DHT_HASH_TYPE_DM_USER : Int
  DHT_LAYOUT_HASH_INVALID : Nat
deriving DecidableEq, Repr

/-- The values these constants have in the upstream header: the enumeration
`DHT_HASH_TYPE_DM, DHT_HASH_TYPE_DM_USER` and an invalid hash of one. -/
def upstream_consts : dht_consts :=
  { DHT_HASH_TYPE_DM := 0, DHT_HASH_TYPE_DM_USER := 1, DHT_LAYOUT_HASH_INVALID := 1 }

/-- The errno value `ENOENT` (Linux numbering). -/
def ENOENT : Int := 2
/-- The errno value `ESTALE` (Linux numbering). -/
def ESTALE : Int := 116
/-- The errno value `ENOTCONN` (Linux numbering). -/
def ENOTCONN : Int := 107
/-- The errno value `ENOSPC` (Linux numbering). -/
def ENOSPC : Int := 28

/-- Size of the 32-bit hash space, `2 ^ 32`. -/
def U32 : Nat := 4294967296

/-! ## Data model -/

/-- One element of `layout->list[]`. -/
structure dht_layout_entry where
  err : Int
  start : Nat
  stop : Nat
  commit_hash : Nat
  xlator : Option Nat
deriving DecidableEq, Repr

/-- The structure `dht_layout_t`; `cnt` is `list.length`. -/
structure dht_layout_t where
  spread_cnt : Int
  preset : Int
  commit_hash : Nat
  gen : Int
  type : Int
  ref : Int
  list : List dht_layout_entry
deriving DecidableEq, Repr

/-- The field `layout->cnt`. -/
def dht_layout_t.cnt (layout : dht_layout_t) : Nat := layout.list.length

/-- The part of `dht_conf_t` that layout creation reads. -/
structure dht_conf_t where
  dir_spread_cnt : Int
  gen : Int
  subvolumes : List Nat
deriving DecidableEq, Repr

/-- Ways in which a call leaves the behaviour defined by the C language. -/
inductive dht_fault where
  | oob_entry (idx : Nat)
  | memcpy_overrun (len : Int)
deriving DecidableEq, Repr

/-- Every field of an entry fits its machine type. -/
def dht_layout_entry.wf (e : dht_layout_entry) : Prop :=
  e.start < U32 ∧ e.stop < U32 ∧ e.commit_hash < U32

instance (e : dht_layout_entry) : Decidable e.wf := by
  unfold dht_layout_entry.wf; infer_instance

/-- Every 32-bit field of a layout fits its machine type. -/
def dht_layout_t.wf (layout : dht_layout_t) : Prop :=
  layout.commit_hash < U32 ∧ -2147483648 ≤ layout.type ∧ layout.type < 2147483648 ∧
    ∀ e ∈ layout.list, e.wf

instance (layout : dht_layout_t) : Decidable layout.wf := by
  unfold dht_layout_t.wf; infer_instance

/-! ## Creation -/

/-- A zeroed entry, as `GF_CALLOC` leaves it. -/
def zero_entry : dht_layout_entry :=
  { err := 0, start := 0, stop := 0, commit_hash := 0, xlator := none }

/-- The function `dht_layout_new`.  `calloc_ok` tells whether `GF_CALLOC`
returns memory; `conf` is `this->private`. -/
def dht_layout_new (K : dht_consts) (calloc_ok : Bool) (conf : Option dht_conf_t)
    (cnt : Nat) : Option dht_layout_t :=
  if calloc_ok then
    some { spread_cnt := match conf with
                         | some c => c.dir_spread_cnt
                         | none => 0
           preset := 0
           commit_hash := 0
           gen := match conf with
                  | some c => c.gen
                  | none => 0
           type := K.DHT_HASH_TYPE_DM
           ref := 1
           list := List.replicate cnt zero_entry }
  else none

/-! ## Lookup -/

/-- The loop of `dht_layout_search`: the subvolume of the first entry whose
range holds `hash`, `NULL` when the loop runs out. -/
def search_loop (hash : Nat) : List dht_layout_entry → Option Nat
  | [] => none
  | e :: es => if e.start ≤ hash ∧ e.stop ≥ hash then e.xlator else search_loop hash es

/-- The function `dht_layout_search`.  The hash function is injected:
`dht_hash_compute type name` is `some h` when the C function returns zero and
stores `h`, and `none` when it returns non-zero.  The result pairs the returned
subvolume with the layout as it is after the call. -/
def dht_layout_search (dht_hash_compute : Int → String → Option Nat)
    (layout : dht_layout_t) (name : String) : Option Nat × dht_layout_t :=
  match dht_hash_compute layout.type name with
  | none => (none, layout)
  | some hash => (search_loop hash layout.list, layout)

/-! ## Disk encoding -/

/-- Conversion of an `int` to `uint32_t`. -/
def int_to_u32 (i : Int) : Nat := (i % 4294967296).toNat

/-- Conversion of a `uint32_t` to `int` (two's complement). -/
def u32_to_int (n : Nat) : Int :=
  if n % 4294967296 < 2147483648 then ((n % 4294967296 : Nat) : Int)
  else ((n % 4294967296 : Nat) : Int) - 4294967296

/-- The four bytes that a 32-bit slot holds in memory after `htobe32 x` is
stored in it: most significant byte at the lowest address. -/
def htobe32 (x : Nat) : List Nat :=
  [x / 16777216 % 256, x / 65536 % 256, x / 256 % 256, x % 256]

/-- The value `be32toh` yields for a 32-bit slot holding the given bytes. -/
def be32toh (b : List Nat) : Nat :=
  b.getD 0 0 * 16777216 + b.getD 1 0 * 65536 + b.getD 2 0 * 256 + b.getD 3 0

/-- The bytes of the 32-bit slot with index `k` of a buffer. -/
def word_at (buf : List Nat) (k : Nat) : List Nat := (buf.drop (4 * k)).take 4

/-- Storing four bytes in the 32-bit slot with index `k` of a buffer. -/
def store_word (buf : List Nat) (k : Nat) (w : List Nat) : List Nat :=
  buf.take (4 * k) ++ w ++ buf.drop (4 * k + 4)

/-- The function `dht_disk_layout_extract`.  `calloc_ok` tells whether
`GF_CALLOC(5, sizeof(int))` returns memory, `has_out` whether `disk_layout_p`
is non-`NULL`.  The result pairs the return value with the bytes of the buffer
handed out, if any. -/
def dht_disk_layout_extract (calloc_ok has_out : Bool) (layout : dht_layout_t)
    (pos : Nat) : Except dht_fault (Int × Option (List Nat)) :=
  if calloc_ok then
    match layout.list[pos]? with
    | none => .error (.oob_entry pos)
    | some e =>
      let d0 := List.replicate (5 * 4) 0
      let d1 := store_word d0 0 (htobe32 e.commit_hash)
      let d2 := store_word d1 1 (htobe32 (int_to_u32 layout.type))
      let d3 := store_word d2 2 (htobe32 e.start)
      let d4 := store_word d3 3 (htobe32 e.stop)
      .ok (0, if has_out then some d4 else none)
  else .ok (-1, none)

/-- The function `dht_disk_layout_extract_for_subvol`. -/
def dht_disk_layout_extract_for_subvol (calloc_ok has_out : Bool)
    (layout : dht_layout_t) (subvol : Option Nat) :
    Except dht_fault (Int × Option (List Nat)) :=
  let i := layout.list.findIdx (fun e => decide (e.xlator = subvol))
  if i = layout.cnt then .ok (-1, none)
  else dht_disk_layout_extract calloc_ok has_out layout i

/-- The call `memcpy(dst, src, n)` on byte buffers. -/
def memcpy (dst src : List Nat) (n : Nat) : List Nat := src.take n ++ dst.drop n

/-- The function `dht_disk_layout_merge` (the specification's
`merge_from_disk`).  `stack` is the content of the uninitialised local
`disk_layout[4]` before the copy.  `GF_ASSERT` only logs, so a length other
than 16 does not stop the call; a copy that leaves the local array or the
source buffer is a fault. -/
def dht_disk_layout_merge (K : dht_consts) (stack : List Nat) (layout : dht_layout_t)
    (pos : Nat) (disk_layout_raw : Option (List Nat)) (disk_layout_len : Int) :
    Except dht_fault (Int × dht_layout_t) :=
  match disk_layout_raw with
  | none => .ok (-1, layout)
  | some raw =>
    if disk_layout_len < 0 ∨ 16 < disk_layout_len ∨ (raw.length : Int) < disk_layout_len then
      .error (.memcpy_overrun disk_layout_len)
    else
      let disk_layout := memcpy (stack.take 16) raw disk_layout_len.toNat
      let type := u32_to_int (be32toh (word_at disk_layout 1))
      let write := fun (layout : dht_layout_t) =>
        let commit_hash := u32_to_int (be32toh (word_at disk_layout 0))
        let start_off := u32_to_int (be32toh (word_at disk_layout 2))
        let stop_off := u32_to_int (be32toh (word_at disk_layout 3))
        match layout.list[pos]? with
        | none => Except.error (dht_fault.oob_entry pos)
        | some e =>
          Except.ok ((0 : Int),
            { layout with
              list := layout.list.set pos
                { e with commit_hash := int_to_u32 commit_hash
                         start := int_to_u32 start_off
                         stop := int_to_u32 stop_off } })
      if type = K.DHT_HASH_TYPE_DM_USER then write { layout with type := type }
      else if type = K.DHT_HASH_TYPE_DM then write layout
      else .ok (-1, layout)

/-- The type word of a blob, as the `int` that `dht_disk_layout_merge` switches
on. -/
def blob_type (raw : List Nat) : Int := u32_to_int (be32toh (word_at raw 1))

/-- The entry that `dht_disk_layout_merge` leaves in place of `e` after it has
decoded a blob: words 0, 2 and 3 go through an `int` local into the unsigned
fields. -/
def blob_entry (raw : List Nat) (e : dht_layout_entry) : dht_layout_entry :=
  { e with commit_hash := int_to_u32 (u32_to_int (be32toh (word_at raw 0)))
           start := int_to_u32 (u32_to_int (be32toh (word_at raw 2)))
           stop := int_to_u32 (u32_to_int (be32toh (word_at raw 3))) }

/-- What `dict_get_ptr_and_len (xattr, conf->xattr_name, &raw, &len)` yields on
a dictionary: its return value, the data pointer and the data length.  The
dictionary itself is an external collaborator. -/
structure dict_t where
  ret : Int
  ptr : Option (List Nat)
  len : Int
deriving DecidableEq, Repr

/-- The function `dht_layout_merge`.  `xattr` is `none` for a `NULL`
dictionary. -/
def dht_layout_merge (K : dht_consts) (stack : List Nat) (layout : dht_layout_t)
    (subvol : Option Nat) (op_ret op_errno : Int) (xattr : Option dict_t) :
    Except dht_fault (Int × dht_layout_t) :=
  let err : Int := if op_ret ≠ 0 then op_errno else -1
  let i := layout.list.findIdx (fun e => decide (e.xlator = none))
  let layout1 : dht_layout_t :=
    match layout.list[i]? with
    | none => layout
    | some e => { layout with list := layout.list.set i { e with err := err, xlator := subvol } }
  if op_ret ≠ 0 then .ok (0, layout1)
  else
    let ret : Int := match xattr with
      | none => -1
      | some d => d.ret
    if ret ≠ 0 then
      match layout1.list[i]? with
      | none => .error (.oob_entry i)
      | some e => .ok (0, { layout1 with list := layout1.list.set i { e with err := 0 } })
    else
      let disk_layout_raw := match xattr with
        | none => none
        | some d => d.ptr
      let disk_layout_len : Int := match xattr with
        | none => 0
        | some d => d.len
      match dht_disk_layout_merge K stack layout1 i disk_layout_raw disk_layout_len with
      | .error f => .error f
      | .ok (r, layout2) =>
        if r ≠ 0 then .ok (r, layout2)
        else
          match layout2.list[i]? with
          | none => .error (.oob_entry i)
          | some e =>
            let commit_hash :=
              if layout2.commit_hash = 0 then e.commit_hash
              else if layout2.commit_hash ≠ e.commit_hash then K.DHT_LAYOUT_HASH_INVALID
              else layout2.commit_hash
            .ok (0, { layout2 with commit_hash := commit_hash
                                   list := layout2.list.set i { e with err := 0 } })

/-! ## Sorting -/

/-- The comparison function `dht_layout_entry_cmp`. -/
def dht_layout_entry_cmp (x y : dht_layout_entry) : Int :=
  let diff : Int :=
    if y.start = 0 ∧ y.stop = 0 then (x.stop : Int) - (y.stop : Int)
    else (x.start : Int) - (y.start : Int)
  if diff = 0 then 0 else if diff < 0 then -1 else 1

/-- The merge loop of `msort_with_tmp`, the merge sort that glibc's `qsort`
runs: while both runs have elements, the head of the first run is taken when
`cmp (b1, b2) <= 0` and the head of the second run otherwise; what is left of
the first run and then of the second follows.  The first argument bounds the
number of steps; it is at least the number of elements, so the bound is never
reached with both runs non-empty. -/
def msort_merge {α : Type} (cmp : α → α → Int) : Nat → List α → List α → List α
  | 0, b1, b2 => b1 ++ b2
  | _ + 1, [], b2 => b2
  | _ + 1, x :: b1, [] => x :: b1
  | fuel + 1, x :: b1, y :: b2 =>
    if cmp x y ≤ 0 then x :: msort_merge cmp fuel b1 (y :: b2)
    else y :: msort_merge cmp fuel (x :: b1) b2

/-- The recursion of `msort_with_tmp`: an array of at most one element is left
alone; otherwise the first `n / 2` elements and the remaining ones are sorted
and the two runs are merged.  The first argument bounds the depth and is at
least the number of elements. -/
def msort_with_tmp {α : Type} (cmp : α → α → Int) : Nat → List α → List α
  | 0, b => b
  | fuel + 1, b =>
    if b.length ≤ 1 then b
    else
      msort_merge cmp b.length (msort_with_tmp cmp fuel (b.take (b.length / 2)))
        (msort_with_tmp cmp fuel (b.drop (b.length / 2)))

/-- The C library's `qsort`, as glibc runs it on an array that fits its
temporary buffer: the merge sort `msort_with_tmp`.  Elements that compare equal
keep their order. -/
def qsort {α : Type} (cmp : α → α → Int) (l : List α) : List α :=
  msort_with_tmp cmp l.length l

/-- The function `dht_layout_sort`. -/
def dht_layout_sort (layout : dht_layout_t) : dht_layout_t :=
  { layout with list := qsort dht_layout_entry_cmp layout.list }

/-! ## Anomalies -/

/-- The local variables of `dht_layout_anomalies` that change in its loop. -/
structure anomalies_state where
  missing : Nat
  down : Nat
  misc : Nat
  hole_cnt : Nat
  overlap_cnt : Nat
  prev_stop : Nat
  is_virgin : Bool
  no_space : Nat
deriving DecidableEq, Repr

/-- One iteration of the loop of `dht_layout_anomalies`. -/
def anomalies_step (st : anomalies_state) (e : dht_layout_entry) : anomalies_state :=
  if e.err = -1 ∨ e.err = ENOENT ∨ e.err = ESTALE then { st with missing := st.missing + 1 }
  else if e.err = ENOTCONN then { st with down := st.down + 1 }
  else if e.err = ENOSPC then { st with no_space := st.no_space + 1 }
  else if e.err = 0 then
    if e.start = e.stop then st
    else
      let hole_cnt :=
        if (st.prev_stop + 1) % 4294967296 < e.start then st.hole_cnt + 1 else st.hole_cnt
      let overlap_cnt :=
        if (st.prev_stop + 1) % 4294967296 > e.start then st.overlap_cnt + 1
        else st.overlap_cnt
      { st with is_virgin := false, hole_cnt := hole_cnt, overlap_cnt := overlap_cnt,
                prev_stop := e.stop }
  else { st with misc := st.misc + 1 }

/-- The counters `dht_layout_anomalies` reports through its out-parameters. -/
structure anomalies_t where
  holes : Nat
  overlaps : Nat
  missing : Nat
  down : Nat
  misc : Nat
  no_space : Nat
deriving DecidableEq, Repr

/-- The function `dht_layout_anomalies`, all out-parameters requested.  It reads
`layout->list[0]` before the loop, which faults on a layout without entries. -/
def dht_layout_anomalies (layout : dht_layout_t) : Except dht_fault anomalies_t :=
  match layout.list with
  | [] => .error (.oob_entry 0)
  | e0 :: _ =>
    let last_stop := (e0.start + 4294967296 - 1) % 4294967296
    let st := layout.list.foldl anomalies_step
      { missing := 0, down := 0, misc := 0, hole_cnt := 0, overlap_cnt := 0,
        prev_stop := last_stop, is_virgin := true, no_space := 0 }
    let hole_cnt :=
      if (last_stop + 4294967296 - st.prev_stop) % 4294967296 ≠ 0 ∨ st.is_virgin = true
      then st.hole_cnt + 1 else st.hole_cnt
    .ok { holes := hole_cnt, overlaps := st.overlap_cnt, missing := st.missing,
          down := st.down, misc := st.misc, no_space := st.no_space }

/-- The loop of `dht_layout_missing_dirs`. -/
def missing_dirs_loop (missing : Int) : List dht_layout_entry → Int
  | [] => missing
  | e :: es =>
    if e.err = ENOENT ∨ (e.err = -1 ∧ e.start = 0 ∧ e.stop = 0) then
      missing_dirs_loop (missing + 1) es
    else missing_dirs_loop missing es

/-- The function `dht_layout_missing_dirs`. -/
def dht_layout_missing_dirs (layout : dht_layout_t) : Int :=
  missing_dirs_loop 0 layout.list

/-- The function `dht_layout_normalize`: the return value and the layout as the
call leaves it (sorted in place). -/
def dht_layout_normalize (layout : dht_layout_t) : Except dht_fault (Int × dht_layout_t) :=
  let layout := dht_layout_sort layout
  match dht_layout_anomalies layout with
  | .error f => .error f
  | .ok a =>
    let ret : Int := if a.holes ≠ 0 ∨ a.overlaps ≠ 0 then -1 else 0
    let ret : Int :=
      if ret ≥ 0 then
        let missing_dirs := dht_layout_missing_dirs layout
        if missing_dirs > 0 then ret + missing_dirs else ret
      else ret
    .ok (ret, layout)

/-! ## Concrete layouts used in the examples -/

/-- A layout of type DM with the given entries and layout-wide commit hash. -/
def layout_of (K : dht_consts) (commit_hash : Nat) (es : List dht_layout_entry) :
    dht_layout_t :=
  { spread_cnt := 0, preset := 0, commit_hash := commit_hash, gen := 0,
    type := K.DHT_HASH_TYPE_DM, ref := 1, list := es }

/-- An entry without error on the given range, commit hash and subvolume. -/
def entry_ok (start stop commit_hash : Nat) (xlator : Option Nat) : dht_layout_entry :=
  { err := 0, start := start, stop := stop, commit_hash := commit_hash, xlator := xlator }

/-- Four equal quarters of the hash space on the subvolumes 1, 2, 3 and 4. -/
def quarters : dht_layout_t :=
  layout_of upstream_consts 0
    [entry_ok 0 0x3FFFFFFF 0 (some 1), entry_ok 0x40000000 0x7FFFFFFF 0 (some 2),
     entry_ok 0x80000000 0xBFFFFFFF 0 (some 3), entry_ok 0xC0000000 0xFFFFFFFF 0 (some 4)]

/-! ## The anomaly scan in the words of the specification -/

/-- An entry the scan compares with its predecessor: one without error whose
start differs from its stop.  Every other entry is skipped. -/
def is_real (e : dht_layout_entry) : Bool := decide (e.err = 0 ∧ e.start ≠ e.stop)

/-- The scan over the compared entries, from a given `prev_stop`: the number of
holes (`prev_stop + 1 < start`), the number of overlaps (`prev_stop + 1 > start`)
and the last `prev_stop`; `prev_stop + 1` is a 32-bit sum. -/
def scan_real (prev_stop : Nat) : List dht_layout_entry → Nat × Nat × Nat
  | [] => (0, 0, prev_stop)
  | e :: es =>
    ((if (prev_stop + 1) % 4294967296 < e.start then 1 else 0) + (scan_real e.stop es).1,
     (if (prev_stop + 1) % 4294967296 > e.start then 1 else 0) + (scan_real e.stop es).2.1,
     (scan_real e.stop es).2.2)

/-- Holes and overlaps of the scan whose last step adds a hole when no entry was
compared or the last `prev_stop` is not `top_stop`. -/
def scan_with_top (top_stop : Nat) (l : List dht_layout_entry) : Nat × Nat :=
  match l with
  | [] => (0, 0)
  | e0 :: _ =>
    let r := scan_real ((e0.start + 4294967296 - 1) % 4294967296) (l.filter is_real)
    (r.1 + (if (l.filter is_real).isEmpty = true ∨ r.2.2 ≠ top_stop then 1 else 0), r.2.1)

/-- The scan as worded in the specification: the last step compares `prev_stop`
with the top of the hash space, `0xFFFFFFFF`. -/
def scan_claimed (l : List dht_layout_entry) : Nat × Nat := scan_with_top 4294967295 l

/-- The scan whose last step compares `prev_stop` with its initial value, the
first entry's start minus one (a 32-bit difference). -/
def scan_initial (l : List dht_layout_entry) : Nat × Nat :=
  match l with
  | [] => (0, 0)
  | e0 :: _ => scan_with_top ((e0.start + 4294967296 - 1) % 4294967296) l

/-- Two entries without error, with a hole between them. -/
def hole_layout : dht_layout_t :=
  layout_of upstream_consts 0
    [entry_ok 0 0x3FFFFFFF 0 (some 1), entry_ok 0x50000000 0xFFFFFFFF 0 (some 2)]

/-- One entry without error whose range starts at 5. -/
def late_start_layout : dht_layout_t :=
  layout_of upstream_consts 0 [entry_ok 5 0xFFFFFFFF 0 (some 1)]

/-- An entry that `dht_layout_missing_dirs` counts: error `ENOENT`, or error -1
with start and stop both zero. -/
def is_missing_dir (e : dht_layout_entry) : Bool :=
  decide (e.err = ENOENT ∨ (e.err = -1 ∧ e.start = 0 ∧ e.stop = 0))

/-- Two overlapping entries without error and one entry with `ENOENT`. -/
def overlap_missing_layout : dht_layout_t :=
  layout_of upstream_consts 0
    [entry_ok 0 0x7FFFFFFF 0 (some 1), entry_ok 0x70000000 0xFFFFFFFF 0 (some 2),
     { err := ENOENT, start := 0, stop := 0, commit_hash := 0, xlator := some 3 }]

/-! ## Ranges and chains of ranges -/

/-- The inclusive range of the entry holds the hash value. -/
def holds (h : Nat) (e : dht_layout_entry) : Bool := decide (e.start ≤ h ∧ h ≤ e.stop)

/-- The entry stops at the top of the hash space. -/
def stops_at_top (e : dht_layout_entry) : Bool := decide (e.stop = 4294967295)

/-- Every entry starts at the 32-bit successor of the stop before it, the first
one at the successor of `p`. -/
def chain_ok (p : Nat) : List dht_layout_entry → Prop
  | [] => True
  | e :: es => (p + 1) % 4294967296 = e.start ∧ chain_ok e.stop es

/-- The stop of the last entry, `p` for the empty list. -/
def final_stop (p : Nat) : List dht_layout_entry → Nat
  | [] => p
  | e :: es => final_stop e.stop es

/-- Two entries without error that both cover the whole hash space. -/
def full_twice_layout : dht_layout_t :=
  layout_of upstream_consts 0
    [entry_ok 0 0xFFFFFFFF 0 (some 1), entry_ok 0 0xFFFFFFFF 0 (some 2)]

/-- One entry without error whose start lies above its stop. -/
def backwards_layout : dht_layout_t :=
  layout_of upstream_consts 0 [entry_ok 5 4 0 (some 1)]

/-! ## Per-brick merge: auxiliary notions -/

/-- The entry `list[i]` right after `dht_layout_merge` has claimed it. -/
def claimed (e : dht_layout_entry) (err : Int) (subvol : Option Nat) : dht_layout_entry :=
  { e with err := err, xlator := subvol }

/-- The dictionary holds the layout attribute, and `dht_disk_layout_merge`
turns its data down: the data pointer is `NULL`, or the type word is neither
DM_USER nor DM. -/
def blob_rejected (K : dht_consts) (xattr : Option dict_t) : Prop :=
  ∃ d : dict_t, xattr = some d ∧ d.ret = 0 ∧
    (d.ptr = none ∨ ∃ raw : List Nat, d.ptr = some raw ∧
      blob_type raw ≠ K.DHT_HASH_TYPE_DM_USER ∧ blob_type raw ≠ K.DHT_HASH_TYPE_DM)

/-- The layout-wide commit hash after a brick with commit hash `c` was merged
into a layout whose commit hash was `cur`. -/
def agree (K : dht_consts) (cur c : Nat) : Nat :=
  if cur = 0 then c else if cur ≠ c then K.DHT_LAYOUT_HASH_INVALID else cur
/-- A present, valid blob: 16 bytes whose type word is DM or DM_USER. -/
def valid_blob (K : dht_consts) (raw : List Nat) : Prop :=
  raw.length = 16 ∧ (∀ b ∈ raw, b < 256) ∧
    (blob_type raw = K.DHT_HASH_TYPE_DM ∨ blob_type raw = K.DHT_HASH_TYPE_DM_USER)

/-- A blob of type DM (upstream value 0) with the given commit hash, start and
stop. -/
def dm_blob (commit_hash start stop : Nat) : List Nat :=
  htobe32 commit_hash ++ htobe32 0 ++ htobe32 start ++ htobe32 stop

/-- The dictionary of a brick that answers with the given 16-byte blob. -/
def dict_of (raw : List Nat) : dict_t := { ret := 0, ptr := some raw, len := 16 }
/-- A layout of two entries, both still without subvolume. -/
def two_unset_layout : dht_layout_t := layout_of upstream_consts 0 [zero_entry, zero_entry]

/-- A 16-byte blob whose type word is 7. -/
def odd_blob : List Nat := [0, 0, 202, 254, 0, 0, 0, 7, 0, 0, 0, 0, 255, 255, 255, 255]
/-- One more brick in a run of per-brick merges: once a merge has not returned
0 the run is over; otherwise the brick, which answers with `op_ret = 0` and a
dictionary holding its 16-byte blob, is merged. -/
def merge_next (K : dht_consts) (stack : List Nat)
    (acc : Except dht_fault (Int × dht_layout_t)) (brick : Option Nat × List Nat) :
    Except dht_fault (Int × dht_layout_t) :=
  match acc with
  | .error f => .error f
  | .ok (r, layout) =>
    if r ≠ 0 then .ok (r, layout)
    else dht_layout_merge K stack layout brick.1 0 0 (some (dict_of brick.2))

/-- A run of per-brick merges during a lookup, one brick after the other. -/
def merge_all (K : dht_consts) (stack : List Nat) (layout : dht_layout_t)
    (bricks : List (Option Nat × List Nat)) : Except dht_fault (Int × dht_layout_t) :=
  bricks.foldl (merge_next K stack) (.ok (0, layout))

/-- A layout of three entries, all still without subvolume. -/
def three_unset_layout : dht_layout_t :=
  layout_of upstream_consts 0 [zero_entry, zero_entry, zero_entry]

/-- The constants with the invalid hash the specification gives as an example,
`0xFFFFFFFF`. -/
def spec_consts : dht_consts :=
  { DHT_HASH_TYPE_DM := 0, DHT_HASH_TYPE_DM_USER := 1, DHT_LAYOUT_HASH_INVALID := 0xFFFFFFFF }

/-! ## Blobs of a wrong length -/

/-- An 8-byte blob: commit hash `0xCAFE` and type word 0. -/
def short_blob : List Nat := [0, 0, 202, 254, 0, 0, 0, 0]

/-- A 20-byte blob. -/
def long_blob : List Nat :=
  [0, 0, 202, 254, 0, 0, 0, 0, 0, 0, 0, 0, 255, 255, 255, 255, 1, 2, 3, 4]

/-- Sixteen bytes left on the stack by earlier calls; the last eight read as the
words 5 and 9. -/
def stale_stack : List Nat := [9, 9, 9, 9, 9, 9, 9, 9, 0, 0, 0, 5, 0, 0, 0, 9]

/-! ## Runs of disk merges -/

/-- One call `dht_disk_layout_merge (layout, pos, raw, len)` in a run of such
calls on one layout; the return value of the call is dropped, a fault ends the
run. -/
def disk_merge_next (K : dht_consts) (stack : List Nat)
    (acc : Except dht_fault dht_layout_t) (call : Nat × Option (List Nat) × Int) :
    Except dht_fault dht_layout_t :=
  match acc with
  | .error f => .error f
  | .ok layout =>
    match dht_disk_layout_merge K stack layout call.1 call.2.1 call.2.2 with
    | .error f => .error f
    | .ok (_, layout') => .ok layout'

/-- A run of calls of `dht_disk_layout_merge` on one layout. -/
def disk_merge_run (K : dht_consts) (stack : List Nat) (layout : dht_layout_t)
    (calls : List (Nat × Option (List Nat) × Int)) : Except dht_fault dht_layout_t :=
  calls.foldl (disk_merge_next K stack) (.ok layout)

/-- A blob of type DM_USER (upstream value 1) with the given commit hash, start
and stop. -/
def user_blob (commit_hash start stop : Nat) : List Nat :=
  htobe32 commit_hash ++ htobe32 1 ++ htobe32 start ++ htobe32 stop

/-! ## Layouts without overlaps -/

/-- No hash value lies in the inclusive ranges of both entries. -/
def disjoint_ranges (a b : dht_layout_entry) : Prop :=
  ∀ h : Nat, ¬ (holds h a = true ∧ holds h b = true)

/-- The four quarters stored in another order. -/
def quarters_shuffled : dht_layout_t :=
  layout_of upstream_consts 0
    [entry_ok 0xC0000000 0xFFFFFFFF 0 (some 4), entry_ok 0x40000000 0x7FFFFFFF 0 (some 2),
     entry_ok 0 0x3FFFFFFF 0 (some 1), entry_ok 0x80000000 0xBFFFFFFF 0 (some 3)]

/-! ## Mismatch detection -/

/-- The function `dht_layout_dir_mismatch`: the return value and the layout as
the call leaves it.  `xattr` is `none` for a `NULL` dictionary; otherwise
`dict_get_ptr (xattr, conf->xattr_name, &raw)` yields the return value and the
data pointer recorded in `dict_t`.  The 16 bytes that `memcpy` reads must lie
inside the data, or the call faults. -/
def dht_layout_dir_mismatch (layout : dht_layout_t) (subvol : Option Nat)
    (xattr : Option dict_t) : Except dht_fault (Int × dht_layout_t) :=
  let idx := layout.list.findIdx (fun e => decide (e.xlator = subvol))
  match layout.list[idx]? with
  | none => .ok (1, layout)
  | some e =>
    let err := e.err
    match xattr with
    | none => .ok (if err = 0 then -1 else 0, layout)
    | some d =>
      if d.ret < 0 then .ok (if err = 0 ∧ e.stop ≠ 0 then -1 else 0, layout)
      else
        match d.ptr with
        | none => .error (.memcpy_overrun 16)
        | some raw =>
          if raw.length < 16 then .error (.memcpy_overrun 16)
          else
            let disk_layout := memcpy (List.replicate 16 0) raw 16
            let start_off := be32toh (word_at disk_layout 2)
            let stop_off := be32toh (word_at disk_layout 3)
            let commit_hash := be32toh (word_at disk_layout 0)
            .ok (if e.start ≠ start_off ∨ e.stop ≠ stop_off ∨ e.commit_hash ≠ commit_hash
                 then 1 else 0, layout)

/-- A dictionary that does not hold the layout attribute. -/
def dict_without : dict_t := { ret := -2, ptr := none, len := 0 }

/-- One entry without error and with the range `0..0`, on subvolume 1. -/
def idle_layout : dht_layout_t := layout_of upstream_consts 0 [entry_ok 0 0 0 (some 1)]

/-- One entry with error `ENOTCONN` and the range `0..100`, on subvolume 1. -/
def down_layout : dht_layout_t :=
  layout_of upstream_consts 0
    [{ err := ENOTCONN, start := 0, stop := 100, commit_hash := 0, xlator := some 1 }]

/-! ## Preset layouts -/

/-- The loop of `dht_layouts_init` from index `i` on: `subvols` are the
subvolumes still to come, `file_layouts` is the array `conf->file_layouts` (a
`NULL` slot is `none`), `layout_ok k` tells whether the allocation in
`dht_layout_new` for index `k` returns memory, and `priv` is `this->private`.
The result pairs the return value with the array. -/
def layouts_init_loop (K : dht_consts) (priv : Option dht_conf_t) (layout_ok : Nat → Bool) :
    List Nat → Nat → List (Option dht_layout_t) → Int × List (Option dht_layout_t)
  | [], _, file_layouts => (0, file_layouts)
  | s :: rest, i, file_layouts =>
    match dht_layout_new K (layout_ok i) priv 1 with
    | none => (-1, file_layouts)
    | some layout =>
      let layout1 := { layout with preset := 1 }
      let layout2 :=
        match layout1.list[0]? with
        | none => layout1
        | some e => { layout1 with list := layout1.list.set 0 { e with xlator := some s } }
      layouts_init_loop K priv layout_ok rest (i + 1) (file_layouts.set i (some layout2))

/-- The function `dht_layouts_init`.  `conf` is `none` for a `NULL`
configuration, `array_ok` tells whether the allocation of `conf->file_layouts`
returns memory; `conf->subvolume_cnt` is the length of `conf->subvolumes`. -/
def dht_layouts_init (K : dht_consts) (priv : Option dht_conf_t) (array_ok : Bool)
    (layout_ok : Nat → Bool) (conf : Option dht_conf_t) :
    Int × List (Option dht_layout_t) :=
  match conf with
  | none => (-1, [])
  | some c =>
    if array_ok then
      layouts_init_loop K priv layout_ok c.subvolumes 0
        (List.replicate c.subvolumes.length none)
    else (-1, [])

/-- The layout that `dht_layouts_init` builds for a subvolume. -/
def preset_layout (K : dht_consts) (priv : Option dht_conf_t) (s : Nat) : dht_layout_t :=
  { spread_cnt := match priv with
                  | some c => c.dir_spread_cnt
                  | none => 0
    preset := 1
    commit_hash := 0
    gen := match priv with
           | some c => c.gen
           | none => 0
    type := K.DHT_HASH_TYPE_DM
    ref := 1
    list := [{ err := 0, start := 0, stop := 0, commit_hash := 0, xlator := some s }] }

/-- A configuration with the two subvolumes 7 and 8. -/
def two_subvol_conf : dht_conf_t := { dir_spread_cnt := 0, gen := 0, subvolumes := [7, 8] }

/-! ## Range order -/

/-- The order `qsort` sorts by in `dht_layout_sort`: `x` may stand before `y`
when `dht_layout_entry_cmp x y` is not positive. -/
def range_le (x y : dht_layout_entry) : Prop := dht_layout_entry_cmp x y ≤ 0

instance : DecidableRel range_le :=
  fun x y => inferInstanceAs (Decidable (dht_layout_entry_cmp x y ≤ 0))

/-- A non-participating entry: start and stop are both zero. -/
def is_zero_range (e : dht_layout_entry) : Prop := e.start = 0 ∧ e.stop = 0

instance (e : dht_layout_entry) : Decidable (is_zero_range e) := by
  unfold is_zero_range; infer_instance

/-- No entry of the list has stop zero and a start above zero. -/
def no_zero_stop_above (l : List dht_layout_entry) : Prop :=
  ∀ e ∈ l, e.stop = 0 → e.start = 0

instance (l : List dht_layout_entry) : Decidable (no_zero_stop_above l) := by
  unfold no_zero_stop_above; infer_instance
/-- The layout `5..0` followed by the non-participating `0..0`. -/
def zero_stop_layout : dht_layout_t :=
  layout_of upstream_consts 0 [entry_ok 5 0 0 (some 1), entry_ok 0 0 0 (some 2)]
/-- Two non-participating entries around the entry `7..0`. -/
def zero_stop_between : dht_layout_t :=
  layout_of upstream_consts 0
    [entry_ok 0 0 0 (some 1), entry_ok 7 0 0 (some 2), entry_ok 0 0 0 (some 3)]
/-! ## Sorting by volume name -/

/-- The C library's `strcmp` on strings given as their bytes: the difference of
the first pair of bytes that differ.  The end of the list stands for the
terminating zero byte, and a zero byte in the list ends the string too. -/
def strcmp : List Nat → List Nat → Int
  | [], [] => 0
  | [], b :: _ => -(b : Int)
  | a :: _, [] => (a : Int)
  | a :: as, b :: bs =>
    if a = b then (if a = 0 then 0 else strcmp as bs) else (a : Int) - (b : Int)

/-- The comparison function `dht_layout_entry_cmp_volname`.  `xl_name a` is the
name of the subvolume at address `a`; the function is only called on entries
with a subvolume. -/
def dht_layout_entry_cmp_volname (xl_name : Nat → List Nat) (x y : dht_layout_entry) : Int :=
  strcmp
    (match x.xlator with
     | some a => xl_name a
     | none => [])
    (match y.xlator with
     | some a => xl_name a
     | none => [])

/-- The function `dht_layout_sort_volname`.  With two or more entries `qsort`
compares every entry, which reads `xlator->name`: an entry without subvolume
makes the call fault (`none`). -/
def dht_layout_sort_volname (xl_name : Nat → List Nat) (layout : dht_layout_t) :
    Option dht_layout_t :=
  if layout.list.length ≤ 1 ∨ ∀ e ∈ layout.list, e.xlator ≠ none then
    some { layout with list := qsort (dht_layout_entry_cmp_volname xl_name) layout.list }
  else none

/-- Subvolume 1 is named `b`, every other subvolume `a`. -/
def names_b_a (a : Nat) : List Nat := if a = 1 then [98] else [97]

/-- Two non-participating entries, on subvolume 1 and on subvolume 2. -/
def two_idle_layout : dht_layout_t :=
  layout_of upstream_consts 0 [entry_ok 0 0 0 (some 1), entry_ok 0 0 0 (some 2)]

/-! ## Buffer alignment (`iobuf.h`) -/

/-- The function-like macro `GF_ALIGN_BUF(ptr, bound)`:
`(unsigned long)(ptr + bound - 1) & (unsigned long)(~(bound - 1))`, with `ptr`
a byte address and `bound` an `unsigned long` (`size_t`), both 64 bits wide. -/
def GF_ALIGN_BUF (ptr bound : Nat) : Nat :=
  ((ptr + bound + 18446744073709551616 - 1) % 18446744073709551616) &&&
    (18446744073709551615 - (bound + 18446744073709551616 - 1) % 18446744073709551616)

/-- The macro `GF_ALIGN_BUF(ptr, bound)` with `bound` an `int`, as in
`GF_ALIGN_BUF(ptr, GF_IOBUF_ALIGN_SIZE)`: `~(bound - 1)` is computed in `int`
(it is `-(bound - 1) - 1`) and the conversion to `unsigned long` extends the
sign. -/
def GF_ALIGN_BUF_int (ptr : Nat) (bound : Int) : Nat :=
  (((ptr : Int) + bound - 1) % 18446744073709551616).toNat &&&
    ((-(bound - 1) - 1) % 18446744073709551616).toNat

/-- The constant `GF_IOBUF_ALIGN_SIZE`. -/
def GF_IOBUF_ALIGN_SIZE : Nat := 512

/-- A layout without entries, as `dht_layout_new (this, 0)` makes it. -/
def empty_layout : dht_layout_t := layout_of upstream_consts 0 []

/-! ## Tilings of the hash space -/

/-- A real entry in the words of the specification: no error, start different
from stop, start not above stop. -/
def is_tile_entry (e : dht_layout_entry) : Bool :=
  decide (e.err = 0 ∧ e.start ≠ e.stop ∧ e.start ≤ e.stop)

/-- Every entry starts one above the stop before it (`prev_stop` for the first),
and the last stop is `0xFFFFFFFF`. -/
def tiles_from (prev_stop : Nat) : List dht_layout_entry → Bool
  | [] => decide (prev_stop = 4294967295)
  | e :: es => decide (e.start = prev_stop + 1) && tiles_from e.stop es

/-- The entries, in order, tile the hash space exactly: the first starts at 0,
each next one starts at the stop before it plus one, the last stops at
`0xFFFFFFFF`. -/
def tiles_exactly : List dht_layout_entry → Bool
  | [] => false
  | e :: es => decide (e.start = 0) && tiles_from e.stop es

/-- The four quarters with entries in between that take no part: two with an
error, one without error and with the range `0..0`, and one with an error that
carries a stale range. -/
def tiled_layout : dht_layout_t :=
  layout_of upstream_consts 0
    [{ err := ENOENT, start := 0, stop := 0, commit_hash := 0, xlator := some 5 },
     entry_ok 0 0 0 (some 6),
     entry_ok 0 0x3FFFFFFF 0 (some 1),
     { err := ENOTCONN, start := 0x40000000, stop := 0x4FFFFFFF, commit_hash := 0,
       xlator := some 7 },
     entry_ok 0x40000000 0x7FFFFFFF 0 (some 2),
     entry_ok 0x80000000 0xBFFFFFFF 0 (some 3),
     { err := -1, start := 0x90000000, stop := 0, commit_hash := 0, xlator := some 8 },
     entry_ok 0xC0000000 0xFFFFFFFF 0 (some 4)]

/-- The full range followed by an entry without error whose start lies above its
stop. -/
def tiled_backwards_layout : dht_layout_t :=
  layout_of upstream_consts 0 [entry_ok 0 0xFFFFFFFF 0 (some 1), entry_ok 5 3 0 (some 2)]

/-! ## Ties under the range comparison -/

/-- Four entries on which the range comparison is not transitive: two of them
have stop 0 with start 5. -/
def crossed_layout : dht_layout_t :=
  layout_of upstream_consts 0
    [entry_ok 5 0 0 (some 1), entry_ok 0 0 0 (some 2), entry_ok 0 5 0 (some 3),
     entry_ok 5 0 0 (some 4)]

/-- Two halves of the hash space and two non-participating entries, the first on
the subvolume named `a` and the second on the one named `b` under `names_b_a`. -/
def idle_between_layout : dht_layout_t :=
  layout_of upstream_consts 0
    [entry_ok 0 0 0 (some 2), entry_ok 0 0x7FFFFFFF 0 (some 3), entry_ok 0 0 0 (some 1),
     entry_ok 0x80000000 0xFFFFFFFF 0 (some 4)]

/-- The two entries compare equal under `dht_layout_entry_cmp`: neither is
greater than the other. -/
def range_tie (x y : dht_layout_entry) : Prop := range_le x y ∧ range_le y x

instance : DecidableRel range_tie := fun x y =>
  inferInstanceAs (Decidable (range_le x y ∧ range_le y x))

/-- The order of `dht_layout_entry_cmp_volname`: the first entry's subvolume
name is not greater than the second's. -/
def name_le (xl_name : Nat → List Nat) (x y : dht_layout_entry) : Prop :=
  dht_layout_entry_cmp_volname xl_name x y ≤ 0

instance (xl_name : Nat → List Nat) : DecidableRel (name_le xl_name) := fun x y =>
  inferInstanceAs (Decidable (dht_layout_entry_cmp_volname xl_name x y ≤ 0))

/-- Entries that tie under the range comparison stand in the order of their
subvolume names. -/
def ties_in_name_order (xl_name : Nat → List Nat) (l : List dht_layout_entry) : Prop :=
  l.Pairwise (fun a b => range_tie a b → name_le xl_name a b)

instance (xl_name : Nat → List Nat) (l : List dht_layout_entry) :
    Decidable (ties_in_name_order xl_name l) := by
  unfold ties_in_name_order; infer_instance

/-! ## Lookup: theorems -/

theorem search_loop_first (h : Nat) :
    ∀ (l : List dht_layout_entry) (i : Nat) (e : dht_layout_entry),
      l[i]? = some e → e.start ≤ h → h ≤ e.stop →
      (∀ (j : Nat) (e' : dht_layout_entry), j < i → l[j]? = some e' →
          ¬ (e'.start ≤ h ∧ h ≤ e'.stop)) →
      search_loop h l = e.xlator := by
  intro l
  induction l with
  | nil => intro i e hi; simp at hi
  | cons a as ih =>
    intro i e hi hs ht hmin
    cases i with
    | zero =>
      simp at hi
      subst hi
      simp [search_loop, hs, ht]
    | succ k =>
      have ha : ¬ (a.start ≤ h ∧ h ≤ a.stop) := hmin 0 a (Nat.succ_pos k) (by simp)
      have hrec : search_loop h as = e.xlator := by
        apply ih k e (by simpa using hi) hs ht
        intro j e' hj hje
        exact hmin (j + 1) e' (Nat.succ_lt_succ hj) (by simpa using hje)
      simp only [search_loop]
      rw [if_neg (by simpa [ge_iff_le] using ha)]
      exact hrec

theorem search_loop_none (h : Nat) :
    ∀ (l : List dht_layout_entry),
      (∀ e ∈ l, ¬ (e.start ≤ h ∧ h ≤ e.stop)) → search_loop h l = none := by
  intro l
  induction l with
  | nil => intro _; rfl
  | cons a as ih =>
    intro hl
    have ha : ¬ (a.start ≤ h ∧ h ≤ a.stop) := hl a (by simp)
    simp only [search_loop]
    rw [if_neg (by simpa [ge_iff_le] using ha)]
    exact ih (fun e he => hl e (by simp [he]))

/-- C2: `dht_layout_search` never changes the layout; when hashing fails it
returns `NULL`; when hashing yields `h` it returns the subvolume of the
lowest-index entry with `start ≤ h ≤ stop`, and `NULL` when no entry holds `h`.
On four equal quarters held by subvolumes 1 to 4, the hash `0x90000000` gives
the third subvolume. -/
theorem dht_layout_search_first_match (hashf : Int → String → Option Nat)
    (layout : dht_layout_t) (name : String) :
    (dht_layout_search hashf layout name).2 = layout ∧
    (hashf layout.type name = none → (dht_layout_search hashf layout name).1 = none) ∧
    (∀ h : Nat, hashf layout.type name = some h →
      (∀ (i : Nat) (e : dht_layout_entry), layout.list[i]? = some e →
        e.start ≤ h → h ≤ e.stop →
        (∀ (j : Nat) (e' : dht_layout_entry), j < i → layout.list[j]? = some e' →
          ¬ (e'.start ≤ h ∧ h ≤ e'.stop)) →
        (dht_layout_search hashf layout name).1 = e.xlator) ∧
      ((∀ e ∈ layout.list, ¬ (e.start ≤ h ∧ h ≤ e.stop)) →
        (dht_layout_search hashf layout name).1 = none)) ∧
    (∀ nm : String,
      (dht_layout_search (fun _ _ => some 0x90000000) quarters nm).1 = some 3) := by
  refine ⟨?_, ?_, ?_, ?_⟩
  · unfold dht_layout_search
    cases hashf layout.type name <;> rfl
  · intro hn
    simp [dht_layout_search, hn]
  · intro h hh
    constructor
    · intro i e hi hs ht hmin
      simp only [dht_layout_search, hh]
      exact search_loop_first h layout.list i e hi hs ht hmin
    · intro hnone
      simp only [dht_layout_search, hh]
      exact search_loop_none h layout.list hnone
  · intro nm
    show search_loop 0x90000000 quarters.list = some 3
    decide

/-- Witness for C2: on the four quarters, a name hashing to `0x90000000` is
found at index 2, no earlier entry holds the hash, and the search returns the
third subvolume. -/
theorem dht_layout_search_first_match_witness :
    (dht_layout_search (fun _ _ => some 0x90000000) quarters "file").1 = some 3 :=
  ((dht_layout_search_first_match (fun _ _ => some 0x90000000) quarters "file").2.2.1
      0x90000000 rfl).1 2 (entry_ok 0x80000000 0xBFFFFFFF 0 (some 3)) rfl
    (by decide) (by decide)
    (by
      intro j e' hj hje
      have hcases : j = 0 ∨ j = 1 := by omega
      rcases hcases with h0 | h1
      · subst h0
        simp [quarters, layout_of] at hje
        subst hje
        simp [entry_ok]
      · subst h1
        simp [quarters, layout_of] at hje
        subst hje
        simp [entry_ok])

/-! ## Disk encoding: lemmas -/


theorem be32toh_htobe32 (x : Nat) (hx : x < 4294967296) : be32toh (htobe32 x) = x := by
  simp only [be32toh, htobe32, List.getD_cons_zero, List.getD_cons_succ]
  omega

theorem int_to_u32_u32_to_int (n : Nat) (hn : n < 4294967296) :
    int_to_u32 (u32_to_int n) = n := by
  unfold int_to_u32 u32_to_int
  split <;> omega

theorem u32_to_int_int_to_u32 (i : Int) (hlo : -2147483648 ≤ i) (hhi : i < 2147483648) :
    u32_to_int (int_to_u32 i) = i := by
  unfold int_to_u32 u32_to_int
  split <;> omega

theorem int_to_u32_lt (i : Int) : int_to_u32 i < 4294967296 := by
  unfold int_to_u32
  omega

theorem extract_ok (has_out : Bool) (layout : dht_layout_t) (pos : Nat) (e : dht_layout_entry)
    (hpos : layout.list[pos]? = some e) :
    dht_disk_layout_extract true has_out layout pos =
      .ok (0, if has_out then
        some (htobe32 e.commit_hash ++ htobe32 (int_to_u32 layout.type) ++ htobe32 e.start
              ++ htobe32 e.stop ++ [0, 0, 0, 0]) else none) := by
  simp only [dht_disk_layout_extract, hpos]
  rfl


theorem toNat_sixteen : Int.toNat 16 = 16 := rfl

theorem memcpy_sixteen (stack raw : List Nat) :
    memcpy (stack.take 16) raw 16 = raw.take 16 := by
  simp [memcpy]

theorem word_at_take (raw : List Nat) (k : Nat) (hk : k < 4) :
    word_at (raw.take 16) k = word_at raw k := by
  unfold word_at
  rw [List.drop_take, List.take_take]
  congr 1
  omega

theorem disk_merge_reject (K : dht_consts) (stack : List Nat) (layout : dht_layout_t)
    (pos : Nat) (raw : List Nat) (hlen : 16 ≤ raw.length)
    (h1 : blob_type raw ≠ K.DHT_HASH_TYPE_DM_USER) (h2 : blob_type raw ≠ K.DHT_HASH_TYPE_DM) :
    dht_disk_layout_merge K stack layout pos (some raw) 16 = .ok (-1, layout) := by
  unfold blob_type at h1 h2
  have hl : ¬ ((16 : Int) < 0 ∨ (16 : Int) < 16 ∨ (raw.length : Int) < 16) := by omega
  simp only [dht_disk_layout_merge, if_neg hl, toNat_sixteen, memcpy_sixteen,
    word_at_take raw 1 (by decide), if_neg h1, if_neg h2]

theorem disk_merge_accept (K : dht_consts) (stack : List Nat) (layout : dht_layout_t)
    (pos : Nat) (raw : List Nat) (e : dht_layout_entry) (hlen : 16 ≤ raw.length)
    (ht : blob_type raw = K.DHT_HASH_TYPE_DM_USER ∨ blob_type raw = K.DHT_HASH_TYPE_DM)
    (hpos : layout.list[pos]? = some e) :
    dht_disk_layout_merge K stack layout pos (some raw) 16 =
      .ok (0, { layout with
                type := if blob_type raw = K.DHT_HASH_TYPE_DM_USER then blob_type raw
                        else layout.type
                list := layout.list.set pos (blob_entry raw e) }) := by
  unfold blob_type at ht ⊢
  have hl : ¬ ((16 : Int) < 0 ∨ (16 : Int) < 16 ∨ (raw.length : Int) < 16) := by omega
  by_cases h1 : u32_to_int (be32toh (word_at raw 1)) = K.DHT_HASH_TYPE_DM_USER
  · simp only [dht_disk_layout_merge, if_neg hl, toNat_sixteen, memcpy_sixteen,
      word_at_take raw 1 (by decide), word_at_take raw 0 (by decide),
      word_at_take raw 2 (by decide), word_at_take raw 3 (by decide), if_pos h1, hpos,
      blob_entry]
  · have h2 : u32_to_int (be32toh (word_at raw 1)) = K.DHT_HASH_TYPE_DM := by
      rcases ht with h | h
      · exact absurd h h1
      · exact h
    simp only [dht_disk_layout_merge, if_neg hl, toNat_sixteen, memcpy_sixteen,
      word_at_take raw 1 (by decide), word_at_take raw 0 (by decide),
      word_at_take raw 2 (by decide), word_at_take raw 3 (by decide), if_neg h1, if_pos h2,
      hpos, blob_entry]

theorem disk_merge_oob (K : dht_consts) (stack : List Nat) (layout : dht_layout_t)
    (pos : Nat) (raw : List Nat) (hlen : 16 ≤ raw.length)
    (ht : blob_type raw = K.DHT_HASH_TYPE_DM_USER ∨ blob_type raw = K.DHT_HASH_TYPE_DM)
    (hpos : layout.list[pos]? = none) :
    dht_disk_layout_merge K stack layout pos (some raw) 16 = .error (.oob_entry pos) := by
  unfold blob_type at ht
  have hl : ¬ ((16 : Int) < 0 ∨ (16 : Int) < 16 ∨ (raw.length : Int) < 16) := by omega
  by_cases h1 : u32_to_int (be32toh (word_at raw 1)) = K.DHT_HASH_TYPE_DM_USER
  · simp only [dht_disk_layout_merge, if_neg hl, toNat_sixteen, memcpy_sixteen,
      word_at_take raw 1 (by decide), if_pos h1, hpos]
  · have h2 : u32_to_int (be32toh (word_at raw 1)) = K.DHT_HASH_TYPE_DM := by
      rcases ht with h | h
      · exact absurd h h1
      · exact h
    simp only [dht_disk_layout_merge, if_neg hl, toNat_sixteen, memcpy_sixteen,
      word_at_take raw 1 (by decide), if_neg h1, if_pos h2, hpos]

/-! ## Disk encoding: round trip, format, rejection -/

theorem list_set_self {α : Type} :
    ∀ (l : List α) (i : Nat) (a : α), l[i]? = some a → l.set i a = l := by
  intro l
  induction l with
  | nil => intro i a h; simp at h
  | cons b bs ih =>
    intro i a h
    cases i with
    | zero =>
      simp at h
      subst h
      rfl
    | succ k =>
      simp at h
      simp [ih k a h]

theorem findIdx_first {α : Type} (p : α → Bool) :
    ∀ (l : List α) (i : Nat) (a : α), l[i]? = some a → p a = true →
      (∀ (j : Nat) (b : α), j < i → l[j]? = some b → p b = false) →
      l.findIdx p = i := by
  intro l
  induction l with
  | nil => intro i a h; simp at h
  | cons c cs ih =>
    intro i a h hp hmin
    cases i with
    | zero =>
      simp at h
      subst h
      simp [List.findIdx_cons, hp]
    | succ k =>
      have hc : p c = false := hmin 0 c (Nat.succ_pos k) (by simp)
      have hrec : cs.findIdx p = k := by
        apply ih k a (by simpa using h) hp
        intro j b hj hjb
        exact hmin (j + 1) b (Nat.succ_lt_succ hj) (by simpa using hjb)
      simp [List.findIdx_cons, hc, hrec]

theorem word_at_extract (a b c d : Nat) :
    word_at (htobe32 a ++ htobe32 b ++ htobe32 c ++ htobe32 d ++ [0, 0, 0, 0]) 0 = htobe32 a ∧
    word_at (htobe32 a ++ htobe32 b ++ htobe32 c ++ htobe32 d ++ [0, 0, 0, 0]) 1 = htobe32 b ∧
    word_at (htobe32 a ++ htobe32 b ++ htobe32 c ++ htobe32 d ++ [0, 0, 0, 0]) 2 = htobe32 c ∧
    word_at (htobe32 a ++ htobe32 b ++ htobe32 c ++ htobe32 d ++ [0, 0, 0, 0]) 3 = htobe32 d ∧
    word_at (htobe32 a ++ htobe32 b ++ htobe32 c ++ htobe32 d ++ [0, 0, 0, 0]) 4 = [0, 0, 0, 0] :=
  ⟨rfl, rfl, rfl, rfl, rfl⟩

theorem htobe32_byte (x b : Nat) (hb : b ∈ htobe32 x) : b < 256 := by
  simp only [htobe32, List.mem_cons, List.mem_singleton, List.not_mem_nil, or_false] at hb
  omega

theorem extract_for_subvol_found (has_out : Bool) (layout : dht_layout_t) (pos : Nat)
    (e : dht_layout_entry) (hpos : layout.list[pos]? = some e)
    (hmin : ∀ (j : Nat) (e' : dht_layout_entry), j < pos → layout.list[j]? = some e' →
      e'.xlator ≠ e.xlator) :
    dht_disk_layout_extract_for_subvol true has_out layout e.xlator =
      dht_disk_layout_extract true has_out layout pos := by
  have hidx : layout.list.findIdx (fun x => decide (x.xlator = e.xlator)) = pos := by
    apply findIdx_first _ layout.list pos e hpos (by simp)
    intro j b hj hjb
    simpa using hmin j b hj hjb
  have hlt : pos < layout.list.length := by
    rcases List.getElem?_eq_some.mp hpos with ⟨h, _⟩
    exact h
  simp only [dht_disk_layout_extract_for_subvol, hidx, dht_layout_t.cnt]
  rw [if_neg (by omega)]

theorem extract_for_subvol_absent (calloc_ok has_out : Bool) (layout : dht_layout_t)
    (subvol : Option Nat) (habs : ∀ e ∈ layout.list, e.xlator ≠ subvol) :
    dht_disk_layout_extract_for_subvol calloc_ok has_out layout subvol = .ok (-1, none) := by
  have hidx : layout.list.findIdx (fun x => decide (x.xlator = subvol)) = layout.list.length := by
    apply List.findIdx_eq_length_of_false
    intro x hx
    simpa using habs x hx
  simp [dht_disk_layout_extract_for_subvol, hidx, dht_layout_t.cnt]

theorem extract_buffer_words (layout : dht_layout_t) (pos : Nat) (e : dht_layout_entry)
    (hpos : layout.list[pos]? = some e) (he : e.wf) :
    (∃ buf : List Nat,
      dht_disk_layout_extract true true layout pos = .ok (0, some buf) ∧
      buf.length = 20 ∧ (∀ b ∈ buf, b < 256) ∧
      buf.getD 0 0 * 16777216 + buf.getD 1 0 * 65536 + buf.getD 2 0 * 256 + buf.getD 3 0
        = e.commit_hash ∧
      ((buf.getD 4 0 * 16777216 + buf.getD 5 0 * 65536 + buf.getD 6 0 * 256 + buf.getD 7 0
        : Nat) : Int) = layout.type % 4294967296 ∧
      buf.getD 8 0 * 16777216 + buf.getD 9 0 * 65536 + buf.getD 10 0 * 256 + buf.getD 11 0
        = e.start ∧
      buf.getD 12 0 * 16777216 + buf.getD 13 0 * 65536 + buf.getD 14 0 * 256 + buf.getD 15 0
        = e.stop ∧
      buf.drop 16 = [0, 0, 0, 0] ∧
      ((∀ (j : Nat) (e' : dht_layout_entry), j < pos → layout.list[j]? = some e' →
          e'.xlator ≠ e.xlator) →
        dht_disk_layout_extract_for_subvol true true layout e.xlator = .ok (0, some buf))) ∧
    (∀ subvol : Option Nat, (∀ e' ∈ layout.list, e'.xlator ≠ subvol) →
      dht_disk_layout_extract_for_subvol true true layout subvol = .ok (-1, none)) := by
  obtain ⟨hs, ht, hc⟩ := he
  unfold U32 at hs ht hc
  have hex := extract_ok true layout pos e hpos
  constructor
  · refine ⟨htobe32 e.commit_hash ++ htobe32 (int_to_u32 layout.type) ++ htobe32 e.start
              ++ htobe32 e.stop ++ [0, 0, 0, 0], ?_, ?_, ?_, ?_, ?_, ?_, ?_, ?_, ?_⟩
    · rw [hex]; rfl
    · simp [htobe32]
    · intro b hb
      simp only [List.mem_append] at hb
      rcases hb with (((hb | hb) | hb) | hb) | hb
      · exact htobe32_byte _ b hb
      · exact htobe32_byte _ b hb
      · exact htobe32_byte _ b hb
      · exact htobe32_byte _ b hb
      · simp at hb
        omega
    · have := be32toh_htobe32 e.commit_hash hc
      simpa [be32toh, htobe32] using this
    · have h1 := be32toh_htobe32 (int_to_u32 layout.type) (int_to_u32_lt _)
      have h2 : ((int_to_u32 layout.type : Nat) : Int) = layout.type % 4294967296 := by
        unfold int_to_u32
        omega
      have h3 : be32toh (word_at (htobe32 e.commit_hash ++ htobe32 (int_to_u32 layout.type) ++
          htobe32 e.start ++ htobe32 e.stop ++ [0, 0, 0, 0]) 1) = int_to_u32 layout.type := by
        rw [(word_at_extract _ _ _ _).2.1]
        exact h1
      exact (congrArg Nat.cast h3).trans h2
    · have := be32toh_htobe32 e.start hs
      simpa [be32toh, htobe32] using this
    · have := be32toh_htobe32 e.stop ht
      simpa [be32toh, htobe32] using this
    · simp [htobe32]
    · intro hmin
      rw [extract_for_subvol_found true layout pos e hpos hmin, hex]
      rfl
  · intro subvol habs
    exact extract_for_subvol_absent true true layout subvol habs

/-- C10: for every layout, position and 16-byte blob whose type word is neither
DM nor DM_USER, `dht_disk_layout_merge` returns -1 and the layout after the call
is the layout before it: no entry and no layout field is written. -/
theorem disk_merge_rejects_unknown_type (K : dht_consts) (stack : List Nat)
    (layout : dht_layout_t) (pos : Nat) (raw : List Nat) (hlen : raw.length = 16)
    (h1 : blob_type raw ≠ K.DHT_HASH_TYPE_DM) (h2 : blob_type raw ≠ K.DHT_HASH_TYPE_DM_USER) :
    dht_disk_layout_merge K stack layout pos (some raw) 16 = .ok (-1, layout) :=
  disk_merge_reject K stack layout pos raw (by omega) h2 h1

/-- Witness for C10: a blob with type word 7 is rejected and the four quarters
stay as they are. -/
theorem disk_merge_rejects_unknown_type_witness :
    dht_disk_layout_merge upstream_consts [] quarters 1
      (some [0, 0, 202, 254, 0, 0, 0, 7, 0, 0, 0, 0, 255, 255, 255, 255]) 16 =
      .ok (-1, quarters) :=
  disk_merge_rejects_unknown_type upstream_consts [] quarters 1
    [0, 0, 202, 254, 0, 0, 0, 7, 0, 0, 0, 0, 255, 255, 255, 255] rfl (by decide) (by decide)

/-! ## Anomalies: refinement of the scan -/

theorem anomalies_step_skip (st : anomalies_state) (e : dht_layout_entry)
    (h : is_real e = false) :
    (anomalies_step st e).hole_cnt = st.hole_cnt ∧
    (anomalies_step st e).overlap_cnt = st.overlap_cnt ∧
    (anomalies_step st e).prev_stop = st.prev_stop ∧
    (anomalies_step st e).is_virgin = st.is_virgin := by
  unfold anomalies_step
  simp only [is_real, decide_eq_false_iff_not, not_and, not_not] at h
  split_ifs with h1 h2 h3 h4 h5
  all_goals first
    | exact ⟨rfl, rfl, rfl, rfl⟩
    | exact absurd (h h4) h5

theorem anomalies_step_real (st : anomalies_state) (e : dht_layout_entry)
    (h : is_real e = true) :
    (anomalies_step st e).hole_cnt =
      st.hole_cnt + (if (st.prev_stop + 1) % 4294967296 < e.start then 1 else 0) ∧
    (anomalies_step st e).overlap_cnt =
      st.overlap_cnt + (if (st.prev_stop + 1) % 4294967296 > e.start then 1 else 0) ∧
    (anomalies_step st e).prev_stop = e.stop ∧
    (anomalies_step st e).is_virgin = false := by
  simp only [is_real, decide_eq_true_eq] at h
  obtain ⟨h0, hne⟩ := h
  have e1 : ¬ (e.err = -1 ∨ e.err = ENOENT ∨ e.err = ESTALE) := by
    rw [h0]; decide
  have e2 : ¬ e.err = ENOTCONN := by rw [h0]; decide
  have e3 : ¬ e.err = ENOSPC := by rw [h0]; decide
  rw [anomalies_step, if_neg e1, if_neg e2, if_neg e3, if_pos h0, if_neg hne]
  refine ⟨?_, ?_, rfl, rfl⟩
  · show (if _ then _ else _) = _
    split_ifs <;> rfl
  · show (if _ then _ else _) = _
    split_ifs <;> rfl

theorem foldl_anomalies_scan :
    ∀ (l : List dht_layout_entry) (st : anomalies_state),
      (l.foldl anomalies_step st).hole_cnt =
        st.hole_cnt + (scan_real st.prev_stop (l.filter is_real)).1 ∧
      (l.foldl anomalies_step st).overlap_cnt =
        st.overlap_cnt + (scan_real st.prev_stop (l.filter is_real)).2.1 ∧
      (l.foldl anomalies_step st).prev_stop =
        (scan_real st.prev_stop (l.filter is_real)).2.2 ∧
      (l.foldl anomalies_step st).is_virgin =
        (st.is_virgin && (l.filter is_real).isEmpty) := by
  intro l
  induction l with
  | nil => intro st; simp [scan_real]
  | cons e es ih =>
    intro st
    obtain ⟨i1, i2, i3, i4⟩ := ih (anomalies_step st e)
    simp only [List.foldl_cons]
    rw [i1, i2, i3, i4]
    cases hr : is_real e with
    | false =>
      obtain ⟨s1, s2, s3, s4⟩ := anomalies_step_skip st e hr
      rw [s1, s2, s3, s4]
      simp [List.filter_cons, hr]
    | true =>
      obtain ⟨s1, s2, s3, s4⟩ := anomalies_step_real st e hr
      rw [s1, s2, s3, s4]
      simp [List.filter_cons, hr, scan_real, Nat.add_assoc]

theorem scan_real_final_lt :
    ∀ (l : List dht_layout_entry) (p : Nat), p < 4294967296 →
      (∀ e ∈ l, e.stop < 4294967296) → (scan_real p l).2.2 < 4294967296 := by
  intro l
  induction l with
  | nil => intro p hp _; simpa [scan_real] using hp
  | cons e es ih =>
    intro p _ hl
    simp only [scan_real]
    exact ih e.stop (hl e (by simp)) (fun x hx => hl x (by simp [hx]))

theorem anomalies_ok (e0 : dht_layout_entry) (es : List dht_layout_entry)
    (layout : dht_layout_t) (hl : layout.list = e0 :: es) (hwf : layout.wf) :
    ∃ a : anomalies_t, dht_layout_anomalies layout = .ok a ∧
      a.holes = (scan_initial layout.list).1 ∧ a.overlaps = (scan_initial layout.list).2 := by
  have hstop : ∀ e ∈ (e0 :: es).filter is_real, e.stop < 4294967296 := by
    intro e he
    have hmem : e ∈ layout.list := by
      rw [hl]
      exact (List.mem_filter.mp he).1
    exact (hwf.2.2.2 e hmem).2.1
  have hp : (e0.start + 4294967296 - 1) % 4294967296 < 4294967296 :=
    Nat.mod_lt _ (by decide)
  have hfin := scan_real_final_lt ((e0 :: es).filter is_real) _ hp hstop
  obtain ⟨f1, f2, f3, f4⟩ := foldl_anomalies_scan (e0 :: es)
    { missing := 0, down := 0, misc := 0, hole_cnt := 0, overlap_cnt := 0,
      prev_stop := (e0.start + 4294967296 - 1) % 4294967296, is_virgin := true, no_space := 0 }
  simp only [Nat.zero_add, Bool.true_and] at f1 f2 f3 f4
  refine ⟨_, by simp only [dht_layout_anomalies, hl]; rfl, ?_, ?_⟩
  · simp only [hl, scan_initial, scan_with_top]
    rw [f1, f3, f4]
    by_cases hv : ((e0 :: es).filter is_real).isEmpty = true
    · simp [hv]
    · have hv' : ((e0 :: es).filter is_real).isEmpty = false := by simpa using hv
      simp only [hv', Bool.false_eq_true, or_false, false_or]
      by_cases hq : (scan_real ((e0.start + 4294967296 - 1) % 4294967296)
          ((e0 :: es).filter is_real)).2.2 = (e0.start + 4294967296 - 1) % 4294967296
      · rw [if_neg (by rw [hq]; omega), if_neg (by simpa using hq)]
        rfl
      · rw [if_pos (by omega), if_pos hq]
  · simp only [hl, scan_initial, scan_with_top]
    rw [f2]

/-- C5 (amended): for every layout with at least one entry, the hole and overlap
counters that `dht_layout_anomalies` reports are those of this scan: skip the
entries with an error and the entries with start equal to stop; over the others,
in order, with `prev_stop` at first the first entry's start minus one, count a
hole when `prev_stop + 1 < start` and an overlap when `prev_stop + 1 > start`,
then set `prev_stop` to the stop; after the loop add one hole exactly when no
entry was compared or `prev_stop` differs from its initial value, the first
entry's start minus one.  When the first entry starts at 0 that value is
`0xFFFFFFFF` and the scan is the one that compares with the top of the hash
space.  On `0..0x3FFFFFFF, 0x50000000..0xFFFFFFFF` the counters are one hole and
no overlap. -/
theorem anomalies_eq_scan (layout : dht_layout_t) (hne : layout.list ≠ []) (hwf : layout.wf) :
    (∃ a : anomalies_t, dht_layout_anomalies layout = .ok a ∧
      (a.holes, a.overlaps) = scan_initial layout.list) ∧
    (∀ (e0 : dht_layout_entry) (es : List dht_layout_entry), layout.list = e0 :: es →
      e0.start = 0 → scan_initial layout.list = scan_claimed layout.list) ∧
    (∃ a : anomalies_t, dht_layout_anomalies hole_layout = .ok a ∧
      a.holes = 1 ∧ a.overlaps = 0) := by
  refine ⟨?_, ?_, ?_⟩
  · cases hl : layout.list with
    | nil => exact absurd hl hne
    | cons e0 es =>
      obtain ⟨a, ha, h1, h2⟩ := anomalies_ok e0 es layout hl hwf
      rw [hl] at h1 h2
      exact ⟨a, ha, by rw [h1, h2]⟩
  · intro e0 es hl h0
    simp [hl, scan_initial, scan_claimed, h0]
  · exact ⟨_, rfl, rfl, rfl⟩

/-- Witness for C5: the layout with a hole between its two entries. -/
theorem anomalies_eq_scan_witness :
    ∃ a : anomalies_t, dht_layout_anomalies hole_layout = .ok a ∧
      (a.holes, a.overlaps) = scan_initial hole_layout.list :=
  (anomalies_eq_scan hole_layout (by decide) (by decide)).1

/-- Counterexample for C5 as stated: on the single entry `5..0xFFFFFFFF` the code
reports one hole (its `prev_stop` ends at `0xFFFFFFFF`, not at the initial 4),
while the scan that compares with the top of the hash space reports none. -/
theorem anomalies_ne_scan_claimed :
    late_start_layout.wf ∧
    (∃ a : anomalies_t, dht_layout_anomalies late_start_layout = .ok a ∧
      a.holes = 1 ∧ a.overlaps = 0) ∧
    scan_claimed late_start_layout.list = (0, 0) :=
  ⟨by decide, ⟨_, rfl, rfl, rfl⟩, by decide⟩

/-! ## Normalisation -/

theorem msort_merge_perm {α : Type} (cmp : α → α → Int) :
    ∀ (fuel : Nat) (b1 b2 : List α), (msort_merge cmp fuel b1 b2).Perm (b1 ++ b2) := by
  intro fuel
  induction fuel with
  | zero => intro b1 b2; simp [msort_merge]
  | succ k ih =>
    intro b1 b2
    cases b1 with
    | nil => simp [msort_merge]
    | cons x xs =>
      cases b2 with
      | nil => simp [msort_merge]
      | cons y ys =>
        simp only [msort_merge]
        split_ifs
        · exact (ih xs (y :: ys)).cons x
        · have h1 := (ih (x :: xs) ys).cons y
          exact h1.trans (List.perm_middle.symm)

theorem msort_perm {α : Type} (cmp : α → α → Int) :
    ∀ (fuel : Nat) (b : List α), (msort_with_tmp cmp fuel b).Perm b := by
  intro fuel
  induction fuel with
  | zero => intro b; simp [msort_with_tmp]
  | succ k ih =>
    intro b
    simp only [msort_with_tmp]
    split_ifs
    · exact List.Perm.refl _
    · have h1 := msort_merge_perm cmp b.length (msort_with_tmp cmp k (b.take (b.length / 2)))
        (msort_with_tmp cmp k (b.drop (b.length / 2)))
      have h2 := (ih (b.take (b.length / 2))).append (ih (b.drop (b.length / 2)))
      rw [List.take_append_drop] at h2
      exact h1.trans h2

theorem qsort_perm {α : Type} (cmp : α → α → Int) (l : List α) : (qsort cmp l).Perm l :=
  msort_perm cmp l.length l

theorem sort_list_perm (layout : dht_layout_t) :
    (dht_layout_sort layout).list.Perm layout.list :=
  qsort_perm dht_layout_entry_cmp layout.list

theorem sort_list_ne_nil (layout : dht_layout_t) (hne : layout.list ≠ []) :
    (dht_layout_sort layout).list ≠ [] := by
  intro h
  have hp := sort_list_perm layout
  rw [h] at hp
  exact hne (List.Perm.nil_eq hp).symm

theorem missing_dirs_loop_count :
    ∀ (l : List dht_layout_entry) (acc : Int),
      missing_dirs_loop acc l = acc + (l.countP is_missing_dir : Nat) := by
  intro l
  induction l with
  | nil => intro acc; simp [missing_dirs_loop]
  | cons e es ih =>
    intro acc
    by_cases h : e.err = ENOENT ∨ (e.err = -1 ∧ e.start = 0 ∧ e.stop = 0)
    · have hm : is_missing_dir e = true := by simpa [is_missing_dir] using h
      rw [missing_dirs_loop, if_pos h, ih, List.countP_cons_of_pos _ _ hm]
      push_cast
      ring
    · have hm : ¬ is_missing_dir e = true := by simpa [is_missing_dir] using h
      rw [missing_dirs_loop, if_neg h, ih, List.countP_cons_of_neg _ _ hm]

theorem missing_dirs_sort (layout : dht_layout_t) :
    dht_layout_missing_dirs (dht_layout_sort layout) =
      (layout.list.countP is_missing_dir : Nat) := by
  unfold dht_layout_missing_dirs
  rw [missing_dirs_loop_count, (sort_list_perm layout).countP_eq]
  simp

theorem anomalies_defined (layout : dht_layout_t) (hne : layout.list ≠ []) :
    ∃ a : anomalies_t, dht_layout_anomalies layout = .ok a := by
  cases hl : layout.list with
  | nil => exact absurd hl hne
  | cons e0 es => exact ⟨_, by simp only [dht_layout_anomalies, hl]; rfl⟩

theorem normalize_unfold (layout : dht_layout_t) (a : anomalies_t)
    (ha : dht_layout_anomalies (dht_layout_sort layout) = .ok a) :
    dht_layout_normalize layout =
      .ok (if a.holes ≠ 0 ∨ a.overlaps ≠ 0 then -1
           else ((layout.list.countP is_missing_dir : Nat) : Int), dht_layout_sort layout) := by
  simp only [dht_layout_normalize, ha, missing_dirs_sort]
  by_cases h : a.holes ≠ 0 ∨ a.overlaps ≠ 0
  · simp [h]
  · simp only [if_neg h]
    by_cases hz : ((layout.list.countP is_missing_dir : Nat) : Int) > 0
    · simp [hz]
    · have : ((layout.list.countP is_missing_dir : Nat) : Int) = 0 := by omega
      simp [this]

/-- C6: for every layout with at least one entry, `dht_layout_normalize` sorts
the layout and returns -1 exactly when `dht_layout_anomalies` on the sorted
layout reports a hole or an overlap; otherwise it returns the number of entries
with error `ENOENT`, or with error -1 and start and stop zero, which is not
negative.  On `0..0x7FFFFFFF, 0x70000000..0xFFFFFFFF` and one `ENOENT` entry the
sorted layout has no hole, one overlap and one missing entry, and the result is
-1. -/
theorem normalize_result (layout : dht_layout_t) (hne : layout.list ≠ []) :
    (∃ (a : anomalies_t) (ret : Int),
      dht_layout_anomalies (dht_layout_sort layout) = .ok a ∧
      dht_layout_normalize layout = .ok (ret, dht_layout_sort layout) ∧
      (ret = -1 ↔ (a.holes ≠ 0 ∨ a.overlaps ≠ 0)) ∧
      (¬ (a.holes ≠ 0 ∨ a.overlaps ≠ 0) →
        0 ≤ ret ∧ ret = ((layout.list.countP is_missing_dir : Nat) : Int))) ∧
    (dht_layout_anomalies (dht_layout_sort overlap_missing_layout) =
        .ok { holes := 0, overlaps := 1, missing := 1, down := 0, misc := 0, no_space := 0 } ∧
      ∃ l : dht_layout_t, dht_layout_normalize overlap_missing_layout = .ok (-1, l)) := by
  constructor
  · obtain ⟨a, ha⟩ := anomalies_defined (dht_layout_sort layout) (sort_list_ne_nil layout hne)
    refine ⟨a, _, ha, normalize_unfold layout a ha, ?_, ?_⟩
    · by_cases h : a.holes ≠ 0 ∨ a.overlaps ≠ 0
      · simp [h]
      · rw [if_neg h]
        have hc : (0 : Int) ≤ ((layout.list.countP is_missing_dir : Nat) : Int) :=
          Int.ofNat_nonneg _
        constructor
        · intro h1
          omega
        · intro h1
          exact absurd h1 h
    · intro h
      rw [if_neg h]
      exact ⟨Int.ofNat_nonneg _, rfl⟩
  · exact ⟨rfl, ⟨_, rfl⟩⟩

/-- Witness for C6: the layout with an overlap and a missing directory. -/
theorem normalize_result_witness :
    ∃ (a : anomalies_t) (ret : Int),
      dht_layout_anomalies (dht_layout_sort overlap_missing_layout) = .ok a ∧
      dht_layout_normalize overlap_missing_layout =
        .ok (ret, dht_layout_sort overlap_missing_layout) ∧
      (ret = -1 ↔ (a.holes ≠ 0 ∨ a.overlaps ≠ 0)) :=
  match (normalize_result overlap_missing_layout (by decide)).1 with
  | ⟨a, ret, h1, h2, h3, _⟩ => ⟨a, ret, h1, h2, h3⟩

/-! ## Normalisation to zero and partitions of the hash space -/

theorem scan_real_chain :
    ∀ (l : List dht_layout_entry) (p : Nat),
      (scan_real p l).1 = 0 → (scan_real p l).2.1 = 0 → chain_ok p l := by
  intro l
  induction l with
  | nil => intro p _ _; trivial
  | cons e es ih =>
    intro p h1 h2
    simp only [scan_real] at h1 h2
    refine ⟨?_, ih e.stop (by omega) (by omega)⟩
    by_contra hne
    rcases Nat.lt_or_gt_of_ne hne with hlt | hgt
    · rw [if_pos hlt] at h1
      omega
    · rw [if_pos hgt] at h2
      omega

theorem scan_real_final :
    ∀ (l : List dht_layout_entry) (p : Nat), (scan_real p l).2.2 = final_stop p l := by
  intro l
  induction l with
  | nil => intro p; rfl
  | cons e es ih => intro p; simp only [scan_real, final_stop]; exact ih e.stop

theorem final_stop_mem :
    ∀ (l : List dht_layout_entry) (p : Nat), l ≠ [] → ∃ e ∈ l, e.stop = final_stop p l := by
  intro l
  induction l with
  | nil => intro p h; exact absurd rfl h
  | cons e es ih =>
    intro p _
    cases hes : es with
    | nil => exact ⟨e, by simp, by simp [final_stop]⟩
    | cons e' es' =>
      obtain ⟨x, hx, hxs⟩ := ih e.stop (by rw [hes]; simp)
      rw [hes] at hx hxs
      exact ⟨x, by simp [List.mem_cons] at hx ⊢; tauto, by simpa [final_stop] using hxs⟩

theorem chain_tiles :
    ∀ (l : List dht_layout_entry) (p : Nat), l ≠ [] →
      (∀ e ∈ l, e.start ≤ e.stop ∧ e.stop < 4294967296) → chain_ok p l →
      l.countP stops_at_top ≤ (if final_stop p l = 4294967295 then 1 else 0) →
      (p + 1) % 4294967296 ≤ final_stop p l ∧
      ∀ h : Nat, l.countP (holds h) =
        if (p + 1) % 4294967296 ≤ h ∧ h ≤ final_stop p l then 1 else 0 := by
  intro l
  induction l with
  | nil => intro p h; exact absurd rfl h
  | cons e es ih =>
    intro p _ hv hc hT
    obtain ⟨hstart, hrest⟩ := hc
    obtain ⟨hle, hlt⟩ := hv e (by simp)
    by_cases hes : es = []
    · subst hes
      simp only [final_stop, List.countP_cons, List.countP_nil, Nat.zero_add, holds,
        decide_eq_true_eq]
      rw [hstart]
      exact ⟨hle, fun h => rfl⟩
    · have hnt : e.stop ≠ 4294967295 := by
        intro ht
        have h1 : stops_at_top e = true := by simp [stops_at_top, ht]
        rw [List.countP_cons_of_pos _ _ h1] at hT
        simp only [final_stop] at hT
        obtain ⟨x, hx, hxs⟩ := final_stop_mem es e.stop hes
        by_cases hf : final_stop e.stop es = 4294967295
        · have hpos : 0 < es.countP stops_at_top :=
            List.countP_pos_iff.mpr ⟨x, hx, by simp [stops_at_top, hxs, hf]⟩
          rw [if_pos hf] at hT
          omega
        · rw [if_neg hf] at hT
          omega
      have h0 : ¬ stops_at_top e = true := by simp [stops_at_top, hnt]
      rw [List.countP_cons_of_neg _ _ h0] at hT
      simp only [final_stop] at hT ⊢
      obtain ⟨ile, icnt⟩ := ih e.stop hes (fun x hx => hv x (by simp [hx])) hrest hT
      have hs1 : (e.stop + 1) % 4294967296 = e.stop + 1 := Nat.mod_eq_of_lt (by omega)
      rw [hs1] at ile icnt
      rw [hstart]
      refine ⟨by omega, fun h => ?_⟩
      rw [List.countP_cons, icnt h]
      simp only [holds, decide_eq_true_eq]
      split_ifs <;> omega

theorem chain_wraps :
    ∀ (l : List dht_layout_entry) (p : Nat),
      (∀ e ∈ l, e.start ≤ e.stop ∧ e.stop < 4294967296) → chain_ok p l →
      l.countP stops_at_top = 1 → final_stop p l ≠ 4294967295 →
      ∀ h : Nat, h ≤ 4294967295 → l.countP (holds h) =
        (if (p + 1) % 4294967296 ≤ h then 1 else 0) +
          (if h ≤ final_stop p l then 1 else 0) := by
  intro l
  induction l with
  | nil => intro p _ _ hT; simp at hT
  | cons e es ih =>
    intro p hv hc hT hf h hh
    obtain ⟨hstart, hrest⟩ := hc
    obtain ⟨hle, hlt⟩ := hv e (by simp)
    simp only [final_stop] at hf ⊢
    rw [hstart]
    by_cases ht : e.stop = 4294967295
    · have h1 : stops_at_top e = true := by simp [stops_at_top, ht]
      rw [List.countP_cons_of_pos _ _ h1] at hT
      have hT0 : es.countP stops_at_top = 0 := by omega
      have hne : es ≠ [] := by
        intro hnil
        rw [hnil] at hf
        exact hf (by simpa [final_stop] using ht)
      obtain ⟨_, icnt⟩ := chain_tiles es e.stop hne (fun x hx => hv x (by simp [hx])) hrest
        (by rw [hT0]; exact Nat.zero_le _)
      have hs1 : (e.stop + 1) % 4294967296 = 0 := by rw [ht]
      rw [hs1] at icnt
      rw [List.countP_cons, icnt h]
      simp only [holds, decide_eq_true_eq]
      split_ifs <;> omega
    · have h0 : ¬ stops_at_top e = true := by simp [stops_at_top, ht]
      rw [List.countP_cons_of_neg _ _ h0] at hT
      have icnt := ih e.stop (fun x hx => hv x (by simp [hx])) hrest hT hf h hh
      have hs1 : (e.stop + 1) % 4294967296 = e.stop + 1 := Nat.mod_eq_of_lt (by omega)
      rw [hs1] at icnt
      rw [List.countP_cons, icnt]
      simp only [holds, decide_eq_true_eq]
      split_ifs <;> omega


theorem closed_chain_partition (R : List dht_layout_entry) (s0 : Nat)
    (hs0 : s0 < 4294967296) (hR : R ≠ [])
    (hv : ∀ e ∈ R, e.start ≤ e.stop ∧ e.stop < 4294967296)
    (hc : chain_ok ((s0 + 4294967296 - 1) % 4294967296) R)
    (hfin : final_stop ((s0 + 4294967296 - 1) % 4294967296) R =
      (s0 + 4294967296 - 1) % 4294967296)
    (hT : R.countP stops_at_top ≤ 1) :
    ∀ h : Nat, h < 4294967296 → R.countP (holds h) = 1 := by
  intro h hh
  have ha : ((s0 + 4294967296 - 1) % 4294967296 + 1) % 4294967296 = s0 := by omega
  by_cases hcase : final_stop ((s0 + 4294967296 - 1) % 4294967296) R = 4294967295 ∨
      R.countP stops_at_top = 0
  · have hT' : R.countP stops_at_top ≤
        (if final_stop ((s0 + 4294967296 - 1) % 4294967296) R = 4294967295 then 1 else 0) := by
      rcases hcase with h1 | h1
      · rw [if_pos h1]; exact hT
      · rw [h1]; exact Nat.zero_le _
    obtain ⟨ile, icnt⟩ := chain_tiles R _ hR hv hc hT'
    rw [icnt h, ha]
    rw [ha] at ile
    rw [hfin] at ile ⊢
    rw [if_pos (by omega)]
  · have hf : final_stop ((s0 + 4294967296 - 1) % 4294967296) R ≠ 4294967295 :=
      fun h1 => hcase (Or.inl h1)
    have hT1 : R.countP stops_at_top = 1 := by
      have : R.countP stops_at_top ≠ 0 := fun h1 => hcase (Or.inr h1)
      omega
    rw [chain_wraps R _ hv hc hT1 hf h (by omega), ha]
    rw [hfin] at hf ⊢
    split_ifs <;> omega

theorem countP_le_one_pairwise :
    ∀ (l : List dht_layout_entry), (∀ h : Nat, l.countP (holds h) ≤ 1) →
      l.Pairwise (fun a b => ∀ h : Nat, ¬ (holds h a = true ∧ holds h b = true)) := by
  intro l
  induction l with
  | nil => intro _; exact List.Pairwise.nil
  | cons a as ih =>
    intro hcnt
    refine List.Pairwise.cons ?_ (ih ?_)
    · intro b hb h hab
      have h1 := hcnt h
      rw [List.countP_cons_of_pos _ _ hab.1] at h1
      have h2 : 0 < as.countP (holds h) := List.countP_pos_iff.mpr ⟨b, hb, hab.2⟩
      omega
    · intro h
      have h1 := hcnt h
      rw [List.countP_cons] at h1
      omega

/-- C1 (amended): for every layout with at least one entry in which every entry
with no error and start different from stop has its start below its stop, and
at most one such entry stops at `0xFFFFFFFF`: if `dht_layout_normalize` returns
0, then in the sorted layout it leaves behind the entries with no error and start
different from stop partition the hash space: their inclusive ranges are
pairwise disjoint, a hash value lies in one of them exactly when it is below
`2 ^ 32`, and every such hash value lies in exactly one of them. -/
theorem normalize_zero_partition (layout sorted : dht_layout_t)
    (hne : layout.list ≠ []) (hwf : layout.wf)
    (hord : ∀ e ∈ layout.list, is_real e = true → e.start ≤ e.stop)
    (htop : layout.list.countP (fun e => stops_at_top e && is_real e) ≤ 1)
    (hnorm : dht_layout_normalize layout = .ok (0, sorted)) :
    sorted = dht_layout_sort layout ∧
    (sorted.list.filter is_real).Pairwise
      (fun a b => ∀ h : Nat, ¬ (holds h a = true ∧ holds h b = true)) ∧
    (∀ h : Nat, (∃ e ∈ sorted.list.filter is_real, holds h e = true) ↔ h < 4294967296) ∧
    (∀ h : Nat, h < 4294967296 → (sorted.list.filter is_real).countP (holds h) = 1) := by
  have hperm := sort_list_perm layout
  have hswf : (dht_layout_sort layout).wf :=
    ⟨hwf.1, hwf.2.1, hwf.2.2.1, fun e he => hwf.2.2.2 e (hperm.mem_iff.mp he)⟩
  cases hl : (dht_layout_sort layout).list with
  | nil => exact absurd hl (sort_list_ne_nil layout hne)
  | cons e0 es =>
    obtain ⟨a, ha, hh, ho⟩ := anomalies_ok e0 es (dht_layout_sort layout) hl hswf
    have hn := normalize_unfold layout a ha
    rw [hnorm] at hn
    injection hn with hn
    injection hn with hret hsorted
    have hclean : ¬ (a.holes ≠ 0 ∨ a.overlaps ≠ 0) := by
      intro hbad
      rw [if_pos hbad] at hret
      omega
    have hh0 : a.holes = 0 := by omega
    have ho0 : a.overlaps = 0 := by omega
    rw [hl] at hh ho
    simp only [scan_initial, scan_with_top] at hh ho
    rw [hh0] at hh
    rw [ho0] at ho
    have hR : (e0 :: es).filter is_real ≠ [] := by
      intro hnil
      rw [hnil] at hh
      simp at hh
    have hfin0 : (scan_real ((e0.start + 4294967296 - 1) % 4294967296)
        ((e0 :: es).filter is_real)).2.2 = (e0.start + 4294967296 - 1) % 4294967296 := by
      by_contra hq
      rw [if_pos (Or.inr hq)] at hh
      omega
    have hz1 : (scan_real ((e0.start + 4294967296 - 1) % 4294967296)
        ((e0 :: es).filter is_real)).1 = 0 := by omega
    have hc := scan_real_chain _ _ hz1 ho.symm
    rw [scan_real_final] at hfin0
    have hmemS : ∀ e ∈ (e0 :: es).filter is_real, e ∈ layout.list ∧ is_real e = true := by
      intro e he
      obtain ⟨h1, h2⟩ := List.mem_filter.mp he
      rw [← hl] at h1
      exact ⟨hperm.mem_iff.mp h1, h2⟩
    have hv : ∀ e ∈ (e0 :: es).filter is_real, e.start ≤ e.stop ∧ e.stop < 4294967296 := by
      intro e he
      obtain ⟨h1, h2⟩ := hmemS e he
      exact ⟨hord e h1 h2, (hwf.2.2.2 e h1).2.1⟩
    have hT : ((e0 :: es).filter is_real).countP stops_at_top ≤ 1 := by
      rw [List.countP_filter, ← hl, hperm.countP_eq]
      exact htop
    have hs0 : e0.start < 4294967296 :=
      (hswf.2.2.2 e0 (by rw [hl]; simp)).1
    have hone := closed_chain_partition _ e0.start hs0 hR hv hc hfin0 hT
    have hle : ∀ h : Nat, ((e0 :: es).filter is_real).countP (holds h) ≤ 1 := by
      intro h
      by_cases hh' : h < 4294967296
      · rw [hone h hh']
      · have : ((e0 :: es).filter is_real).countP (holds h) = 0 := by
          rw [List.countP_eq_zero]
          intro e he
          have := (hv e he).2
          simp only [holds, decide_eq_true_eq]
          omega
        omega
    subst hsorted
    rw [hl]
    refine ⟨rfl, countP_le_one_pairwise _ hle, ?_, hone⟩
    intro h
    constructor
    · rintro ⟨e, he, hhe⟩
      have := (hv e he).2
      simp only [holds, decide_eq_true_eq] at hhe
      omega
    · intro hh'
      have h1 := hone h hh'
      exact List.countP_pos_iff.mp (by omega)

/-- Witness for C1: the four quarters normalise to 0 and partition the hash
space. -/
theorem normalize_zero_partition_witness :
    (dht_layout_sort quarters).list.filter is_real = quarters.list ∧
    ∀ h : Nat, h < 4294967296 →
      ((dht_layout_sort quarters).list.filter is_real).countP (holds h) = 1 :=
  ⟨by decide,
   (normalize_zero_partition quarters (dht_layout_sort quarters) (by decide) (by decide)
      (by decide) (by decide) rfl).2.2.2⟩

/-- Counterexample for C1 as stated: two entries that both cover `0..0xFFFFFFFF`
normalise to 0 although both hold the hash 0 (the 32-bit sum `prev_stop + 1`
wraps to 0); and the single entry `5..4` normalises to 0 although its range
holds no hash value at all. -/
theorem normalize_zero_not_partition :
    full_twice_layout.wf ∧
    dht_layout_normalize full_twice_layout = .ok (0, full_twice_layout) ∧
    (full_twice_layout.list.filter is_real).countP (holds 0) = 2 ∧
    backwards_layout.wf ∧
    dht_layout_normalize backwards_layout = .ok (0, backwards_layout) ∧
    (∀ h : Nat, (backwards_layout.list.filter is_real).countP (holds h) = 0) := by
  refine ⟨by decide, rfl, by decide, by decide, rfl, ?_⟩
  intro h
  simp [backwards_layout, layout_of, entry_ok, is_real, holds]
  omega

/-! ## Per-brick merge -/

theorem merge_unfold (K : dht_consts) (stack : List Nat) (layout : dht_layout_t)
    (subvol : Option Nat) (op_ret op_errno : Int) (xattr : Option dict_t)
    (i : Nat) (e : dht_layout_entry)
    (hi : layout.list[i]? = some e) (hun : e.xlator = none)
    (hmin : ∀ (j : Nat) (e' : dht_layout_entry), j < i → layout.list[j]? = some e' →
      e'.xlator ≠ none) :
    layout.list.findIdx (fun x => decide (x.xlator = none)) = i ∧
    i < layout.list.length ∧
    (op_ret ≠ 0 →
      dht_layout_merge K stack layout subvol op_ret op_errno xattr =
        .ok (0, { layout with list := layout.list.set i (claimed e op_errno subvol) })) ∧
    (op_ret = 0 → (∀ d : dict_t, xattr = some d → d.ret ≠ 0) →
      dht_layout_merge K stack layout subvol op_ret op_errno xattr =
        .ok (0, { layout with list := layout.list.set i (claimed e 0 subvol) })) ∧
    (op_ret = 0 → ∀ d : dict_t, xattr = some d → d.ret = 0 →
      dht_layout_merge K stack layout subvol op_ret op_errno xattr =
        match dht_disk_layout_merge K stack
            { layout with list := layout.list.set i (claimed e (-1) subvol) } i d.ptr d.len with
        | .error f => .error f
        | .ok (r, layout2) =>
          if r ≠ 0 then .ok (r, layout2)
          else
            match layout2.list[i]? with
            | none => .error (.oob_entry i)
            | some e2 =>
              .ok (0, { layout2 with
                        commit_hash := agree K layout2.commit_hash e2.commit_hash
                        list := layout2.list.set i { e2 with err := 0 } })) := by
  have hidx : layout.list.findIdx (fun x => decide (x.xlator = none)) = i := by
    apply findIdx_first _ layout.list i e hi (by simp [hun])
    intro j b hj hjb
    simpa using hmin j b hj hjb
  have hlt : i < layout.list.length := by
    rcases List.getElem?_eq_some.mp hi with ⟨h, _⟩
    exact h
  refine ⟨hidx, hlt, ?_, ?_, ?_⟩
  · intro hr
    simp only [dht_layout_merge, hidx, hi, claimed]
    simp [hr]
  · intro hr hx
    subst hr
    cases xattr with
    | none =>
      simp only [dht_layout_merge, hidx, hi, claimed]
      simp [List.getElem?_set_self hlt]
    | some d =>
      have hd := hx d rfl
      simp only [dht_layout_merge, hidx, hi, claimed]
      simp [List.getElem?_set_self hlt, hd]
  · intro hr d hx hd
    subst hr
    subst hx
    simp only [dht_layout_merge, hidx, hi, claimed, hd, agree]
    simp


theorem merge_null_data (K : dht_consts) (stack : List Nat) (layout : dht_layout_t)
    (subvol : Option Nat) (op_errno : Int) (d : dict_t) (i : Nat) (e : dht_layout_entry)
    (hi : layout.list[i]? = some e) (hun : e.xlator = none)
    (hmin : ∀ (j : Nat) (e' : dht_layout_entry), j < i → layout.list[j]? = some e' →
      e'.xlator ≠ none)
    (hret : d.ret = 0) (hptr : d.ptr = none) :
    dht_layout_merge K stack layout subvol 0 op_errno (some d) =
      .ok (-1, { layout with list := layout.list.set i (claimed e (-1) subvol) }) := by
  rw [(merge_unfold K stack layout subvol 0 op_errno (some d) i e hi hun hmin).2.2.2.2 rfl d rfl
    hret, hptr]
  simp [dht_disk_layout_merge]

theorem merge_bad_type (K : dht_consts) (stack : List Nat) (layout : dht_layout_t)
    (subvol : Option Nat) (op_errno : Int) (d : dict_t) (raw : List Nat) (i : Nat)
    (e : dht_layout_entry)
    (hi : layout.list[i]? = some e) (hun : e.xlator = none)
    (hmin : ∀ (j : Nat) (e' : dht_layout_entry), j < i → layout.list[j]? = some e' →
      e'.xlator ≠ none)
    (hret : d.ret = 0) (hptr : d.ptr = some raw) (hlen : d.len = 16) (hraw : 16 ≤ raw.length)
    (h1 : blob_type raw ≠ K.DHT_HASH_TYPE_DM_USER) (h2 : blob_type raw ≠ K.DHT_HASH_TYPE_DM) :
    dht_layout_merge K stack layout subvol 0 op_errno (some d) =
      .ok (-1, { layout with list := layout.list.set i (claimed e (-1) subvol) }) := by
  rw [(merge_unfold K stack layout subvol 0 op_errno (some d) i e hi hun hmin).2.2.2.2 rfl d rfl
    hret, hptr, hlen, disk_merge_reject K stack _ i raw hraw h1 h2]
  simp

theorem merge_good_blob (K : dht_consts) (stack : List Nat) (layout : dht_layout_t)
    (subvol : Option Nat) (op_errno : Int) (d : dict_t) (raw : List Nat) (i : Nat)
    (e : dht_layout_entry)
    (hi : layout.list[i]? = some e) (hun : e.xlator = none)
    (hmin : ∀ (j : Nat) (e' : dht_layout_entry), j < i → layout.list[j]? = some e' →
      e'.xlator ≠ none)
    (hret : d.ret = 0) (hptr : d.ptr = some raw) (hlen : d.len = 16) (hraw : 16 ≤ raw.length)
    (ht : blob_type raw = K.DHT_HASH_TYPE_DM_USER ∨ blob_type raw = K.DHT_HASH_TYPE_DM) :
    dht_layout_merge K stack layout subvol 0 op_errno (some d) =
      .ok (0, { layout with
                type := if blob_type raw = K.DHT_HASH_TYPE_DM_USER then blob_type raw
                        else layout.type
                commit_hash := agree K layout.commit_hash (blob_entry raw e).commit_hash
                list := layout.list.set i (blob_entry raw (claimed e 0 subvol)) }) := by
  have hlt := (merge_unfold K stack layout subvol 0 op_errno (some d) i e hi hun hmin).2.1
  rw [(merge_unfold K stack layout subvol 0 op_errno (some d) i e hi hun hmin).2.2.2.2 rfl d rfl
    hret, hptr, hlen,
    disk_merge_accept K stack _ i raw (claimed e (-1) subvol) hraw ht
      (by simp [List.getElem?_set_self hlt])]
  simp [List.getElem?_set_self hlt, blob_entry, claimed]


theorem set_entry_view (l : List dht_layout_entry) (i : Nat) (x : dht_layout_entry)
    (hlt : i < l.length) :
    (l.set i x)[i]? = some x ∧ ∀ j : Nat, j ≠ i → (l.set i x)[j]? = l[j]? :=
  ⟨List.getElem?_set_self hlt, fun _ hj => List.getElem?_set_ne (Ne.symm hj)⟩

/-- C7 (amended): for every layout with an unset entry and every call
`dht_layout_merge (layout, subvol, op_ret, op_errno, xattr)` (a layout attribute
with data being 16 bytes long): the call claims the lowest-index entry whose
subvolume was unset and assigns it `subvol`; every other entry is unchanged; the
claimed entry's err afterwards is `op_errno` if `op_ret` is not 0; if `op_ret`
is 0 it is -1, and the call returns -1, when the dictionary holds the attribute
and `dht_disk_layout_merge` turns it down (data pointer `NULL`, or type word
neither DM nor DM_USER), and it is 0, and the call returns 0, otherwise. -/
theorem merge_claims_first_unset (K : dht_consts) (stack : List Nat) (layout : dht_layout_t)
    (subvol : Option Nat) (op_ret op_errno : Int) (xattr : Option dict_t)
    (i : Nat) (e : dht_layout_entry)
    (hi : layout.list[i]? = some e) (hun : e.xlator = none)
    (hmin : ∀ (j : Nat) (e' : dht_layout_entry), j < i → layout.list[j]? = some e' →
      e'.xlator ≠ none)
    (hlen : ∀ (d : dict_t) (raw : List Nat), xattr = some d → d.ret = 0 → d.ptr = some raw →
      d.len = 16 ∧ 16 ≤ raw.length) :
    ∃ (ret : Int) (layout' : dht_layout_t) (e' : dht_layout_entry),
      dht_layout_merge K stack layout subvol op_ret op_errno xattr = .ok (ret, layout') ∧
      layout'.list[i]? = some e' ∧ e'.xlator = subvol ∧
      (∀ j : Nat, j ≠ i → layout'.list[j]? = layout.list[j]?) ∧
      (op_ret ≠ 0 → ret = 0 ∧ e'.err = op_errno) ∧
      (op_ret = 0 → blob_rejected K xattr → ret = -1 ∧ e'.err = -1) ∧
      (op_ret = 0 → ¬ blob_rejected K xattr → ret = 0 ∧ e'.err = 0) := by
  obtain ⟨_, hlt, herr, hnone, _⟩ :=
    merge_unfold K stack layout subvol op_ret op_errno xattr i e hi hun hmin
  by_cases hr : op_ret = 0
  · subst hr
    by_cases hx : ∀ d : dict_t, xattr = some d → d.ret ≠ 0
    · have hnr : ¬ blob_rejected K xattr := by
        rintro ⟨d, hd, hd0, _⟩
        exact hx d hd hd0
      obtain ⟨v1, v2⟩ := set_entry_view layout.list i (claimed e 0 subvol) hlt
      exact ⟨0, _, _, hnone rfl hx, v1, rfl, v2, fun h => absurd rfl h,
        fun _ h => absurd h hnr, fun _ _ => ⟨rfl, rfl⟩⟩
    · push_neg at hx
      obtain ⟨d, hd, hd0⟩ := hx
      subst hd
      cases hp : d.ptr with
      | none =>
        have hrej : blob_rejected K (some d) := ⟨d, rfl, hd0, Or.inl hp⟩
        obtain ⟨v1, v2⟩ := set_entry_view layout.list i (claimed e (-1) subvol) hlt
        exact ⟨-1, _, _, merge_null_data K stack layout subvol op_errno d i e hi hun hmin hd0 hp,
          v1, rfl, v2, fun h => absurd rfl h, fun _ _ => ⟨rfl, rfl⟩, fun _ h => absurd hrej h⟩
      | some raw =>
        obtain ⟨hl16, hraw⟩ := hlen d raw rfl hd0 hp
        by_cases ht : blob_type raw = K.DHT_HASH_TYPE_DM_USER ∨
            blob_type raw = K.DHT_HASH_TYPE_DM
        · have hnr : ¬ blob_rejected K (some d) := by
            rintro ⟨d', hd', _, hbad⟩
            injection hd' with hd'
            subst hd'
            rcases hbad with hb | ⟨raw', hb, hb1, hb2⟩
            · rw [hp] at hb
              exact Option.noConfusion hb
            · rw [hp] at hb
              injection hb with hb
              subst hb
              rcases ht with ht | ht
              · exact hb1 ht
              · exact hb2 ht
          obtain ⟨v1, v2⟩ :=
            set_entry_view layout.list i (blob_entry raw (claimed e 0 subvol)) hlt
          exact ⟨0, _, _,
            merge_good_blob K stack layout subvol op_errno d raw i e hi hun hmin hd0 hp hl16 hraw ht,
            v1, rfl, v2, fun h => absurd rfl h, fun _ h => absurd h hnr, fun _ _ => ⟨rfl, rfl⟩⟩
        · push_neg at ht
          have hrej : blob_rejected K (some d) := ⟨d, rfl, hd0, Or.inr ⟨raw, hp, ht.1, ht.2⟩⟩
          obtain ⟨v1, v2⟩ := set_entry_view layout.list i (claimed e (-1) subvol) hlt
          exact ⟨-1, _, _,
            merge_bad_type K stack layout subvol op_errno d raw i e hi hun hmin hd0 hp hl16 hraw
              ht.1 ht.2,
            v1, rfl, v2, fun h => absurd rfl h, fun _ _ => ⟨rfl, rfl⟩, fun _ h => absurd hrej h⟩
  · obtain ⟨v1, v2⟩ := set_entry_view layout.list i (claimed e op_errno subvol) hlt
    exact ⟨0, _, _, herr hr, v1, rfl, v2, fun _ => ⟨rfl, rfl⟩, fun h => absurd h hr,
      fun h => absurd h hr⟩

/-- Witness for C7: a brick that answers with `ESTALE` claims the first of two
unset entries. -/
theorem merge_claims_first_unset_witness :
    ∃ (ret : Int) (layout' : dht_layout_t) (e' : dht_layout_entry),
      dht_layout_merge upstream_consts [] two_unset_layout (some 7) (-1) ESTALE none =
        .ok (ret, layout') ∧
      layout'.list[0]? = some e' ∧ e'.xlator = some 7 ∧ (ret = 0 ∧ e'.err = ESTALE) :=
  match merge_claims_first_unset upstream_consts [] two_unset_layout (some 7) (-1) ESTALE none
      0 zero_entry rfl rfl (fun j _ hj _ => absurd hj (Nat.not_lt_zero j))
      (fun _ _ h => Option.noConfusion h) with
  | ⟨ret, layout', e', h1, h2, h3, _, h5, _⟩ => ⟨ret, layout', e', h1, h2, h3, h5 (by decide)⟩

/-- Counterexample for C7 as stated: with `op_ret = 0` and a blob whose type
word is 7 the call returns -1 and the claimed entry's err is -1, not 0. -/
theorem merge_rejected_blob_err :
    dht_layout_merge upstream_consts [] two_unset_layout (some 7) 0 0 (some (dict_of odd_blob)) =
      .ok (-1, layout_of upstream_consts 0
        [{ err := -1, start := 0, stop := 0, commit_hash := 0, xlator := some 7 }, zero_entry]) :=
  rfl


theorem getD_lt_of_forall (l : List Nat) (j : Nat) (hl : ∀ b ∈ l, b < 256) :
    l.getD j 0 < 256 := by
  rw [List.getD_eq_getElem?_getD]
  cases hj : l[j]? with
  | none => simp
  | some b => simpa using hl b (List.getElem?_mem hj)

theorem be32toh_word_lt (raw : List Nat) (k : Nat) (hl : ∀ b ∈ raw, b < 256) :
    be32toh (word_at raw k) < 4294967296 := by
  have hw : ∀ b ∈ word_at raw k, b < 256 := by
    intro b hb
    exact hl b (List.mem_of_mem_drop (List.mem_of_mem_take hb))
  have h0 := getD_lt_of_forall (word_at raw k) 0 hw
  have h1 := getD_lt_of_forall (word_at raw k) 1 hw
  have h2 := getD_lt_of_forall (word_at raw k) 2 hw
  have h3 := getD_lt_of_forall (word_at raw k) 3 hw
  unfold be32toh
  omega

theorem blob_entry_fields (raw : List Nat) (e : dht_layout_entry)
    (hl : ∀ b ∈ raw, b < 256) :
    (blob_entry raw e).commit_hash = be32toh (word_at raw 0) ∧
    (blob_entry raw e).start = be32toh (word_at raw 2) ∧
    (blob_entry raw e).stop = be32toh (word_at raw 3) ∧
    (blob_entry raw e).err = e.err ∧ (blob_entry raw e).xlator = e.xlator :=
  ⟨int_to_u32_u32_to_int _ (be32toh_word_lt raw 0 hl),
   int_to_u32_u32_to_int _ (be32toh_word_lt raw 2 hl),
   int_to_u32_u32_to_int _ (be32toh_word_lt raw 3 hl), rfl, rfl⟩

/-- C8: for every call of `dht_layout_merge` with `op_ret = 0` on a layout with
an unset entry, whose dictionary holds a valid 16-byte blob (type DM or
DM_USER): the call returns 0; commit hash, start and stop of the claimed entry
are the words 0, 2 and 3 of the blob, decoded big-endian; and the layout-wide
commit hash becomes the entry's if it was zero, stays as it is if it was
non-zero and equal to the entry's, and becomes `DHT_LAYOUT_HASH_INVALID` if it
was non-zero and different.  Two bricks with `0xCAFE` give `0xCAFE`; a third
with `0xBABE` gives the invalid hash. -/
theorem merge_valid_blob (K : dht_consts) (stack : List Nat) (layout : dht_layout_t)
    (subvol : Option Nat) (op_errno : Int) (d : dict_t) (raw : List Nat)
    (i : Nat) (e : dht_layout_entry)
    (hi : layout.list[i]? = some e) (hun : e.xlator = none)
    (hmin : ∀ (j : Nat) (e' : dht_layout_entry), j < i → layout.list[j]? = some e' →
      e'.xlator ≠ none)
    (hret : d.ret = 0) (hptr : d.ptr = some raw) (hlen : d.len = 16)
    (hv : valid_blob K raw) :
    (∃ (layout' : dht_layout_t) (e' : dht_layout_entry),
      dht_layout_merge K stack layout subvol 0 op_errno (some d) = .ok (0, layout') ∧
      layout'.list[i]? = some e' ∧
      e'.commit_hash = be32toh (word_at raw 0) ∧
      e'.start = be32toh (word_at raw 2) ∧
      e'.stop = be32toh (word_at raw 3) ∧
      (layout.commit_hash = 0 → layout'.commit_hash = e'.commit_hash) ∧
      (layout.commit_hash ≠ 0 → layout.commit_hash = e'.commit_hash →
        layout'.commit_hash = layout.commit_hash) ∧
      (layout.commit_hash ≠ 0 → layout.commit_hash ≠ e'.commit_hash →
        layout'.commit_hash = K.DHT_LAYOUT_HASH_INVALID)) ∧
    (∃ l2 : dht_layout_t,
      merge_all upstream_consts [] three_unset_layout
        [(some 1, dm_blob 0xCAFE 0 0x7FFFFFFF), (some 2, dm_blob 0xCAFE 0x80000000 0xFFFFFFFF)]
        = .ok (0, l2) ∧ l2.commit_hash = 0xCAFE ∧
      ∃ l3 : dht_layout_t,
        dht_layout_merge upstream_consts [] l2 (some 3) 0 0 (some (dict_of (dm_blob 0xBABE 0 0)))
          = .ok (0, l3) ∧
        l3.commit_hash = upstream_consts.DHT_LAYOUT_HASH_INVALID) := by
  constructor
  · obtain ⟨hl16, hbytes, ht⟩ := hv
    have hlt := (merge_unfold K stack layout subvol 0 op_errno (some d) i e hi hun hmin).2.1
    have hm := merge_good_blob K stack layout subvol op_errno d raw i e hi hun hmin hret hptr
      hlen (by omega) (by tauto)
    obtain ⟨f1, f2, f3, _, _⟩ := blob_entry_fields raw (claimed e 0 subvol) hbytes
    have fc : (blob_entry raw e).commit_hash = be32toh (word_at raw 0) :=
      (blob_entry_fields raw e hbytes).1
    refine ⟨_, _, hm, List.getElem?_set_self hlt, f1, f2, f3, ?_, ?_, ?_⟩
    · intro h0
      simp only [agree, h0, if_true, f1, fc]
    · intro h0 heq
      rw [f1] at heq
      simp only [agree, if_neg h0, fc]
      rw [if_neg (by simpa using heq)]
    · intro h0 hne
      rw [f1] at hne
      simp only [agree, if_neg h0, fc]
      rw [if_pos hne]
  · exact ⟨_, rfl, rfl, _, rfl, rfl⟩

/-- Witness for C8: the first brick's blob with commit hash `0xCAFE` on a layout
of three unset entries. -/
theorem merge_valid_blob_witness :
    ∃ (layout' : dht_layout_t) (e' : dht_layout_entry),
      dht_layout_merge upstream_consts [] three_unset_layout (some 1) 0 0
        (some (dict_of (dm_blob 0xCAFE 0 0x7FFFFFFF))) = .ok (0, layout') ∧
      layout'.list[0]? = some e' ∧ e'.commit_hash = 0xCAFE ∧ layout'.commit_hash = 0xCAFE :=
  match (merge_valid_blob upstream_consts [] three_unset_layout (some 1) 0
      (dict_of (dm_blob 0xCAFE 0 0x7FFFFFFF)) (dm_blob 0xCAFE 0 0x7FFFFFFF) 0 zero_entry rfl rfl
      (fun j _ hj _ => absurd hj (Nat.not_lt_zero j)) rfl rfl rfl
      ⟨rfl, by decide, Or.inl rfl⟩).1 with
  | ⟨layout', e', h1, h2, h3, _, _, h6, _, _⟩ =>
    ⟨layout', e', h1, h2, h3.trans (by decide), (h6 rfl).trans (h3.trans (by decide))⟩

/-! ## Commit hash consensus over a run of merges -/

theorem agree_self (K : dht_consts) (c : Nat) : agree K c c = c := by
  unfold agree
  split_ifs <;> first | rfl | omega

theorem foldl_agree_all_eq (K : dht_consts) :
    ∀ (l : List Nat) (c : Nat), (∀ x ∈ l, x = c) → l.foldl (agree K) c = c := by
  intro l
  induction l with
  | nil => intro c _; rfl
  | cons x xs ih =>
    intro c h
    have hx : x = c := h x (by simp)
    subst hx
    rw [List.foldl_cons, agree_self]
    exact ih x (fun y hy => h y (by simp [hy]))

theorem foldl_agree_invalid (K : dht_consts) (hinv : K.DHT_LAYOUT_HASH_INVALID ≠ 0) :
    ∀ (l : List Nat), l.foldl (agree K) K.DHT_LAYOUT_HASH_INVALID = K.DHT_LAYOUT_HASH_INVALID := by
  intro l
  induction l with
  | nil => rfl
  | cons x xs ih =>
    have h1 : agree K K.DHT_LAYOUT_HASH_INVALID x = K.DHT_LAYOUT_HASH_INVALID := by
      unfold agree
      split_ifs <;> first | rfl | omega
    rw [List.foldl_cons, h1]
    exact ih

theorem foldl_agree_differ (K : dht_consts) (hinv : K.DHT_LAYOUT_HASH_INVALID ≠ 0) :
    ∀ (l : List Nat) (c : Nat), c ≠ 0 → (∃ x ∈ l, x ≠ c) →
      l.foldl (agree K) c = K.DHT_LAYOUT_HASH_INVALID := by
  intro l
  induction l with
  | nil => intro c _ h; simp at h
  | cons x xs ih =>
    intro c hc h
    by_cases hx : x = c
    · subst hx
      rw [List.foldl_cons, agree_self]
      apply ih x hc
      obtain ⟨y, hy, hyc⟩ := h
      rcases List.mem_cons.mp hy with h1 | h1
      · exact absurd h1 hyc
      · exact ⟨y, h1, hyc⟩
    · have h1 : agree K c x = K.DHT_LAYOUT_HASH_INVALID := by
        unfold agree
        rw [if_neg hc, if_pos (Ne.symm hx)]
      rw [List.foldl_cons, h1]
      exact foldl_agree_invalid K hinv xs

theorem foldl_agree_dropWhile (K : dht_consts) :
    ∀ (l : List Nat),
      l.foldl (agree K) 0 = (l.dropWhile (fun x => decide (x = 0))).foldl (agree K) 0 := by
  intro l
  induction l with
  | nil => rfl
  | cons x xs ih =>
    by_cases hx : x = 0
    · subst hx
      have h1 : agree K 0 0 = 0 := agree_self K 0
      rw [List.foldl_cons, h1, ih]
      simp [List.dropWhile_cons]
    · simp [List.dropWhile_cons, hx]

theorem foldl_agree_consensus (K : dht_consts) (l : List Nat) :
    (∀ c : Nat, l ≠ [] → (∀ x ∈ l, x = c) → l.foldl (agree K) 0 = c) ∧
    (K.DHT_LAYOUT_HASH_INVALID ≠ 0 →
      (∃ a ∈ l.dropWhile (fun x => decide (x = 0)),
        ∃ b ∈ l.dropWhile (fun x => decide (x = 0)), a ≠ b) →
      l.foldl (agree K) 0 = K.DHT_LAYOUT_HASH_INVALID) := by
  constructor
  · intro c hne hall
    cases l with
    | nil => exact absurd rfl hne
    | cons x xs =>
      have hx : x = c := hall x (by simp)
      have h0 : agree K 0 x = x := by simp [agree]
      rw [List.foldl_cons, h0, hx]
      exact foldl_agree_all_eq K xs c (fun y hy => hall y (by simp [hy]))
  · intro hinv hdiff
    rw [foldl_agree_dropWhile]
    cases hnz : l.dropWhile (fun x => decide (x = 0)) with
    | nil =>
      rw [hnz] at hdiff
      obtain ⟨a, ha, _⟩ := hdiff
      simp at ha
    | cons c rest =>
      have hc : c ≠ 0 := by
        have := List.head_dropWhile_not (fun x => decide (x = 0)) l (by rw [hnz]; simp)
        simp only [hnz, List.head_cons] at this
        simpa using this
      have h0 : agree K 0 c = c := by simp [agree]
      rw [List.foldl_cons, h0]
      apply foldl_agree_differ K hinv rest c hc
      rw [hnz] at hdiff
      by_contra hno
      push_neg at hno
      obtain ⟨a, ha, b, hb, hab⟩ := hdiff
      have ha' : a = c := by
        rcases List.mem_cons.mp ha with h | h
        · exact h
        · exact hno a h
      have hb' : b = c := by
        rcases List.mem_cons.mp hb with h | h
        · exact h
        · exact hno b h
      exact hab (ha'.trans hb'.symm)


theorem set_at_length {α : Type} (x y : α) (tail : List α) :
    ∀ (done : List α), (done ++ x :: tail).set done.length y = done ++ y :: tail := by
  intro done
  induction done with
  | nil => rfl
  | cons a as ih => simp [ih]

theorem getElem?_at_length {α : Type} (x : α) (tail : List α) :
    ∀ (done : List α), (done ++ x :: tail)[done.length]? = some x := by
  intro done
  induction done with
  | nil => simp
  | cons a as ih => simpa using ih

theorem mem_of_index_in_front {α : Type} (rest : List α) :
    ∀ (done : List α) (j : Nat) (a : α), j < done.length → (done ++ rest)[j]? = some a →
      a ∈ done := by
  intro done j a hj h
  rw [List.getElem?_append_left hj] at h
  exact List.getElem?_mem h

theorem merge_all_cons_ok (K : dht_consts) (stack : List Nat) (layout layout1 : dht_layout_t)
    (subvol : Option Nat) (raw : List Nat) (rest : List (Option Nat × List Nat))
    (h : dht_layout_merge K stack layout subvol 0 0 (some (dict_of raw)) = .ok (0, layout1)) :
    merge_all K stack layout ((subvol, raw) :: rest) = merge_all K stack layout1 rest := by
  unfold merge_all
  rw [List.foldl_cons]
  have h1 : merge_next K stack (.ok (0, layout)) (subvol, raw) = .ok (0, layout1) := by
    rw [← h]
    rfl
  rw [h1]

theorem merge_all_shape (K : dht_consts) (stack : List Nat) :
    ∀ (bricks : List (Nat × List Nat)) (layout : dht_layout_t)
      (done : List dht_layout_entry) (m : Nat),
      layout.list = done ++ List.replicate m zero_entry →
      (∀ e ∈ done, e.xlator ≠ none) → bricks.length ≤ m →
      (∀ b ∈ bricks, valid_blob K b.2) →
      ∃ layout' : dht_layout_t,
        merge_all K stack layout (bricks.map (fun b => (some b.1, b.2))) = .ok (0, layout') ∧
        layout'.list =
          done ++ bricks.map (fun b => blob_entry b.2 (claimed zero_entry 0 (some b.1))) ++
            List.replicate (m - bricks.length) zero_entry ∧
        layout'.commit_hash =
          (bricks.map (fun b => be32toh (word_at b.2 0))).foldl (agree K) layout.commit_hash := by
  intro bricks
  induction bricks with
  | nil =>
    intro layout done m hl _ _ _
    exact ⟨layout, rfl, by simpa using hl, rfl⟩
  | cons b bs ih =>
    intro layout done m hl hdone hm hvalid
    have hm1 : m = (m - 1) + 1 := by
      simp only [List.length_cons] at hm
      omega
    rw [hm1, List.replicate_succ] at hl
    obtain ⟨hl16, hbytes, ht⟩ := hvalid b (by simp)
    have hi : layout.list[done.length]? = some zero_entry := by
      rw [hl]
      exact getElem?_at_length _ _ done
    have hmin : ∀ (j : Nat) (e' : dht_layout_entry), j < done.length →
        layout.list[j]? = some e' → e'.xlator ≠ none := by
      intro j e' hj hje
      rw [hl] at hje
      exact hdone e' (mem_of_index_in_front _ done j e' hj hje)
    have hstep := merge_good_blob K stack layout (some b.1) 0 (dict_of b.2) b.2 done.length
      zero_entry hi rfl hmin rfl rfl rfl (by omega) (by tauto)
    rw [hl, set_at_length] at hstep
    have hdone' : ∀ e ∈ done ++ [blob_entry b.2 (claimed zero_entry 0 (some b.1))],
        e.xlator ≠ none := by
      intro e he
      rcases List.mem_append.mp he with h | h
      · exact hdone e h
      · rw [List.mem_singleton.mp h]
        simp [blob_entry, claimed]
    obtain ⟨layout', h1, h2, h3⟩ := ih
      { layout with
        type := if blob_type b.2 = K.DHT_HASH_TYPE_DM_USER then blob_type b.2 else layout.type
        commit_hash := agree K layout.commit_hash (blob_entry b.2 zero_entry).commit_hash
        list := done ++ blob_entry b.2 (claimed zero_entry 0 (some b.1)) ::
          List.replicate (m - 1) zero_entry }
      (done ++ [blob_entry b.2 (claimed zero_entry 0 (some b.1))]) (m - 1)
      (by simp) hdone' (by simp only [List.length_cons] at hm; omega)
      (fun x hx => hvalid x (by simp [hx]))
    refine ⟨layout', ?_, ?_, ?_⟩
    · rw [List.map_cons, merge_all_cons_ok K stack layout _ (some b.1) b.2 _ hstep]
      exact h1
    · rw [h2]
      simp only [List.map_cons, List.length_cons, List.append_assoc, List.singleton_append,
        Nat.sub_sub, Nat.add_comm]
    · rw [h3]
      simp only [List.map_cons, List.foldl_cons]
      rw [(blob_entry_fields b.2 zero_entry hbytes).1]


theorem layout_new_fresh (K : dht_consts) (conf : Option dht_conf_t) (cnt : Nat)
    (layout0 : dht_layout_t) (h : dht_layout_new K true conf cnt = some layout0) :
    layout0.list = List.replicate cnt zero_entry ∧ layout0.commit_hash = 0 := by
  simp only [dht_layout_new, if_true, Option.some.injEq] at h
  subst h
  exact ⟨rfl, rfl⟩

/-- C9 (amended): on a freshly created layout, every run of per-brick merges
with `op_ret = 0` and valid blobs, no longer than the layout has entries,
returns 0 throughout; the merged entries carry the commit hashes of the blobs in
merge order; if all merged entries carry the same commit hash, the layout's
commit hash is that hash; and, the invalid hash being non-zero, if two of the
entries merged from the first non-zero commit hash on carry different commit
hashes, the layout's commit hash is `DHT_LAYOUT_HASH_INVALID`.  Entries with
commit hash zero merged before the first non-zero one do not count. -/
theorem merge_all_commit_hash (K : dht_consts) (stack : List Nat) (conf : Option dht_conf_t)
    (cnt : Nat) (layout0 : dht_layout_t) (bricks : List (Nat × List Nat))
    (hfresh : dht_layout_new K true conf cnt = some layout0)
    (hne : bricks ≠ []) (hcnt : bricks.length ≤ cnt)
    (hvalid : ∀ b ∈ bricks, valid_blob K b.2) :
    ∃ layout' : dht_layout_t,
      merge_all K stack layout0 (bricks.map (fun b => (some b.1, b.2))) = .ok (0, layout') ∧
      (layout'.list.take bricks.length).map (fun e => e.commit_hash) =
        bricks.map (fun b => be32toh (word_at b.2 0)) ∧
      (∀ c : Nat, (∀ e ∈ layout'.list.take bricks.length, e.commit_hash = c) →
        layout'.commit_hash = c) ∧
      (K.DHT_LAYOUT_HASH_INVALID ≠ 0 →
        (∃ a ∈ ((layout'.list.take bricks.length).map (fun e => e.commit_hash)).dropWhile
              (fun x => decide (x = 0)),
          ∃ b ∈ ((layout'.list.take bricks.length).map (fun e => e.commit_hash)).dropWhile
              (fun x => decide (x = 0)), a ≠ b) →
        layout'.commit_hash = K.DHT_LAYOUT_HASH_INVALID) := by
  obtain ⟨hl0, hc0⟩ := layout_new_fresh K conf cnt layout0 hfresh
  obtain ⟨layout', h1, h2, h3⟩ := merge_all_shape K stack bricks layout0 [] cnt
    (by simpa using hl0) (fun e he => absurd he (List.not_mem_nil e)) hcnt hvalid
  have htake : layout'.list.take bricks.length =
      bricks.map (fun b => blob_entry b.2 (claimed zero_entry 0 (some b.1))) := by
    rw [h2, List.nil_append]
    exact List.take_left' (by simp)
  have hmap : (layout'.list.take bricks.length).map (fun e => e.commit_hash) =
      bricks.map (fun b => be32toh (word_at b.2 0)) := by
    rw [htake, List.map_map]
    apply List.map_congr_left
    intro b hb
    exact (blob_entry_fields b.2 _ (hvalid b hb).2.1).1
  rw [hc0] at h3
  obtain ⟨g1, g2⟩ := foldl_agree_consensus K (bricks.map (fun b => be32toh (word_at b.2 0)))
  refine ⟨layout', h1, hmap, ?_, ?_⟩
  · intro c hall
    rw [h3]
    apply g1 c (by simpa using hne)
    intro x hx
    rw [← hmap] at hx
    obtain ⟨e, he, hex⟩ := List.mem_map.mp hx
    rw [← hex]
    exact hall e he
  · intro hinv hdiff
    rw [h3]
    rw [hmap] at hdiff
    exact g2 hinv hdiff

/-- Witness for C9: two bricks with commit hash `0xCAFE` on a fresh layout of
three entries. -/
theorem merge_all_commit_hash_witness :
    ∃ layout' : dht_layout_t,
      merge_all upstream_consts [] three_unset_layout
        [(some 1, dm_blob 0xCAFE 0 0x7FFFFFFF), (some 2, dm_blob 0xCAFE 0x80000000 0xFFFFFFFF)]
        = .ok (0, layout') ∧
      layout'.commit_hash = 0xCAFE :=
  match merge_all_commit_hash upstream_consts [] none 3 three_unset_layout
      [(1, dm_blob 0xCAFE 0 0x7FFFFFFF), (2, dm_blob 0xCAFE 0x80000000 0xFFFFFFFF)]
      rfl (by decide) (by decide)
      (by
        intro b hb
        simp only [List.mem_cons, List.mem_singleton, List.not_mem_nil, or_false] at hb
        rcases hb with h | h
        · subst h
          exact ⟨rfl, by decide, Or.inl rfl⟩
        · subst h
          exact ⟨rfl, by decide, Or.inl rfl⟩) with
  | ⟨layout', h1, h2, h3, _⟩ =>
    ⟨layout', h1, h3 0xCAFE (by
      intro e he
      have hm : e.commit_hash ∈ (layout'.list.take 2).map (fun e => e.commit_hash) :=
        List.mem_map.mpr ⟨e, he, rfl⟩
      rw [show ([(1, dm_blob 0xCAFE 0 0x7FFFFFFF),
          (2, dm_blob 0xCAFE 0x80000000 0xFFFFFFFF)] : List (Nat × List Nat)).length = 2
          from rfl] at h2
      rw [h2] at hm
      simp only [List.map_cons, List.map_nil, List.mem_cons, List.mem_singleton,
        List.not_mem_nil, or_false] at hm
      rcases hm with h | h
      · exact h.trans (by decide)
      · exact h.trans (by decide))⟩

/-- Counterexample for C9 as stated: on a fresh layout a brick with commit hash
0 followed by a brick with commit hash `0xCAFE` leaves two merged entries with
different commit hashes and the layout's commit hash at `0xCAFE`, not at the
invalid hash, whether that is 1 or `0xFFFFFFFF`. -/
theorem merge_all_zero_then_hash :
    dht_layout_new upstream_consts true none 3 = some three_unset_layout ∧
    dht_layout_new spec_consts true none 3 = some three_unset_layout ∧
    (∃ layout' : dht_layout_t,
      merge_all upstream_consts [] three_unset_layout
        [(some 1, dm_blob 0 0 0x7FFFFFFF), (some 2, dm_blob 0xCAFE 0x80000000 0xFFFFFFFF)]
        = .ok (0, layout') ∧
      layout'.list.map (fun e => e.commit_hash) = [0, 0xCAFE, 0] ∧
      layout'.commit_hash = 0xCAFE ∧
      layout'.commit_hash ≠ upstream_consts.DHT_LAYOUT_HASH_INVALID) ∧
    (∃ layout' : dht_layout_t,
      merge_all spec_consts [] three_unset_layout
        [(some 1, dm_blob 0 0 0x7FFFFFFF), (some 2, dm_blob 0xCAFE 0x80000000 0xFFFFFFFF)]
        = .ok (0, layout') ∧
      layout'.list.map (fun e => e.commit_hash) = [0, 0xCAFE, 0] ∧
      layout'.commit_hash = 0xCAFE ∧
      layout'.commit_hash ≠ spec_consts.DHT_LAYOUT_HASH_INVALID) :=
  ⟨rfl, rfl, ⟨_, rfl, rfl, rfl, by decide⟩, ⟨_, rfl, rfl, rfl, by decide⟩⟩

/-! ## Blobs of a wrong length: what the code does -/

/-- C11 (code at a failing input): a non-null blob of length 8 is not turned
down.  Whatever the local array held before the copy, `dht_disk_layout_merge`
returns 0 and writes the entry: its commit hash becomes the blob's `0xCAFE`, and
with the stale stack content its range becomes `5..9`.  A blob of length 20 is
copied past the end of the 16-byte local array. -/
theorem disk_merge_wrong_length :
    (∀ stack : List Nat, ∃ (layout' : dht_layout_t) (e' : dht_layout_entry),
      dht_disk_layout_merge upstream_consts stack quarters 1 (some short_blob) 8
        = .ok (0, layout') ∧
      layout'.list[1]? = some e' ∧ e'.commit_hash = 0xCAFE) ∧
    quarters.list[1]? = some (entry_ok 0x40000000 0x7FFFFFFF 0 (some 2)) ∧
    (∃ layout' : dht_layout_t,
      dht_disk_layout_merge upstream_consts stale_stack quarters 1 (some short_blob) 8
        = .ok (0, layout') ∧
      layout'.list[1]? = some (entry_ok 5 9 0xCAFE (some 2))) ∧
    dht_disk_layout_merge upstream_consts stale_stack quarters 1 (some long_blob) 20
      = .error (.memcpy_overrun 20) := by
  refine ⟨?_, rfl, ⟨_, rfl, rfl⟩, rfl⟩
  intro stack
  have hm : memcpy (stack.take 16) short_blob (Int.toNat 8) =
      [0, 0, 202, 254, 0, 0, 0, 0] ++ (stack.take 16).drop 8 := rfl
  have h0 : word_at ([0, 0, 202, 254, 0, 0, 0, 0] ++ (stack.take 16).drop 8) 0
      = [0, 0, 202, 254] := rfl
  have h1 : word_at ([0, 0, 202, 254, 0, 0, 0, 0] ++ (stack.take 16).drop 8) 1
      = [0, 0, 0, 0] := rfl
  have hl : ¬ ((8 : Int) < 0 ∨ (16 : Int) < 8 ∨ ((short_blob.length : Nat) : Int) < 8) := by
    decide
  have ht1 : ¬ u32_to_int (be32toh [0, 0, 0, 0]) = upstream_consts.DHT_HASH_TYPE_DM_USER := by
    decide
  have ht0 : u32_to_int (be32toh [0, 0, 0, 0]) = upstream_consts.DHT_HASH_TYPE_DM := by
    decide
  have hq : quarters.list[1]? = some (entry_ok 0x40000000 0x7FFFFFFF 0 (some 2)) := rfl
  have hres : dht_disk_layout_merge upstream_consts stack quarters 1 (some short_blob) 8 =
      .ok (0, { quarters with
        list := quarters.list.set 1
          { entry_ok 0x40000000 0x7FFFFFFF 0 (some 2) with
            commit_hash := int_to_u32 (u32_to_int (be32toh [0, 0, 202, 254]))
            start := int_to_u32 (u32_to_int (be32toh
              (word_at ([0, 0, 202, 254, 0, 0, 0, 0] ++ (stack.take 16).drop 8) 2)))
            stop := int_to_u32 (u32_to_int (be32toh
              (word_at ([0, 0, 202, 254, 0, 0, 0, 0] ++ (stack.take 16).drop 8) 3))) } }) := by
    simp only [dht_disk_layout_merge, if_neg hl, hm, h0, h1, if_neg ht1, if_pos ht0, hq]
  have hc : int_to_u32 (u32_to_int (be32toh [0, 0, 202, 254])) = 0xCAFE := by decide
  exact ⟨_, _, hres, List.getElem?_set_self (by decide), hc⟩

/-! ## Sticky user override -/

theorem disk_merge_type (K : dht_consts) (stack : List Nat) (layout layout' : dht_layout_t)
    (pos : Nat) (raw : Option (List Nat)) (len r : Int)
    (h : dht_disk_layout_merge K stack layout pos raw len = .ok (r, layout')) :
    (layout'.type = layout.type ∨ layout'.type = K.DHT_HASH_TYPE_DM_USER) ∧
    layout'.list.length = layout.list.length := by
  unfold dht_disk_layout_merge at h
  cases raw with
  | none =>
    simp only at h
    injection h with h
    injection h with _ h
    subst h
    exact ⟨Or.inl rfl, rfl⟩
  | some bytes =>
    simp only at h
    split_ifs at h with h1 h2 h3
    · cases hp : layout.list[pos]? with
      | none => simp [hp] at h
      | some e =>
        simp only [hp] at h
        injection h with h
        injection h with _ h
        subst h
        exact ⟨Or.inr h2, by simp⟩
    · cases hp : layout.list[pos]? with
      | none => simp [hp] at h
      | some e =>
        simp only [hp] at h
        injection h with h
        injection h with _ h
        subst h
        exact ⟨Or.inl rfl, by simp⟩
    · injection h with h
      injection h with _ h
      subst h
      exact ⟨Or.inl rfl, rfl⟩

theorem disk_merge_run_type (K : dht_consts) (stack : List Nat) :
    ∀ (calls : List (Nat × Option (List Nat) × Int)) (layout layout' : dht_layout_t),
      disk_merge_run K stack layout calls = .ok layout' →
      (layout'.type = layout.type ∨ layout'.type = K.DHT_HASH_TYPE_DM_USER) ∧
      layout'.list.length = layout.list.length := by
  intro calls
  induction calls with
  | nil =>
    intro layout layout' h
    simp only [disk_merge_run, List.foldl_nil] at h
    injection h with h
    subst h
    exact ⟨Or.inl rfl, rfl⟩
  | cons c cs ih =>
    intro layout layout' h
    simp only [disk_merge_run, List.foldl_cons] at h
    cases hc : dht_disk_layout_merge K stack layout c.1 c.2.1 c.2.2 with
    | error f =>
      have hstep : disk_merge_next K stack (.ok layout) c = .error f := by
        simp only [disk_merge_next, hc]
      rw [hstep] at h
      have hfold : ∀ (l : List (Nat × Option (List Nat) × Int)),
          l.foldl (disk_merge_next K stack) (.error f) = .error f := by
        intro l
        induction l with
        | nil => rfl
        | cons x xs ihx => simpa [disk_merge_next] using ihx
      rw [hfold] at h
      exact Except.noConfusion h
    | ok res =>
      obtain ⟨r, l1⟩ := res
      have hstep : disk_merge_next K stack (.ok layout) c = .ok l1 := by
        simp only [disk_merge_next, hc]
      rw [hstep] at h
      obtain ⟨t1, n1⟩ := disk_merge_type K stack layout l1 c.1 c.2.1 c.2.2 r hc
      obtain ⟨t2, n2⟩ := ih l1 layout' h
      refine ⟨?_, n2.trans n1⟩
      rcases t2 with t2 | t2
      · rcases t1 with t1 | t1
        · exact Or.inl (t2.trans t1)
        · exact Or.inr (t2.trans t1)
      · exact Or.inr t2


theorem disk_merge_run_cons (K : dht_consts) (stack : List Nat) (layout l1 : dht_layout_t)
    (c : Nat × Option (List Nat) × Int) (cs : List (Nat × Option (List Nat) × Int)) (r : Int)
    (hc : dht_disk_layout_merge K stack layout c.1 c.2.1 c.2.2 = .ok (r, l1)) :
    disk_merge_run K stack layout (c :: cs) = disk_merge_run K stack l1 cs := by
  have hstep : disk_merge_next K stack (.ok layout) c = .ok l1 := by
    simp only [disk_merge_next, hc]
  simp only [disk_merge_run, List.foldl_cons, hstep]

theorem disk_merge_run_total (K : dht_consts) (stack : List Nat) :
    ∀ (calls : List (Nat × Option (List Nat) × Int)) (layout : dht_layout_t),
      (∀ c ∈ calls, c.1 < layout.list.length ∧
        ∃ raw : List Nat, c.2.1 = some raw ∧ 16 ≤ raw.length ∧ c.2.2 = 16) →
      ∃ layout' : dht_layout_t, disk_merge_run K stack layout calls = .ok layout' := by
  intro calls
  induction calls with
  | nil => intro layout _; exact ⟨layout, rfl⟩
  | cons c cs ih =>
    intro layout hall
    obtain ⟨hpos, raw, hraw, hlen, h16⟩ := hall c (by simp)
    obtain ⟨e, he⟩ : ∃ e, layout.list[c.1]? = some e :=
      ⟨layout.list[c.1], List.getElem?_eq_getElem hpos⟩
    have hstep : ∃ (r : Int) (l1 : dht_layout_t),
        dht_disk_layout_merge K stack layout c.1 c.2.1 c.2.2 = .ok (r, l1) := by
      rw [hraw, h16]
      by_cases ht : blob_type raw = K.DHT_HASH_TYPE_DM_USER ∨
          blob_type raw = K.DHT_HASH_TYPE_DM
      · exact ⟨0, _, disk_merge_accept K stack layout c.1 raw e hlen ht he⟩
      · push_neg at ht
        exact ⟨-1, _, disk_merge_reject K stack layout c.1 raw hlen ht.1 ht.2⟩
    obtain ⟨r, l1, hc⟩ := hstep
    have hn := (disk_merge_type K stack layout l1 c.1 c.2.1 c.2.2 r hc).2
    rw [disk_merge_run_cons K stack layout l1 c cs r hc]
    apply ih l1
    intro x hx
    rw [hn]
    exact hall x (by simp [hx])

/-- C12: sticky user override.  For every layout, valid position and valid
16-byte blob, `dht_disk_layout_merge` returns 0 and leaves the layout's type at
DM_USER if the blob's type word is DM_USER, and as it was if the word is DM (the
two constants being different case labels).  Consequently, in every run of disk
merges (any positions, blobs and lengths) that starts from a new layout, the
type is DM or DM_USER after any number of calls, and once it is DM_USER it is
DM_USER, not DM, after any further calls.  A run of calls at valid positions with
16-byte blobs always returns. -/
theorem disk_merge_sticky_type (K : dht_consts) (stack : List Nat) (layout : dht_layout_t)
    (pos : Nat) (raw : List Nat)
    (hK : K.DHT_HASH_TYPE_DM ≠ K.DHT_HASH_TYPE_DM_USER)
    (hpos : pos < layout.list.length) (hv : valid_blob K raw) :
    (∃ layout' : dht_layout_t,
      dht_disk_layout_merge K stack layout pos (some raw) 16 = .ok (0, layout') ∧
      (blob_type raw = K.DHT_HASH_TYPE_DM_USER → layout'.type = K.DHT_HASH_TYPE_DM_USER) ∧
      (blob_type raw = K.DHT_HASH_TYPE_DM → layout'.type = layout.type)) ∧
    (∀ (conf : Option dht_conf_t) (cnt : Nat) (layout0 l1 l2 : dht_layout_t)
        (calls1 calls2 : List (Nat × Option (List Nat) × Int)),
      dht_layout_new K true conf cnt = some layout0 →
      disk_merge_run K stack layout0 calls1 = .ok l1 →
      disk_merge_run K stack l1 calls2 = .ok l2 →
      (l1.type = K.DHT_HASH_TYPE_DM ∨ l1.type = K.DHT_HASH_TYPE_DM_USER) ∧
      (l1.type = K.DHT_HASH_TYPE_DM_USER →
        l2.type = K.DHT_HASH_TYPE_DM_USER ∧ l2.type ≠ K.DHT_HASH_TYPE_DM)) ∧
    (∀ (l : dht_layout_t) (calls : List (Nat × Option (List Nat) × Int)),
      (∀ c ∈ calls, c.1 < l.list.length ∧
        ∃ b : List Nat, c.2.1 = some b ∧ 16 ≤ b.length ∧ c.2.2 = 16) →
      ∃ l' : dht_layout_t, disk_merge_run K stack l calls = .ok l') := by
  refine ⟨?_, ?_, fun l calls h => disk_merge_run_total K stack calls l h⟩
  · obtain ⟨hl16, _, ht⟩ := hv
    obtain ⟨e, he⟩ : ∃ e, layout.list[pos]? = some e :=
      ⟨layout.list[pos], List.getElem?_eq_getElem hpos⟩
    refine ⟨_, disk_merge_accept K stack layout pos raw e (by omega) (by tauto) he, ?_, ?_⟩
    · intro h
      simp only [if_pos h]
      exact h
    · intro h
      have hne : ¬ blob_type raw = K.DHT_HASH_TYPE_DM_USER := by
        rw [h]
        exact hK
      simp only [if_neg hne]
  · intro conf cnt layout0 l1 l2 calls1 calls2 hnew h1 h2
    have ht0 : layout0.type = K.DHT_HASH_TYPE_DM := by
      simp only [dht_layout_new, if_true, Option.some.injEq] at hnew
      subst hnew
      rfl
    obtain ⟨t1, _⟩ := disk_merge_run_type K stack calls1 layout0 l1 h1
    obtain ⟨t2, _⟩ := disk_merge_run_type K stack calls2 l1 l2 h2
    constructor
    · rcases t1 with t1 | t1
      · exact Or.inl (t1.trans ht0)
      · exact Or.inr t1
    · intro hu
      have h3 : l2.type = K.DHT_HASH_TYPE_DM_USER := by
        rcases t2 with t2 | t2
        · exact t2.trans hu
        · exact t2
      exact ⟨h3, by rw [h3]; exact Ne.symm hK⟩

/-- Witness for C12: a DM_USER blob merged into the four quarters. -/
theorem disk_merge_sticky_type_witness :
    ∃ layout' : dht_layout_t,
      dht_disk_layout_merge upstream_consts [] quarters 0
        (some (user_blob 0xCAFE 0 0x3FFFFFFF)) 16 = .ok (0, layout') ∧
      layout'.type = upstream_consts.DHT_HASH_TYPE_DM_USER :=
  match (disk_merge_sticky_type upstream_consts [] quarters 0 (user_blob 0xCAFE 0 0x3FFFFFFF)
      (by decide) (by decide) ⟨rfl, by decide, Or.inr rfl⟩).1 with
  | ⟨layout', h1, h2, _⟩ => ⟨layout', h1, h2 rfl⟩


/-! ## The tolerant merge path -/

/-- C13: the merge path is tolerant.  For every layout with an unset entry, a
call of `dht_layout_merge` with `op_ret` not 0, or with `op_ret = 0` and the
layout attribute missing from the dictionary (or no dictionary), returns 0; the
layout afterwards differs from the layout before only in the claimed entry, the
lowest-index unset one, and there only in the subvolume, which is `subvol`, and
in err, which is `op_errno` in the first case and 0 in the second.  So start,
stop and commit hash of every entry, the layout-wide commit hash and the type
are unchanged. -/
theorem merge_tolerant (K : dht_consts) (stack : List Nat) (layout : dht_layout_t)
    (subvol : Option Nat) (op_ret op_errno : Int) (xattr : Option dict_t)
    (i : Nat) (e : dht_layout_entry)
    (hi : layout.list[i]? = some e) (hun : e.xlator = none)
    (hmin : ∀ (j : Nat) (e' : dht_layout_entry), j < i → layout.list[j]? = some e' →
      e'.xlator ≠ none)
    (hcase : op_ret ≠ 0 ∨ (op_ret = 0 ∧ ∀ d : dict_t, xattr = some d → d.ret ≠ 0)) :
    ∃ layout' : dht_layout_t,
      dht_layout_merge K stack layout subvol op_ret op_errno xattr = .ok (0, layout') ∧
      layout' = { layout with
        list := layout.list.set i
          { e with err := if op_ret ≠ 0 then op_errno else 0, xlator := subvol } } ∧
      layout'.commit_hash = layout.commit_hash ∧ layout'.type = layout.type ∧
      layout'.list.length = layout.list.length ∧
      (∀ (j : Nat) (x : dht_layout_entry), layout.list[j]? = some x →
        ∃ x' : dht_layout_entry, layout'.list[j]? = some x' ∧
          x'.start = x.start ∧ x'.stop = x.stop ∧ x'.commit_hash = x.commit_hash ∧
          (j ≠ i → x' = x)) := by
  obtain ⟨_, hlt, herr, hnone, _⟩ :=
    merge_unfold K stack layout subvol op_ret op_errno xattr i e hi hun hmin
  have hview : ∀ (v : Int) (j : Nat) (x : dht_layout_entry), layout.list[j]? = some x →
      ∃ x' : dht_layout_entry,
        (layout.list.set i { e with err := v, xlator := subvol })[j]? = some x' ∧
        x'.start = x.start ∧ x'.stop = x.stop ∧ x'.commit_hash = x.commit_hash ∧
        (j ≠ i → x' = x) := by
    intro v j x hj
    by_cases hji : j = i
    · subst hji
      rw [hi] at hj
      injection hj with hj
      subst hj
      exact ⟨_, List.getElem?_set_self hlt, rfl, rfl, rfl, fun h => absurd rfl h⟩
    · exact ⟨x, by rw [List.getElem?_set_ne (Ne.symm hji)]; exact hj, rfl, rfl, rfl,
        fun _ => rfl⟩
  rcases hcase with hr | ⟨hr, hx⟩
  · refine ⟨_, herr hr, ?_, rfl, rfl, by simp, hview _⟩
    simp only [if_pos hr, claimed]
  · refine ⟨_, hnone hr hx, ?_, rfl, rfl, by simp, hview _⟩
    have hn : ¬ op_ret ≠ 0 := fun h => h hr
    simp only [if_neg hn, claimed]

/-- Witness for C13: a brick without the layout attribute claims the first of
two unset entries. -/
theorem merge_tolerant_witness :
    ∃ layout' : dht_layout_t,
      dht_layout_merge upstream_consts [] two_unset_layout (some 7) 0 0 none = .ok (0, layout') ∧
      layout'.list.length = 2 ∧ layout'.commit_hash = 0 :=
  match merge_tolerant upstream_consts [] two_unset_layout (some 7) 0 0 none 0 zero_entry
      rfl rfl (fun j _ hj _ => absurd hj (Nat.not_lt_zero j))
      (Or.inr ⟨rfl, fun _ h => Option.noConfusion h⟩) with
  | ⟨layout', h1, _, h3, _, h5, _⟩ => ⟨layout', h1, h5, h3⟩

/-! ## Lookup in a layout without overlaps -/

theorem search_loop_unique (h : Nat) :
    ∀ (l : List dht_layout_entry) (e : dht_layout_entry),
      l.Pairwise disjoint_ranges → e ∈ l → holds h e = true →
      search_loop h l = e.xlator ∧ l.countP (holds h) = 1 := by
  intro l
  induction l with
  | nil => intro e _ he; simp at he
  | cons a as ih =>
    intro e hp he hh
    obtain ⟨ha, hrest⟩ := List.pairwise_cons.mp hp
    by_cases hah : holds h a = true
    · have hnone : ∀ x ∈ as, ¬ holds h x = true := fun x hx hxh => ha x hx h ⟨hah, hxh⟩
      have hea : e = a := by
        rcases List.mem_cons.mp he with h1 | h1
        · exact h1
        · exact absurd hh (hnone e h1)
      have hc0 : as.countP (holds h) = 0 := List.countP_eq_zero.mpr hnone
      have hcond : a.start ≤ h ∧ a.stop ≥ h := by
        simpa [holds, ge_iff_le] using hah
      rw [hea, List.countP_cons_of_pos _ _ hah, hc0]
      refine ⟨?_, rfl⟩
      rw [search_loop, if_pos hcond]
    · have hmem : e ∈ as := by
        rcases List.mem_cons.mp he with h1 | h1
        · rw [h1] at hh
          exact absurd hh hah
        · exact h1
      have hcond : ¬ (a.start ≤ h ∧ a.stop ≥ h) := by
        simpa [holds, ge_iff_le] using hah
      obtain ⟨i1, i2⟩ := ih e hrest hmem hh
      rw [List.countP_cons_of_neg _ _ hah]
      refine ⟨?_, i2⟩
      rw [search_loop, if_neg hcond]
      exact i1

theorem disjoint_ranges_symm {a b : dht_layout_entry} (h : disjoint_ranges a b) :
    disjoint_ranges b a :=
  fun x hx => h x ⟨hx.2, hx.1⟩

/-- C19: for every layout whose entries have pairwise disjoint inclusive ranges
and every name whose hash `h` is computed: if the range of an entry of the
layout contains `h`, then exactly one entry's range does, and
`dht_layout_search` returns that entry's subvolume, in whatever order the
entries are stored. -/
theorem search_unique_entry (hashf : Int → String → Option Nat) (layout : dht_layout_t)
    (name : String) (h : Nat) (e : dht_layout_entry)
    (hdis : layout.list.Pairwise disjoint_ranges)
    (hh : hashf layout.type name = some h)
    (he : e ∈ layout.list) (hin : e.start ≤ h ∧ h ≤ e.stop) :
    layout.list.countP (holds h) = 1 ∧
    (dht_layout_search hashf layout name).1 = e.xlator ∧
    (∀ stored : List dht_layout_entry, stored.Perm layout.list →
      (dht_layout_search hashf { layout with list := stored } name).1 = e.xlator) := by
  have hhold : holds h e = true := by simpa [holds] using hin
  obtain ⟨h1, h2⟩ := search_loop_unique h layout.list e hdis he hhold
  refine ⟨h2, ?_, ?_⟩
  · simp only [dht_layout_search, hh]
    exact h1
  · intro stored hperm
    have hdis' : stored.Pairwise disjoint_ranges :=
      hdis.perm hperm.symm (fun hab => disjoint_ranges_symm hab)
    simp only [dht_layout_search, hh]
    exact (search_loop_unique h stored e hdis' (hperm.mem_iff.mpr he) hhold).1


/-- Witness for C19: the hash `0x90000000` in the four quarters, stored in order
or shuffled. -/
theorem search_unique_entry_witness :
    (dht_layout_search (fun _ _ => some 0x90000000) quarters "file").1 = some 3 ∧
    (dht_layout_search (fun _ _ => some 0x90000000) quarters_shuffled "file").1 = some 3 :=
  have hq := search_unique_entry (fun _ _ => some 0x90000000) quarters "file" 0x90000000
    (entry_ok 0x80000000 0xBFFFFFFF 0 (some 3))
    (by
      simp only [quarters, layout_of, List.pairwise_cons, List.mem_cons, List.mem_singleton,
        List.not_mem_nil, forall_eq_or_imp, forall_eq, List.Pairwise.nil, disjoint_ranges,
        holds, entry_ok, decide_eq_true_eq, IsEmpty.forall_iff, implies_true, and_true]
      refine ⟨⟨?_, ?_, ?_⟩, ⟨?_, ?_⟩, ?_⟩ <;> intro x <;> omega)
    rfl (by decide) (by decide)
  ⟨hq.2.1, hq.2.2 quarters_shuffled.list (by decide)⟩

/-! ## Mismatch detection: theorems -/

theorem memcpy_full (dst raw : List Nat) (hd : dst.length = 16) :
    memcpy dst raw 16 = raw.take 16 := by
  unfold memcpy
  rw [List.drop_eq_nil_of_le (by omega)]
  simp

theorem dir_mismatch_absent (layout : dht_layout_t) (subvol : Option Nat)
    (xattr : Option dict_t) (habs : ∀ e ∈ layout.list, e.xlator ≠ subvol) :
    dht_layout_dir_mismatch layout subvol xattr = .ok (1, layout) := by
  have hidx : layout.list.findIdx (fun x => decide (x.xlator = subvol)) = layout.list.length := by
    apply List.findIdx_eq_length_of_false
    intro x hx
    simpa using habs x hx
  simp [dht_layout_dir_mismatch, hidx]

/-- C18 (amended): `dht_layout_dir_mismatch` never changes the layout and
returns 1 if no entry of the layout has the subvolume; otherwise, with the
first entry that has it: without a dictionary, -1 if the entry's err is 0 and 0
if not; with a dictionary that lacks the layout attribute, -1 if the entry's
err is 0 and its stop is not 0, and 0 if not; with the blob present (16 bytes
or more), 1 if the entry's start, stop or commit hash differs from the blob's
decoded word 2, 3 or 0, and 0 if all three are equal. -/
theorem dir_mismatch_result (layout : dht_layout_t) (subvol : Option Nat)
    (xattr : Option dict_t) :
    ((∀ e ∈ layout.list, e.xlator ≠ subvol) →
      dht_layout_dir_mismatch layout subvol xattr = .ok (1, layout)) ∧
    (∀ (i : Nat) (e : dht_layout_entry), layout.list[i]? = some e → e.xlator = subvol →
      (∀ (j : Nat) (e' : dht_layout_entry), j < i → layout.list[j]? = some e' →
        e'.xlator ≠ subvol) →
      (xattr = none →
        dht_layout_dir_mismatch layout subvol xattr =
          .ok (if e.err = 0 then -1 else 0, layout)) ∧
      (∀ d : dict_t, xattr = some d → d.ret < 0 →
        dht_layout_dir_mismatch layout subvol xattr =
          .ok (if e.err = 0 ∧ e.stop ≠ 0 then -1 else 0, layout)) ∧
      (∀ (d : dict_t) (raw : List Nat), xattr = some d → 0 ≤ d.ret → d.ptr = some raw →
        16 ≤ raw.length →
        dht_layout_dir_mismatch layout subvol xattr =
          .ok (if e.start ≠ be32toh (word_at raw 2) ∨ e.stop ≠ be32toh (word_at raw 3) ∨
                  e.commit_hash ≠ be32toh (word_at raw 0) then 1 else 0, layout))) := by
  refine ⟨dir_mismatch_absent layout subvol xattr, ?_⟩
  intro i e hi hsub hmin
  have hidx : layout.list.findIdx (fun x => decide (x.xlator = subvol)) = i := by
    apply findIdx_first _ layout.list i e hi (by simp [hsub])
    intro j b hj hjb
    simpa using hmin j b hj hjb
  refine ⟨?_, ?_, ?_⟩
  · intro hx
    subst hx
    simp only [dht_layout_dir_mismatch, hidx, hi]
  · intro d hx hd
    subst hx
    simp only [dht_layout_dir_mismatch, hidx, hi, if_pos hd]
  · intro d raw hx hd hp hlen
    subst hx
    have hd' : ¬ d.ret < 0 := by omega
    have hl' : ¬ raw.length < 16 := by omega
    simp only [dht_layout_dir_mismatch, hidx, hi, if_neg hd', hp, if_neg hl',
      memcpy_full _ raw (List.length_replicate 16 0),
      word_at_take raw 0 (by decide), word_at_take raw 2 (by decide),
      word_at_take raw 3 (by decide)]

/-- Witness for C18: the third quarter against its own blob, and against a
dictionary without the attribute. -/
theorem dir_mismatch_result_witness :
    dht_layout_dir_mismatch quarters (some 3)
      (some (dict_of (dm_blob 0 0x80000000 0xBFFFFFFF))) = .ok (0, quarters) ∧
    dht_layout_dir_mismatch quarters (some 3) (some dict_without) = .ok (-1, quarters) :=
  have h := (dir_mismatch_result quarters (some 3)
      (some (dict_of (dm_blob 0 0x80000000 0xBFFFFFFF)))).2 2
      (entry_ok 0x80000000 0xBFFFFFFF 0 (some 3)) rfl rfl
      (by
        intro j e' hj hje
        have hcases : j = 0 ∨ j = 1 := by omega
        rcases hcases with h0 | h1
        · subst h0
          simp [quarters, layout_of] at hje
          subst hje
          simp [entry_ok]
        · subst h1
          simp [quarters, layout_of] at hje
          subst hje
          simp [entry_ok])
  ⟨(h.2.2 (dict_of (dm_blob 0 0x80000000 0xBFFFFFFF)) (dm_blob 0 0x80000000 0xBFFFFFFF)
      rfl (by decide) rfl (by decide)).trans rfl, rfl⟩


/-- Counterexample for C18 as stated: without a dictionary, an entry with err 0
and the empty range `0..0` gives -1, not 0; and with a dictionary that lacks the
attribute, an entry with err `ENOTCONN` and the range `0..100` gives 0, not
-1. -/
theorem dir_mismatch_gates_on_err :
    idle_layout.list = [entry_ok 0 0 0 (some 1)] ∧
    dht_layout_dir_mismatch idle_layout (some 1) none = .ok (-1, idle_layout) ∧
    down_layout.list =
      [{ err := ENOTCONN, start := 0, stop := 100, commit_hash := 0, xlator := some 1 }] ∧
    dht_layout_dir_mismatch down_layout (some 1) (some dict_without) = .ok (0, down_layout) :=
  ⟨rfl, rfl, rfl, rfl⟩

/-! ## Preset layouts: theorems -/

theorem layouts_init_loop_cons (K : dht_consts) (priv : Option dht_conf_t) (s : Nat)
    (rest : List Nat) (i : Nat) (file_layouts : List (Option dht_layout_t)) :
    layouts_init_loop K priv (fun _ => true) (s :: rest) i file_layouts =
      layouts_init_loop K priv (fun _ => true) rest (i + 1)
        (file_layouts.set i (some (preset_layout K priv s))) := by
  cases priv <;> rfl

theorem layouts_init_loop_ok (K : dht_consts) (priv : Option dht_conf_t) :
    ∀ (subvols : List Nat) (done : List (Option dht_layout_t)),
      layouts_init_loop K priv (fun _ => true) subvols done.length
          (done ++ List.replicate subvols.length none) =
        (0, done ++ subvols.map (fun s => some (preset_layout K priv s))) := by
  intro subvols
  induction subvols with
  | nil => intro done; simp [layouts_init_loop]
  | cons s rest ih =>
    intro done
    have hset : (done ++ List.replicate (s :: rest).length none).set done.length
        (some (preset_layout K priv s)) =
        (done ++ [some (preset_layout K priv s)]) ++ List.replicate rest.length none := by
      rw [List.length_cons, List.replicate_succ, set_at_length]
      simp
    have hih := ih (done ++ [some (preset_layout K priv s)])
    rw [List.length_append, List.length_singleton] at hih
    rw [layouts_init_loop_cons, hset, hih]
    simp

theorem layouts_init_ok (K : dht_consts) (priv : Option dht_conf_t) (c : dht_conf_t) :
    dht_layouts_init K priv true (fun _ => true) (some c) =
      (0, c.subvolumes.map (fun s => some (preset_layout K priv s))) := by
  have h := layouts_init_loop_ok K priv c.subvolumes []
  simp only [List.length_nil, List.nil_append] at h
  simp only [dht_layouts_init, if_true]
  exact h

/-- C20 (amended): for every configuration, when no allocation fails,
`dht_layouts_init` returns 0 and fills `file_layouts` with one layout per
subvolume: for subvolume `i` a layout with the preset flag set, type DM and one
entry, which names subvolume `i` and has the zeroed range `0..0` (start and stop
are never assigned).  Hence `dht_layout_search` on that layout returns
subvolume `i` for a name whose hash is 0 and `NULL` for every other hash. -/
theorem layouts_init_presets (K : dht_consts) (priv : Option dht_conf_t) (c : dht_conf_t)
    (hashf : Int → String → Option Nat) (i s : Nat) (hs : c.subvolumes[i]? = some s) :
    ∃ (file_layouts : List (Option dht_layout_t)) (layout : dht_layout_t),
      dht_layouts_init K priv true (fun _ => true) (some c) = (0, file_layouts) ∧
      file_layouts.length = c.subvolumes.length ∧
      file_layouts[i]? = some (some layout) ∧
      layout.preset = 1 ∧ layout.type = K.DHT_HASH_TYPE_DM ∧ layout.cnt = 1 ∧
      layout.list = [{ err := 0, start := 0, stop := 0, commit_hash := 0, xlator := some s }] ∧
      (∀ name : String, hashf layout.type name = some 0 →
        (dht_layout_search hashf layout name).1 = some s) ∧
      (∀ (name : String) (h : Nat), hashf layout.type name = some h → h ≠ 0 →
        (dht_layout_search hashf layout name).1 = none) := by
  refine ⟨_, preset_layout K priv s, layouts_init_ok K priv c, by simp, ?_, rfl, rfl, rfl, rfl,
    ?_, ?_⟩
  · rw [List.getElem?_map, hs]
    rfl
  · intro name hh
    simp only [dht_layout_search, hh]
    rfl
  · intro name h hh hne
    simp only [dht_layout_search, hh]
    have hcond : ¬ ((0 : Nat) ≤ h ∧ (0 : Nat) ≥ h) := by omega
    show search_loop h [{ err := 0, start := 0, stop := 0, commit_hash := 0, xlator := some s }]
      = none
    rw [search_loop, if_neg hcond]
    rfl

/-- Witness for C20: the preset layout of the second of two subvolumes. -/
theorem layouts_init_presets_witness :
    ∃ (file_layouts : List (Option dht_layout_t)) (layout : dht_layout_t),
      dht_layouts_init upstream_consts none true (fun _ => true) (some two_subvol_conf)
        = (0, file_layouts) ∧
      file_layouts[1]? = some (some layout) ∧
      layout.list = [{ err := 0, start := 0, stop := 0, commit_hash := 0, xlator := some 8 }] :=
  match layouts_init_presets upstream_consts none two_subvol_conf (fun _ _ => some 0) 1 8 rfl with
  | ⟨fl, layout, h1, _, h3, _, _, _, h7, _⟩ => ⟨fl, layout, h1, h3, h7⟩

/-- Counterexample for C20 as stated: the preset layout built for subvolume 7
has an entry with the range `0..0`, not `0..0xFFFFFFFF`, and a name hashing to
`0x90000000` is not found in it. -/
theorem preset_layout_not_full_range :
    dht_layouts_init upstream_consts none true (fun _ => true) (some two_subvol_conf) =
      (0, [some (preset_layout upstream_consts none 7),
           some (preset_layout upstream_consts none 8)]) ∧
    (preset_layout upstream_consts none 7).list =
      [{ err := 0, start := 0, stop := 0, commit_hash := 0, xlator := some 7 }] ∧
    (dht_layout_search (fun _ _ => some 0x90000000) (preset_layout upstream_consts none 7)
      "file").1 = none :=
  ⟨rfl, rfl, by decide⟩

/-! ## Merge sort under a total relation -/

theorem msort_merge_append {α : Type} (cmp : α → α → Int) :
    ∀ (fuel : Nat) (b1 b2 : List α), (∀ x ∈ b1, ∀ y ∈ b2, cmp x y ≤ 0) →
      msort_merge cmp fuel b1 b2 = b1 ++ b2 := by
  intro fuel
  induction fuel with
  | zero => intro b1 b2 _; simp [msort_merge]
  | succ k ih =>
    intro b1 b2 h
    cases b1 with
    | nil => simp [msort_merge]
    | cons x xs =>
      cases b2 with
      | nil => simp [msort_merge]
      | cons y ys =>
        have hxy : cmp x y ≤ 0 := h x (by simp) y (by simp)
        simp only [msort_merge, if_pos hxy]
        rw [ih xs (y :: ys) (fun a ha b hb => h a (by simp [ha]) b hb)]
        rfl

theorem msort_of_pairwise {α : Type} (cmp : α → α → Int) :
    ∀ (fuel : Nat) (b : List α), b.Pairwise (fun x y => cmp x y ≤ 0) →
      msort_with_tmp cmp fuel b = b := by
  intro fuel
  induction fuel with
  | zero => intro b _; simp [msort_with_tmp]
  | succ k ih =>
    intro b hb
    simp only [msort_with_tmp]
    split_ifs
    · rfl
    · have hsplit : b.take (b.length / 2) ++ b.drop (b.length / 2) = b :=
        List.take_append_drop _ _
      have hb' := hb
      rw [← hsplit, List.pairwise_append] at hb'
      obtain ⟨h1, h2, h3⟩ := hb'
      rw [ih _ h1, ih _ h2, msort_merge_append cmp _ _ _ h3, hsplit]

theorem pairwise_of_length_le_one {α : Type} (r : α → α → Prop) (l : List α)
    (h : l.length ≤ 1) : l.Pairwise r := by
  cases l with
  | nil => exact List.Pairwise.nil
  | cons a as =>
    cases as with
    | nil => exact List.pairwise_singleton r a
    | cons b bs => simp at h

theorem msort_merge_pairwise {α : Type} (cmp : α → α → Int) (P : α → Prop)
    (s : α → α → Prop)
    (htot : ∀ a b, P a → P b → cmp a b ≤ 0 ∨ cmp b a ≤ 0)
    (htr : ∀ a b c, P a → P b → P c → cmp a b ≤ 0 → cmp b c ≤ 0 → cmp a c ≤ 0) :
    ∀ (fuel : Nat) (b1 b2 : List α), b1.length + b2.length ≤ fuel →
      (∀ x ∈ b1, P x) → (∀ y ∈ b2, P y) →
      b1.Pairwise (fun a b => cmp a b ≤ 0 ∧ (cmp b a ≤ 0 → s a b)) →
      b2.Pairwise (fun a b => cmp a b ≤ 0 ∧ (cmp b a ≤ 0 → s a b)) →
      (∀ x ∈ b1, ∀ y ∈ b2, s x y) →
      (msort_merge cmp fuel b1 b2).Pairwise
        (fun a b => cmp a b ≤ 0 ∧ (cmp b a ≤ 0 → s a b)) := by
  intro fuel
  induction fuel with
  | zero =>
    intro b1 b2 hlen _ _ _ _ _
    have h1 : b1 = [] := List.length_eq_zero.mp (by omega)
    have h2 : b2 = [] := List.length_eq_zero.mp (by omega)
    subst h1 h2
    simp [msort_merge]
  | succ k ih =>
    intro b1 b2 hlen hP1 hP2 hs1 hs2 hcross
    cases b1 with
    | nil => simpa [msort_merge] using hs2
    | cons x xs =>
      cases b2 with
      | nil => simpa [msort_merge] using hs1
      | cons y ys =>
        obtain ⟨hx, hxs⟩ := List.pairwise_cons.mp hs1
        obtain ⟨hy, hys⟩ := List.pairwise_cons.mp hs2
        have hPx : P x := hP1 x (by simp)
        have hPy : P y := hP2 y (by simp)
        simp only [List.length_cons] at hlen
        simp only [msort_merge]
        by_cases hxy : cmp x y ≤ 0
        · rw [if_pos hxy]
          refine List.Pairwise.cons ?_ ?_
          · intro z hz
            have hz' := (msort_merge_perm cmp k xs (y :: ys)).mem_iff.mp hz
            rcases List.mem_append.mp hz' with h | h
            · exact hx z h
            · refine ⟨?_, fun _ => hcross x (by simp) z h⟩
              rcases List.mem_cons.mp h with h1 | h1
              · rw [h1]; exact hxy
              · exact htr x y z hPx hPy (hP2 z (by simp [h1])) hxy (hy z h1).1
          · exact ih xs (y :: ys) (by simp only [List.length_cons]; omega)
              (fun a ha => hP1 a (by simp [ha])) hP2 hxs hs2
              (fun a ha b hb => hcross a (by simp [ha]) b hb)
        · rw [if_neg hxy]
          have hyx : cmp y x ≤ 0 := by
            rcases htot x y hPx hPy with h | h
            · exact absurd h hxy
            · exact h
          refine List.Pairwise.cons ?_ ?_
          · intro z hz
            have hz' := (msort_merge_perm cmp k (x :: xs) ys).mem_iff.mp hz
            rcases List.mem_append.mp hz' with h | h
            · have hPz : P z := hP1 z h
              have hxz : z = x ∨ cmp x z ≤ 0 := by
                rcases List.mem_cons.mp h with h1 | h1
                · exact Or.inl h1
                · exact Or.inr (hx z h1).1
              constructor
              · rcases hxz with h1 | h1
                · rw [h1]; exact hyx
                · exact htr y x z hPy hPx hPz hyx h1
              · intro hzy
                exfalso
                apply hxy
                rcases hxz with h1 | h1
                · rw [← h1]; exact hzy
                · exact htr x z y hPx hPz hPy h1 hzy
            · exact hy z h
          · exact ih (x :: xs) ys (by simp only [List.length_cons]; omega) hP1
              (fun a ha => hP2 a (by simp [ha])) hs1 hys
              (fun a ha b hb => hcross a ha b (by simp [hb]))

theorem msort_pairwise {α : Type} (cmp : α → α → Int) (P : α → Prop)
    (s : α → α → Prop)
    (htot : ∀ a b, P a → P b → cmp a b ≤ 0 ∨ cmp b a ≤ 0)
    (htr : ∀ a b c, P a → P b → P c → cmp a b ≤ 0 → cmp b c ≤ 0 → cmp a c ≤ 0) :
    ∀ (fuel : Nat) (b : List α), b.length ≤ fuel → (∀ x ∈ b, P x) → b.Pairwise s →
      (msort_with_tmp cmp fuel b).Pairwise
        (fun a b => cmp a b ≤ 0 ∧ (cmp b a ≤ 0 → s a b)) := by
  intro fuel
  induction fuel with
  | zero =>
    intro b hlen _ _
    have h1 : b = [] := List.length_eq_zero.mp (by omega)
    subst h1
    simp [msort_with_tmp]
  | succ k ih =>
    intro b hlen hP hs
    simp only [msort_with_tmp]
    by_cases h1 : b.length ≤ 1
    · rw [if_pos h1]
      exact pairwise_of_length_le_one _ b h1
    · rw [if_neg h1]
      have hsplit : b.take (b.length / 2) ++ b.drop (b.length / 2) = b :=
        List.take_append_drop _ _
      have hs' := hs
      rw [← hsplit, List.pairwise_append] at hs'
      obtain ⟨hs1, hs2, hs3⟩ := hs'
      have hp1 := msort_perm cmp k (b.take (b.length / 2))
      have hp2 := msort_perm cmp k (b.drop (b.length / 2))
      have hl1 : (b.take (b.length / 2)).length ≤ k := by
        rw [List.length_take]; omega
      have hl2 : (b.drop (b.length / 2)).length ≤ k := by
        rw [List.length_drop]; omega
      have hm1 : ∀ x ∈ b.take (b.length / 2), x ∈ b := fun x hx => List.mem_of_mem_take hx
      have hm2 : ∀ x ∈ b.drop (b.length / 2), x ∈ b := fun x hx => List.mem_of_mem_drop hx
      apply msort_merge_pairwise cmp P s htot htr
      · rw [hp1.length_eq, hp2.length_eq, ← List.length_append, hsplit]
      · exact fun x hx => hP x (hm1 x (hp1.mem_iff.mp hx))
      · exact fun x hx => hP x (hm2 x (hp2.mem_iff.mp hx))
      · exact ih _ hl1 (fun x hx => hP x (hm1 x hx)) hs1
      · exact ih _ hl2 (fun x hx => hP x (hm2 x hx)) hs2
      · exact fun x hx y hy => hs3 x (hp1.mem_iff.mp hx) y (hp2.mem_iff.mp hy)

theorem qsort_pairwise {α : Type} (cmp : α → α → Int) (P : α → Prop) (s : α → α → Prop)
    (htot : ∀ a b, P a → P b → cmp a b ≤ 0 ∨ cmp b a ≤ 0)
    (htr : ∀ a b c, P a → P b → P c → cmp a b ≤ 0 → cmp b c ≤ 0 → cmp a c ≤ 0)
    (l : List α) (hP : ∀ x ∈ l, P x) (hs : l.Pairwise s) :
    (qsort cmp l).Pairwise (fun a b => cmp a b ≤ 0 ∧ (cmp b a ≤ 0 → s a b)) :=
  msort_pairwise cmp P s htot htr l.length l (le_refl _) hP hs

theorem qsort_of_pairwise {α : Type} (cmp : α → α → Int) (l : List α)
    (h : l.Pairwise (fun x y => cmp x y ≤ 0)) : qsort cmp l = l :=
  msort_of_pairwise cmp l.length l h

/-! ## Range sort -/

theorem range_le_iff (x y : dht_layout_entry) :
    range_le x y ↔ (if y.start = 0 ∧ y.stop = 0 then x.stop = 0 else x.start ≤ y.start) := by
  unfold range_le dht_layout_entry_cmp
  by_cases hy : y.start = 0 ∧ y.stop = 0
  · simp only [if_pos hy]
    rw [hy.2]
    split_ifs <;> omega
  · simp only [if_neg hy]
    split_ifs <;> omega

theorem range_le_total (x y : dht_layout_entry) : range_le x y ∨ range_le y x := by
  rw [range_le_iff, range_le_iff]
  by_cases hx : x.start = 0 ∧ x.stop = 0
  · left
    by_cases hy : y.start = 0 ∧ y.stop = 0
    · rw [if_pos hy]
      exact hx.2
    · rw [if_neg hy, hx.1]
      exact Nat.zero_le _
  · by_cases hy : y.start = 0 ∧ y.stop = 0
    · right
      rw [if_neg hx, hy.1]
      exact Nat.zero_le _
    · rw [if_neg hx, if_neg hy]
      omega

theorem range_le_start (x y : dht_layout_entry) (hx : x.stop = 0 → x.start = 0)
    (h : range_le x y) : x.start ≤ y.start := by
  rw [range_le_iff] at h
  by_cases hy : y.start = 0 ∧ y.stop = 0
  · rw [if_pos hy] at h
    rw [hx h]
    exact Nat.zero_le _
  · rw [if_neg hy] at h
    exact h

theorem range_le_trans_on (l : List dht_layout_entry) (hl : no_zero_stop_above l) :
    ∀ a ∈ l, ∀ b ∈ l, ∀ c ∈ l, range_le a b → range_le b c → range_le a c := by
  intro a ha b hb c _ hab hbc
  have h1 := range_le_start a b (hl a ha) hab
  have h2 := range_le_start b c (hl b hb) hbc
  rw [range_le_iff] at hab hbc ⊢
  by_cases hc : c.start = 0 ∧ c.stop = 0
  · rw [if_pos hc] at hbc ⊢
    have hb0 : b.start = 0 := hl b hb hbc
    rw [if_pos ⟨hb0, hbc⟩] at hab
    exact hab
  · rw [if_neg hc]
    omega

theorem range_le_trans (a b c : dht_layout_entry) (ha : a.stop = 0 → a.start = 0)
    (hb : b.stop = 0 → b.start = 0) (hab : range_le a b) (hbc : range_le b c) :
    range_le a c := by
  have h1 := range_le_start a b ha hab
  have h2 := range_le_start b c hb hbc
  rw [range_le_iff] at hab hbc ⊢
  by_cases hc : c.start = 0 ∧ c.stop = 0
  · rw [if_pos hc] at hbc ⊢
    have hb0 : b.start = 0 := hb hbc
    rw [if_pos ⟨hb0, hbc⟩] at hab
    exact hab
  · rw [if_neg hc]
    omega

theorem sort_list_pairwise (layout : dht_layout_t) (hl : no_zero_stop_above layout.list) :
    (dht_layout_sort layout).list.Pairwise range_le := by
  have h := qsort_pairwise dht_layout_entry_cmp (fun e => e.stop = 0 → e.start = 0)
    (fun _ _ => True) (fun a b _ _ => range_le_total a b)
    (fun a b c ha hb _ hab hbc => range_le_trans a b c ha hb hab hbc)
    layout.list hl (List.pairwise_of_forall (fun _ _ => trivial))
  exact h.imp (fun hab => hab.1)

theorem pairwise_index {α : Type} (r : α → α → Prop) :
    ∀ (l : List α), l.Pairwise r →
      ∀ (i j : Nat) (a b : α), i < j → l[i]? = some a → l[j]? = some b → r a b := by
  intro l
  induction l with
  | nil => intro _ i j a b _ ha; simp at ha
  | cons x xs ih =>
    intro hp i j a b hij ha hb
    obtain ⟨hx, hrest⟩ := List.pairwise_cons.mp hp
    cases j with
    | zero => exact absurd hij (Nat.not_lt_zero i)
    | succ j' =>
      have hb' : xs[j']? = some b := by simpa using hb
      cases i with
      | zero =>
        have hax : x = a := by simpa using ha
        rw [← hax]
        exact hx b (List.getElem?_mem hb')
      | succ i' =>
        exact ih hrest i' j' a b (by omega) (by simpa using ha) hb'

/-- C14 (amended): for every layout, `dht_layout_sort` leaves a permutation of
the original entries (every entry keeps its subvolume, stop, commit hash and
err; the count is unchanged); and if no entry has stop 0 with a start above 0,
the entries are ordered by start afterwards: for all indices `i < j` the start
of entry `i` is at most the start of entry `j`. -/
theorem sort_orders_by_start (layout : dht_layout_t) :
    (dht_layout_sort layout).list.Perm layout.list ∧
    (dht_layout_sort layout).cnt = layout.cnt ∧
    (no_zero_stop_above layout.list →
      ∀ (i j : Nat) (a b : dht_layout_entry), i < j →
        (dht_layout_sort layout).list[i]? = some a →
        (dht_layout_sort layout).list[j]? = some b → a.start ≤ b.start) := by
  have hperm := sort_list_perm layout
  refine ⟨hperm, hperm.length_eq, ?_⟩
  intro hl i j a b hij ha hb
  have hr := pairwise_index range_le _ (sort_list_pairwise layout hl) i j a b hij ha hb
  exact range_le_start a b (hl a (hperm.mem_iff.mp (List.getElem?_mem ha))) hr

/-- Witness for C14: the shuffled quarters come out in the order of their
starts. -/
theorem sort_orders_by_start_witness :
    (dht_layout_sort quarters_shuffled).list = quarters.list ∧
    ∀ (i j : Nat) (a b : dht_layout_entry), i < j →
      (dht_layout_sort quarters_shuffled).list[i]? = some a →
      (dht_layout_sort quarters_shuffled).list[j]? = some b → a.start ≤ b.start :=
  ⟨by decide, (sort_orders_by_start quarters_shuffled).2.2 (by decide)⟩

/-- Counterexample for C14 as stated: `5..0` compares equal to the
non-participating `0..0` (its stop is 0) and stays in front of it, so after the
sort the start 5 stands before the start 0. -/
theorem sort_not_by_start :
    (dht_layout_sort zero_stop_layout).list =
      [entry_ok 5 0 0 (some 1), entry_ok 0 0 0 (some 2)] ∧
    ¬ (∀ (i j : Nat) (a b : dht_layout_entry), i < j →
        (dht_layout_sort zero_stop_layout).list[i]? = some a →
        (dht_layout_sort zero_stop_layout).list[j]? = some b → a.start ≤ b.start) := by
  have hs : (dht_layout_sort zero_stop_layout).list =
      [entry_ok 5 0 0 (some 1), entry_ok 0 0 0 (some 2)] := by decide
  refine ⟨hs, ?_⟩
  intro h
  have h1 := h 0 1 (entry_ok 5 0 0 (some 1)) (entry_ok 0 0 0 (some 2)) (by decide)
    (by rw [hs]; rfl) (by rw [hs]; rfl)
  simp [entry_ok] at h1

theorem and_high_mask (x k : Nat) (hk : k ≤ 64) (hx : x < 2 ^ 64) :
    x &&& (2 ^ 64 - 2 ^ k) = 2 ^ k * (x / 2 ^ k) := by
  have hM : 2 ^ 64 - 2 ^ k = 2 ^ k * (2 ^ (64 - k) - 1) := by
    have h : (2 : Nat) ^ 64 = 2 ^ k * 2 ^ (64 - k) := by
      rw [← pow_add]; congr 1; omega
    rw [Nat.mul_sub, Nat.mul_one, ← h]
  apply Nat.eq_of_testBit_eq
  intro i
  rw [Nat.testBit_and, hM, Nat.testBit_mul_pow_two, Nat.testBit_mul_pow_two,
    Nat.testBit_two_pow_sub_one, ← Nat.shiftRight_eq_div_pow, Nat.testBit_shiftRight]
  by_cases hik : k ≤ i
  · have hki : k + (i - k) = i := by omega
    rw [hki]
    by_cases hi : i < 64
    · have : i - k < 64 - k := by omega
      simp [hik, this]
    · have hfalse : x.testBit i = false := by
        apply Nat.testBit_lt_two_pow
        calc x < 2 ^ 64 := hx
          _ ≤ 2 ^ i := Nat.pow_le_pow_right (by decide) (by omega)
      simp [hfalse]
  · simp [hik]

theorem align_buf_eq (p k : Nat) (hk : k < 64)
    (hp : p + 2 ^ k - 1 < 18446744073709551616) :
    GF_ALIGN_BUF p (2 ^ k) = 2 ^ k * ((p + 2 ^ k - 1) / 2 ^ k) := by
  have h64 : (18446744073709551616 : Nat) = 2 ^ 64 := by norm_num
  have hpos : 0 < 2 ^ k := Nat.two_pow_pos k
  have hlt : 2 ^ k < 2 ^ 64 := Nat.pow_lt_pow_right (by decide) hk
  have hx : (p + 2 ^ k + 18446744073709551616 - 1) % 18446744073709551616 = p + 2 ^ k - 1 := by
    omega
  have hm : 18446744073709551615 - (2 ^ k + 18446744073709551616 - 1) % 18446744073709551616
      = 2 ^ 64 - 2 ^ k := by
    omega
  unfold GF_ALIGN_BUF
  rw [hx, hm]
  exact and_high_mask _ k (by omega) (by omega)

theorem align_buf_int_eq (p k : Nat) (hk : k < 31) :
    GF_ALIGN_BUF_int p ((2 ^ k : Nat) : Int) = GF_ALIGN_BUF p (2 ^ k) := by
  have hpos : 0 < 2 ^ k := Nat.two_pow_pos k
  have hlt : 2 ^ k < 2 ^ 31 := Nat.pow_lt_pow_right (by decide) hk
  have h31 : (2 : Nat) ^ 31 = 2147483648 := by norm_num
  generalize 2 ^ k = b at hpos hlt
  have ha : (((p : Int) + (b : Int) - 1) % 18446744073709551616).toNat =
      (p + b + 18446744073709551616 - 1) % 18446744073709551616 := by
    omega
  have hb : ((-((b : Int) - 1) - 1) % 18446744073709551616).toNat =
      18446744073709551615 - (b + 18446744073709551616 - 1) % 18446744073709551616 := by
    omega
  unfold GF_ALIGN_BUF_int GF_ALIGN_BUF
  rw [ha, hb]

theorem align_buf_bounds (p k : Nat) (hk : k < 64)
    (hp : p + 2 ^ k - 1 < 18446744073709551616) :
    GF_ALIGN_BUF p (2 ^ k) % 2 ^ k = 0 ∧
    p ≤ GF_ALIGN_BUF p (2 ^ k) ∧ GF_ALIGN_BUF p (2 ^ k) < p + 2 ^ k := by
  have hpos : 0 < 2 ^ k := Nat.two_pow_pos k
  have heq := align_buf_eq p k hk hp
  have hdm := Nat.div_add_mod (p + 2 ^ k - 1) (2 ^ k)
  have hmod := Nat.mod_lt (p + 2 ^ k - 1) hpos
  refine ⟨?_, ?_, ?_⟩
  · rw [heq]; exact Nat.mul_mod_right _ _
  · rw [heq]; omega
  · rw [heq]; omega

/-- C23: for every address `p` and every bound `2 ^ k` that fits the 64-bit
word, with `p + bound - 1` not above the largest word, `GF_ALIGN_BUF(p, bound)`
is a multiple of the bound with `p ≤ GF_ALIGN_BUF(p, bound) < p + bound`; the
same value results when the bound is passed as an `int` (below `2 ^ 31`).  So
for the bound 512 (`GF_IOBUF_ALIGN_SIZE`) the aligned address is 0 modulo 512,
and for every bound the `page_size` bytes that start at the aligned address lie
inside the `page_size + bound` bytes that start at `p`. -/
theorem align_buf_aligned (p k : Nat) (hk : k < 64)
    (hp : p + 2 ^ k - 1 < 18446744073709551616) :
    GF_ALIGN_BUF p (2 ^ k) % 2 ^ k = 0 ∧
    p ≤ GF_ALIGN_BUF p (2 ^ k) ∧ GF_ALIGN_BUF p (2 ^ k) < p + 2 ^ k ∧
    (∀ page_size : Nat,
      p ≤ GF_ALIGN_BUF p (2 ^ k) ∧
      GF_ALIGN_BUF p (2 ^ k) + page_size ≤ p + (page_size + 2 ^ k)) ∧
    (k < 31 → GF_ALIGN_BUF_int p ((2 ^ k : Nat) : Int) = GF_ALIGN_BUF p (2 ^ k)) ∧
    (∀ q page_size : Nat, q + GF_IOBUF_ALIGN_SIZE - 1 < 18446744073709551616 →
      GF_ALIGN_BUF q GF_IOBUF_ALIGN_SIZE % 512 = 0 ∧
      q ≤ GF_ALIGN_BUF q GF_IOBUF_ALIGN_SIZE ∧
      GF_ALIGN_BUF q GF_IOBUF_ALIGN_SIZE + page_size ≤ q + (page_size + 512)) := by
  obtain ⟨h1, h2, h3⟩ := align_buf_bounds p k hk hp
  refine ⟨h1, h2, h3, fun page_size => ⟨h2, by omega⟩, align_buf_int_eq p k, ?_⟩
  intro q page_size hq
  have h512 : GF_IOBUF_ALIGN_SIZE = 2 ^ 9 := by decide
  rw [h512] at hq ⊢
  obtain ⟨g1, g2, g3⟩ := align_buf_bounds q 9 (by decide) hq
  have e9 : (2 : Nat) ^ 9 = 512 := by decide
  rw [e9] at g1 g2 g3 ⊢
  exact ⟨g1, g2, by omega⟩

/-- Witness for C23: the address 1000 is aligned to 1024 for the bound 512. -/
theorem align_buf_aligned_witness :
    GF_ALIGN_BUF 1000 (2 ^ 9) = 1024 ∧ GF_ALIGN_BUF_int 1000 512 = 1024 ∧
    GF_ALIGN_BUF 1000 (2 ^ 9) % 2 ^ 9 = 0 ∧
    1000 ≤ GF_ALIGN_BUF 1000 (2 ^ 9) ∧ GF_ALIGN_BUF 1000 (2 ^ 9) < 1000 + 2 ^ 9 :=
  have h := align_buf_aligned 1000 9 (by decide) (by decide)
  ⟨by decide, by decide, h.1, h.2.1, h.2.2.1⟩

/-! ## Merge into a layout without unset entry -/

theorem findIdx_none (l : List dht_layout_entry) (h : ∀ e ∈ l, e.xlator ≠ none) :
    l.findIdx (fun e => decide (e.xlator = none)) = l.length := by
  apply List.findIdx_eq_length.mpr
  intro x hx
  simpa using h x hx

theorem merge_no_unset_entry (K : dht_consts) (stack : List Nat) (layout : dht_layout_t)
    (subvol : Option Nat) (op_ret op_errno : Int) (xattr : Option dict_t)
    (h : ∀ e ∈ layout.list, e.xlator ≠ none) :
    (op_ret ≠ 0 →
      dht_layout_merge K stack layout subvol op_ret op_errno xattr = .ok (0, layout)) ∧
    (op_ret = 0 → (∀ d : dict_t, xattr = some d → d.ret ≠ 0) →
      dht_layout_merge K stack layout subvol op_ret op_errno xattr =
        .error (.oob_entry layout.cnt)) ∧
    (op_ret = 0 → ∀ (d : dict_t) (raw : List Nat), xattr = some d → d.ret = 0 →
      d.ptr = some raw → d.len = 16 → 16 ≤ raw.length →
      (blob_type raw = K.DHT_HASH_TYPE_DM_USER ∨ blob_type raw = K.DHT_HASH_TYPE_DM) →
      dht_layout_merge K stack layout subvol op_ret op_errno xattr =
        .error (.oob_entry layout.cnt)) := by
  have hidx := findIdx_none layout.list h
  have hget : layout.list[layout.list.length]? = none := List.getElem?_eq_none (le_refl _)
  refine ⟨?_, ?_, ?_⟩
  · intro hop
    simp only [dht_layout_merge, hidx, hget, if_pos hop]
  · intro hop hx
    have hnn : ¬ (op_ret ≠ 0) := fun hc => hc hop
    cases xattr with
    | none =>
      simp only [dht_layout_merge, hidx, hget, if_neg hnn]
      rfl
    | some d =>
      have hd := hx d rfl
      simp only [dht_layout_merge, hidx, hget, if_neg hnn, if_pos hd]
      rfl
  · intro hop d raw hxd hret hptr hlen hraw ht
    have hnn : ¬ (op_ret ≠ 0) := fun hc => hc hop
    have hr : ¬ (d.ret ≠ 0) := fun hc => hc hret
    subst hxd
    simp only [dht_layout_merge, hidx, hget, if_neg hnn, if_neg hr, hptr, hlen,
      disk_merge_oob K stack layout layout.list.length raw hraw ht hget]
    rfl

/-- C22 (code at a failing input): in a layout in which every entry already has
a subvolume, and in a layout without entries, `dht_layout_merge` with
`op_ret = 0` leaves its loop with `i = cnt` and then writes `list[cnt]`: the `err`
field when the dictionary is `NULL` or lacks the layout attribute, and start,
stop and commit hash (in `dht_disk_layout_merge`) when the dictionary holds a
valid blob. -/
theorem merge_writes_past_the_entries :
    quarters.cnt = 4 ∧ (∀ e ∈ quarters.list, e.xlator ≠ none) ∧ empty_layout.cnt = 0 ∧
    (∀ (K : dht_consts) (stack : List Nat) (subvol : Option Nat) (op_errno : Int),
      dht_layout_merge K stack quarters subvol 0 op_errno none = .error (.oob_entry 4) ∧
      dht_layout_merge K stack quarters subvol 0 op_errno (some dict_without)
        = .error (.oob_entry 4) ∧
      dht_layout_merge K stack empty_layout subvol 0 op_errno none
        = .error (.oob_entry 0)) ∧
    (∀ (stack : List Nat) (subvol : Option Nat) (op_errno : Int),
      dht_layout_merge upstream_consts stack quarters subvol 0 op_errno
        (some (dict_of (dm_blob 7 0 0xFFFFFFFF))) = .error (.oob_entry 4)) := by
  have hq : ∀ e ∈ quarters.list, e.xlator ≠ none := by decide
  have he : ∀ e ∈ empty_layout.list, e.xlator ≠ none := by decide
  refine ⟨rfl, hq, rfl, ?_, ?_⟩
  · intro K stack subvol op_errno
    refine ⟨?_, ?_, ?_⟩
    · exact (merge_no_unset_entry K stack quarters subvol 0 op_errno none hq).2.1 rfl
        (fun d hd => by cases hd)
    · exact (merge_no_unset_entry K stack quarters subvol 0 op_errno (some dict_without)
        hq).2.1 rfl (fun d hd => by cases hd; decide)
    · exact (merge_no_unset_entry K stack empty_layout subvol 0 op_errno none he).2.1 rfl
        (fun d hd => by cases hd)
  · intro stack subvol op_errno
    exact (merge_no_unset_entry upstream_consts stack quarters subvol 0 op_errno
      (some (dict_of (dm_blob 7 0 0xFFFFFFFF))) hq).2.2 rfl _ _ rfl rfl rfl rfl (by decide)
      (Or.inr (by decide))

/-! ## Anomalies of a tiling -/

theorem scan_real_tiles :
    ∀ (l : List dht_layout_entry) (p : Nat), (∀ e ∈ l, e.start < 4294967296) →
      tiles_from p l = true → scan_real p l = (0, 0, 4294967295) := by
  intro l
  induction l with
  | nil =>
    intro p _ h
    have hp : p = 4294967295 := by simpa [tiles_from] using h
    simp [scan_real, hp]
  | cons e es ih =>
    intro p hlt h
    simp only [tiles_from, Bool.and_eq_true, decide_eq_true_eq] at h
    obtain ⟨hs, hrest⟩ := h
    have he := hlt e (List.mem_cons_self _ _)
    have hmod : (p + 1) % 4294967296 = e.start := by omega
    have hih := ih e.stop (fun x hx => hlt x (List.mem_cons_of_mem _ hx)) hrest
    simp only [scan_real, hih, hmod]
    simp

theorem real_eq_tile_entry (e : dht_layout_entry)
    (h : is_tile_entry e = true ∨ e.err ≠ 0 ∨ e.start = e.stop) :
    is_real e = is_tile_entry e := by
  unfold is_real is_tile_entry at *
  rcases h with h | h | h
  · have h' := of_decide_eq_true h
    rw [decide_eq_true (show e.err = 0 ∧ e.start ≠ e.stop from ⟨h'.1, h'.2.1⟩),
      decide_eq_true h']
  · rw [decide_eq_false (fun hc => h hc.1), decide_eq_false (fun hc => h hc.1)]
  · rw [decide_eq_false (fun hc => hc.2 h), decide_eq_false (fun hc => hc.2.1 h)]

/-- C21: for every layout with at least one entry whose entries are in
non-decreasing start order, whose real entries (no error, start different from
stop, start not above stop), taken in stored order, tile the hash space exactly
(the first starts at 0, each next one starts at the stop before it plus one,
the last stops at `0xFFFFFFFF`), and whose other entries are errored or
non-participating (start equal to stop, in particular `0..0`),
`dht_layout_anomalies` returns and reports no hole and no overlap. -/
theorem anomalies_clean_on_tiling (layout : dht_layout_t) (hwf : layout.wf)
    (hne : layout.list ≠ [])
    (hsorted : layout.list.Pairwise (fun a b => a.start ≤ b.start))
    (hkinds : ∀ e ∈ layout.list, is_tile_entry e = true ∨ e.err ≠ 0 ∨ e.start = e.stop)
    (htile : tiles_exactly (layout.list.filter is_tile_entry) = true) :
    ∃ a : anomalies_t, dht_layout_anomalies layout = .ok a ∧ a.holes = 0 ∧ a.overlaps = 0 := by
  obtain ⟨e0, es, hl⟩ := List.exists_cons_of_ne_nil hne
  have hfilter : layout.list.filter is_real = layout.list.filter is_tile_entry :=
    List.filter_congr (fun e he => real_eq_tile_entry e (hkinds e he))
  obtain ⟨a, ha, hh, ho⟩ := anomalies_ok e0 es layout hl hwf
  cases hR : layout.list.filter is_tile_entry with
  | nil => rw [hR] at htile; simp [tiles_exactly] at htile
  | cons r0 rs =>
    rw [hR] at htile hfilter
    simp only [tiles_exactly, Bool.and_eq_true, decide_eq_true_eq] at htile
    obtain ⟨hr0, hrest⟩ := htile
    have hmemR : ∀ x ∈ r0 :: rs, x ∈ layout.list := by
      intro x hx
      rw [← hR] at hx
      exact (List.mem_filter.mp hx).1
    have hr0mem : r0 ∈ e0 :: es := by
      rw [← hl]; exact hmemR r0 (List.mem_cons_self _ _)
    have he0 : e0.start = 0 := by
      rw [hl] at hsorted
      rcases List.mem_cons.mp hr0mem with h | h
      · rw [← h]; exact hr0
      · have := (List.pairwise_cons.mp hsorted).1 r0 h
        omega
    have hstart : ∀ x ∈ rs, x.start < 4294967296 := fun x hx =>
      (hwf.2.2.2 x (hmemR x (List.mem_cons_of_mem _ hx))).1
    have hscan := scan_real_tiles rs r0.stop hstart hrest
    have hinit : scan_initial layout.list = (0, 0) := by
      have hw : scan_with_top 4294967295 layout.list = (0, 0) := by
        unfold scan_with_top
        rw [hfilter, hl]
        simp only [he0]
        simp [scan_real, hscan, hr0]
      rw [hl] at hw ⊢
      simp only [scan_initial, he0]
      exact hw
    exact ⟨a, ha, by rw [hh, hinit], by rw [ho, hinit]⟩

/-- Witness for C21: the four quarters, with errored and idle entries in
between, have no hole and no overlap. -/
theorem anomalies_clean_on_tiling_witness :
    (tiled_layout.list.filter is_tile_entry).length = 4 ∧ tiled_layout.list.length = 8 ∧
    ∃ a : anomalies_t, dht_layout_anomalies tiled_layout = .ok a ∧
      a.holes = 0 ∧ a.overlaps = 0 :=
  ⟨by decide, by decide,
    anomalies_clean_on_tiling tiled_layout (by decide) (by decide) (by decide) (by decide)
      (by decide)⟩

/-- An entry without error whose start lies above its stop is none of the three
kinds of entry: the scan compares it.  Behind the full range, `5..3` is counted
as a hole, and the last stop 3 as one more. -/
theorem anomalies_compare_backwards_entry :
    tiles_exactly (tiled_backwards_layout.list.filter is_tile_entry) = true ∧
    dht_layout_anomalies tiled_backwards_layout =
      .ok { holes := 2, overlaps := 0, missing := 0, down := 0, misc := 0, no_space := 0 } :=
  ⟨by decide, rfl⟩

/-! ## Sorting twice -/

theorem msort_merge_map {α β : Type} (f : β → α) (cmp : α → α → Int) :
    ∀ (fuel : Nat) (b1 b2 : List β),
      (msort_merge (fun a b => cmp (f a) (f b)) fuel b1 b2).map f =
        msort_merge cmp fuel (b1.map f) (b2.map f) := by
  intro fuel
  induction fuel with
  | zero => intro b1 b2; simp [msort_merge]
  | succ k ih =>
    intro b1 b2
    cases b1 with
    | nil => simp [msort_merge]
    | cons x xs =>
      cases b2 with
      | nil => simp [msort_merge]
      | cons y ys =>
        simp only [msort_merge, List.map_cons]
        by_cases h : cmp (f x) (f y) ≤ 0
        · rw [if_pos h, if_pos h, List.map_cons, ih xs (y :: ys), List.map_cons]
        · rw [if_neg h, if_neg h, List.map_cons, ih (x :: xs) ys, List.map_cons]

theorem msort_map {α β : Type} (f : β → α) (cmp : α → α → Int) :
    ∀ (fuel : Nat) (b : List β),
      (msort_with_tmp (fun a b => cmp (f a) (f b)) fuel b).map f =
        msort_with_tmp cmp fuel (b.map f) := by
  intro fuel
  induction fuel with
  | zero => intro b; simp [msort_with_tmp]
  | succ k ih =>
    intro b
    simp only [msort_with_tmp, List.length_map]
    by_cases h : b.length ≤ 1
    · rw [if_pos h, if_pos h]
    · rw [if_neg h, if_neg h, msort_merge_map, ih, ih, List.map_take, List.map_drop]

theorem qsort_map {α β : Type} (f : β → α) (cmp : α → α → Int) (b : List β) :
    (qsort (fun a b => cmp (f a) (f b)) b).map f = qsort cmp (b.map f) := by
  unfold qsort
  rw [msort_map, List.length_map]

theorem qsort_qsort_of_pairwise {α : Type} (cmp1 cmp2 : α → α → Int) (P : α → Prop)
    (htot1 : ∀ a b, P a → P b → cmp1 a b ≤ 0 ∨ cmp1 b a ≤ 0)
    (htr1 : ∀ a b c, P a → P b → P c → cmp1 a b ≤ 0 → cmp1 b c ≤ 0 → cmp1 a c ≤ 0)
    (htot2 : ∀ a b, cmp2 a b ≤ 0 ∨ cmp2 b a ≤ 0)
    (htr2 : ∀ a b c, cmp2 a b ≤ 0 → cmp2 b c ≤ 0 → cmp2 a c ≤ 0)
    (l : List α) (hP : ∀ x ∈ l, P x)
    (hl : l.Pairwise (fun a b => cmp1 a b ≤ 0 ∧ (cmp1 b a ≤ 0 → cmp2 a b ≤ 0))) :
    qsort cmp1 (qsort cmp2 l) = l := by
  have hlen : (List.range l.length).length = l.length := List.length_range _
  have hsnd : ((List.range l.length).zip l).map Prod.snd = l :=
    List.map_snd_zip _ _ (by rw [hlen])
  have hfst : ((List.range l.length).zip l).map Prod.fst = List.range l.length :=
    List.map_fst_zip _ _ (by rw [hlen])
  have hidx : ((List.range l.length).zip l).Pairwise (fun a b => a.1 < b.1) := by
    have h := List.pairwise_lt_range l.length
    rw [← hfst, List.pairwise_map] at h
    exact h
  have hT12 : ((List.range l.length).zip l).Pairwise
      (fun a b => cmp1 a.2 b.2 ≤ 0 ∧ (cmp1 b.2 a.2 ≤ 0 → cmp2 a.2 b.2 ≤ 0)) := by
    have h := hl
    rw [← hsnd, List.pairwise_map] at h
    exact h
  have hPT : ∀ x ∈ (List.range l.length).zip l, P x.2 := by
    intro x hx
    apply hP
    rw [← hsnd]
    exact List.mem_map_of_mem Prod.snd hx
  have hN := qsort_pairwise (fun a b : Nat × α => cmp2 a.2 b.2) (fun _ => True)
    (fun a b => a.1 < b.1) (fun a b _ _ => htot2 a.2 b.2)
    (fun a b c _ _ _ hab hbc => htr2 a.2 b.2 c.2 hab hbc)
    ((List.range l.length).zip l) (fun _ _ => trivial) hidx
  have hPN : ∀ x ∈ qsort (fun a b : Nat × α => cmp2 a.2 b.2) ((List.range l.length).zip l),
      P x.2 := fun x hx => hPT x ((qsort_perm _ _).mem_iff.mp hx)
  have hS := qsort_pairwise (fun a b : Nat × α => cmp1 a.2 b.2) (fun x => P x.2)
    (fun a b => cmp2 a.2 b.2 ≤ 0 ∧ (cmp2 b.2 a.2 ≤ 0 → a.1 < b.1))
    (fun a b ha hb => htot1 a.2 b.2 ha hb)
    (fun a b c ha hb hc hab hbc => htr1 a.2 b.2 c.2 ha hb hc hab hbc)
    _ hPN hN
  have hT : ((List.range l.length).zip l).Pairwise
      (fun a b => cmp1 a.2 b.2 ≤ 0 ∧
        (cmp1 b.2 a.2 ≤ 0 → cmp2 a.2 b.2 ≤ 0 ∧ (cmp2 b.2 a.2 ≤ 0 → a.1 < b.1))) :=
    (hT12.and hidx).imp (fun h => ⟨h.1.1, fun hba => ⟨h.1.2 hba, fun _ => h.2⟩⟩)
  have hperm : (qsort (fun a b : Nat × α => cmp1 a.2 b.2)
      (qsort (fun a b : Nat × α => cmp2 a.2 b.2) ((List.range l.length).zip l))).Perm
      ((List.range l.length).zip l) := (qsort_perm _ _).trans (qsort_perm _ _)
  have heq := List.Perm.eq_of_sorted
    (fun a b _ _ hab hba => by
      have h1 := (hab.2 hba.1).2 (hba.2 hab.1).1
      have h2 := (hba.2 hab.1).2 (hab.2 hba.1).1
      omega)
    hS hT hperm
  have h := congrArg (List.map Prod.snd) heq
  rw [qsort_map Prod.snd cmp1, qsort_map Prod.snd cmp2, hsnd] at h
  exact h

theorem strcmp_total : ∀ (a b : List Nat), strcmp a b ≤ 0 ∨ strcmp b a ≤ 0 := by
  intro a
  induction a with
  | nil =>
    intro b
    cases b with
    | nil => left; simp [strcmp]
    | cons y ys => left; simp [strcmp]
  | cons x xs ih =>
    intro b
    cases b with
    | nil => right; simp [strcmp]
    | cons y ys =>
      simp only [strcmp]
      by_cases hxy : x = y
      · subst hxy
        by_cases h0 : x = 0
        · simp [h0]
        · simpa [h0] using ih ys
      · have hyx : ¬ y = x := fun h => hxy h.symm
        simp only [hxy, hyx, if_false]
        omega

theorem strcmp_trans : ∀ (a b c : List Nat),
    strcmp a b ≤ 0 → strcmp b c ≤ 0 → strcmp a c ≤ 0 := by
  intro a
  induction a with
  | nil =>
    intro b c _ _
    cases c <;> simp [strcmp]
  | cons x xs ih =>
    intro b c hab hbc
    cases b with
    | nil =>
      simp only [strcmp] at hab
      have hx : x = 0 := by omega
      subst hx
      cases c with
      | nil => simp [strcmp]
      | cons z zs =>
        simp only [strcmp]
        split_ifs <;> omega
    | cons y ys =>
      cases c with
      | nil =>
        simp only [strcmp] at hab hbc ⊢
        have hy : y = 0 := by omega
        subst hy
        split_ifs at hab <;> omega
      | cons z zs =>
        simp only [strcmp] at hab hbc ⊢
        by_cases hxy : x = y
        · subst hxy
          by_cases hxz : x = z
          · subst hxz
            by_cases h0 : x = 0
            · simp [h0]
            · simp only [if_true, h0, if_false] at hab hbc ⊢
              exact ih ys zs hab hbc
          · simp only [hxz, if_false] at hbc ⊢
            exact hbc
        · simp only [hxy, if_false] at hab
          by_cases hyz : y = z
          · subst hyz
            simp only [hxy, if_false]
            exact hab
          · simp only [hyz, if_false] at hbc
            have hxz : ¬ x = z := by omega
            simp only [hxz, if_false]
            omega

theorem sort_volname_some (xl_name : Nat → List Nat) (layout : dht_layout_t)
    (hsub : ∀ e ∈ layout.list, e.xlator ≠ none) :
    dht_layout_sort_volname xl_name layout =
      some { layout with list := qsort (dht_layout_entry_cmp_volname xl_name) layout.list } := by
  unfold dht_layout_sort_volname
  rw [if_pos (Or.inr hsub)]

theorem sort_with_list (L : dht_layout_t) (l : List dht_layout_entry)
    (h : qsort dht_layout_entry_cmp l = L.list) :
    dht_layout_sort { L with list := l } = L := by
  cases L
  simp only [dht_layout_sort] at h ⊢
  rw [h]

theorem sort_volname_pairwise (xl_name : Nat → List Nat) (l : List dht_layout_entry) :
    (qsort (dht_layout_entry_cmp_volname xl_name) l).Pairwise (name_le xl_name) := by
  have h := qsort_pairwise (dht_layout_entry_cmp_volname xl_name) (fun _ => True)
    (fun _ _ => True) (fun a b _ _ => strcmp_total _ _)
    (fun a b c _ _ _ hab hbc => strcmp_trans _ _ _ hab hbc)
    l (fun _ _ => trivial) (List.pairwise_of_forall (fun _ _ => trivial))
  exact h.imp (fun hab => hab.1)

theorem sort_after_volname (xl_name : Nat → List Nat) (l : List dht_layout_entry)
    (hl : no_zero_stop_above l) :
    (qsort dht_layout_entry_cmp (qsort (dht_layout_entry_cmp_volname xl_name) l)).Pairwise
      (fun a b => range_le a b ∧ (range_le b a → name_le xl_name a b)) :=
  qsort_pairwise dht_layout_entry_cmp (fun e => e.stop = 0 → e.start = 0)
    (name_le xl_name) (fun a b _ _ => range_le_total a b)
    (fun a b c ha hb _ hab hbc => range_le_trans a b c ha hb hab hbc)
    _ (fun e he => hl e ((qsort_perm _ l).mem_iff.mp he)) (sort_volname_pairwise xl_name l)

theorem extract_then_disk_merge (K : dht_consts) (stack : List Nat)
    (layout : dht_layout_t) (pos : Nat) (e : dht_layout_entry)
    (hwf : layout.wf) (hpos : layout.list[pos]? = some e)
    (htype : layout.type = K.DHT_HASH_TYPE_DM ∨ layout.type = K.DHT_HASH_TYPE_DM_USER) :
    ∃ blob : List Nat,
      dht_disk_layout_extract true true layout pos = .ok (0, some blob) ∧
      dht_disk_layout_merge K stack layout pos (some blob) 16 = .ok (0, layout) := by
  obtain ⟨_, hlo, hhi, hes⟩ := hwf
  have he : e.wf := hes e (List.getElem?_mem hpos)
  obtain ⟨hs, ht, hc⟩ := he
  unfold U32 at hs ht hc
  refine ⟨htobe32 e.commit_hash ++ htobe32 (int_to_u32 layout.type) ++ htobe32 e.start
              ++ htobe32 e.stop ++ [0, 0, 0, 0], ?_, ?_⟩
  · rw [extract_ok true layout pos e hpos]
    rfl
  · have hw := word_at_extract e.commit_hash (int_to_u32 layout.type) e.start e.stop
    have hbt : blob_type (htobe32 e.commit_hash ++ htobe32 (int_to_u32 layout.type) ++
        htobe32 e.start ++ htobe32 e.stop ++ [0, 0, 0, 0]) = layout.type := by
      unfold blob_type
      rw [hw.2.1, be32toh_htobe32 _ (int_to_u32_lt _), u32_to_int_int_to_u32 _ hlo hhi]
    have hbe : blob_entry (htobe32 e.commit_hash ++ htobe32 (int_to_u32 layout.type) ++
        htobe32 e.start ++ htobe32 e.stop ++ [0, 0, 0, 0]) e = e := by
      unfold blob_entry
      rw [hw.1, hw.2.2.1, hw.2.2.2.1, be32toh_htobe32 _ hc, be32toh_htobe32 _ hs,
        be32toh_htobe32 _ ht, int_to_u32_u32_to_int _ hc, int_to_u32_u32_to_int _ hs,
        int_to_u32_u32_to_int _ ht]
    rw [disk_merge_accept K stack layout pos _ e (by simp [htobe32]) (by rw [hbt]; tauto) hpos,
      hbt, hbe, list_set_self layout.list pos e hpos]
    simp

theorem layout_new_type (K : dht_consts) (conf : Option dht_conf_t) (cnt : Nat)
    (layout0 : dht_layout_t) (h : dht_layout_new K true conf cnt = some layout0) :
    layout0.type = K.DHT_HASH_TYPE_DM := by
  unfold dht_layout_new at h
  rw [if_pos rfl] at h
  rw [← Option.some.inj h]

/-- C3: for every layout and every valid position, `dht_disk_layout_extract`
hands out a blob, and `dht_disk_layout_merge` of that blob with length 16 at the
same position returns 0 and leaves the whole layout as it was: start, stop and
commit hash of the entry (any 32-bit values, the top bit included) and the
layout's type are unchanged.  The layout's fields fit their machine types and
its type is DM or DM_USER, as in every layout the code builds: `dht_layout_new`
stores DM, and a run of `dht_disk_layout_merge` calls leaves the type or stores
DM_USER. -/
theorem extract_then_disk_merge_identity (K : dht_consts) (stack : List Nat)
    (layout : dht_layout_t) (pos : Nat) (e : dht_layout_entry)
    (hwf : layout.wf) (hpos : layout.list[pos]? = some e)
    (htype : layout.type = K.DHT_HASH_TYPE_DM ∨ layout.type = K.DHT_HASH_TYPE_DM_USER) :
    (∃ blob : List Nat,
      dht_disk_layout_extract true true layout pos = .ok (0, some blob) ∧
      dht_disk_layout_merge K stack layout pos (some blob) 16 = .ok (0, layout)) ∧
    (∀ (conf : Option dht_conf_t) (cnt : Nat) (layout0 l1 : dht_layout_t)
        (calls : List (Nat × Option (List Nat) × Int)),
      dht_layout_new K true conf cnt = some layout0 →
      disk_merge_run K stack layout0 calls = .ok l1 →
      l1.type = K.DHT_HASH_TYPE_DM ∨ l1.type = K.DHT_HASH_TYPE_DM_USER) := by
  refine ⟨extract_then_disk_merge K stack layout pos e hwf hpos htype, ?_⟩
  intro conf cnt layout0 l1 calls hnew hrun
  have h0 := layout_new_type K conf cnt layout0 hnew
  rcases (disk_merge_run_type K stack calls layout0 l1 hrun).1 with h | h
  · left; rw [h, h0]
  · right; exact h

/-- Witness for C3: the third quarter of the four-quarter layout (its range has
the top bit set) survives the round trip. -/
theorem extract_then_disk_merge_identity_witness :
    quarters.wf ∧ quarters.type = upstream_consts.DHT_HASH_TYPE_DM ∧
    ∃ blob : List Nat,
      dht_disk_layout_extract true true quarters 2 = .ok (0, some blob) ∧
      dht_disk_layout_merge upstream_consts [] quarters 2 (some blob) 16 = .ok (0, quarters) :=
  ⟨by decide, rfl,
    (extract_then_disk_merge_identity upstream_consts [] quarters 2
      (entry_ok 0x80000000 0xBFFFFFFF 0 (some 3)) (by decide) rfl (Or.inl rfl)).1⟩

/-! ## The extracted blob -/

theorem getD_take_lt (l : List Nat) (n i : Nat) (h : i < n) :
    (l.take n).getD i 0 = l.getD i 0 := by
  rw [List.getD_eq_getElem?_getD, List.getD_eq_getElem?_getD, List.getElem?_take_of_lt h]

/-- C4: at a valid position `dht_disk_layout_extract` produces a blob of exactly
16 bytes, the four 32-bit words at the pointer it hands out.  They are
big-endian, most significant byte first: the entry's commit hash, the layout's
type (as a 32-bit word), the entry's start and the entry's stop.  (The
allocation behind the pointer is `GF_CALLOC (5, sizeof (int))`; its fifth word
is not part of the blob and stays zero.)  `dht_disk_layout_extract_for_subvol`
produces the same blob when the entry is the first one with its subvolume, and
returns -1 when no entry has the subvolume asked for. -/
theorem extract_blob_format (layout : dht_layout_t) (pos : Nat) (e : dht_layout_entry)
    (hpos : layout.list[pos]? = some e) (he : e.wf) :
    (∃ buf blob : List Nat,
      dht_disk_layout_extract true true layout pos = .ok (0, some buf) ∧
      blob = buf.take 16 ∧ blob.length = 16 ∧ (∀ b ∈ blob, b < 256) ∧
      blob.getD 0 0 * 16777216 + blob.getD 1 0 * 65536 + blob.getD 2 0 * 256 + blob.getD 3 0
        = e.commit_hash ∧
      ((blob.getD 4 0 * 16777216 + blob.getD 5 0 * 65536 + blob.getD 6 0 * 256
        + blob.getD 7 0 : Nat) : Int) = layout.type % 4294967296 ∧
      blob.getD 8 0 * 16777216 + blob.getD 9 0 * 65536 + blob.getD 10 0 * 256
        + blob.getD 11 0 = e.start ∧
      blob.getD 12 0 * 16777216 + blob.getD 13 0 * 65536 + blob.getD 14 0 * 256
        + blob.getD 15 0 = e.stop ∧
      buf = blob ++ [0, 0, 0, 0] ∧
      ((∀ (j : Nat) (e' : dht_layout_entry), j < pos → layout.list[j]? = some e' →
          e'.xlator ≠ e.xlator) →
        dht_disk_layout_extract_for_subvol true true layout e.xlator = .ok (0, some buf))) ∧
    (∀ subvol : Option Nat, (∀ e' ∈ layout.list, e'.xlator ≠ subvol) →
      dht_disk_layout_extract_for_subvol true true layout subvol = .ok (-1, none)) := by
  obtain ⟨⟨buf, h1, h2, h3, h4, h5, h6, h7, h8, h9⟩, hno⟩ :=
    extract_buffer_words layout pos e hpos he
  refine ⟨⟨buf, buf.take 16, h1, rfl, ?_, ?_, ?_, ?_, ?_, ?_, ?_, h9⟩, hno⟩
  · rw [List.length_take, h2]; rfl
  · exact fun b hb => h3 b (List.mem_of_mem_take hb)
  · rw [getD_take_lt _ _ _ (by decide), getD_take_lt _ _ _ (by decide),
      getD_take_lt _ _ _ (by decide), getD_take_lt _ _ _ (by decide)]
    exact h4
  · rw [getD_take_lt _ _ _ (by decide), getD_take_lt _ _ _ (by decide),
      getD_take_lt _ _ _ (by decide), getD_take_lt _ _ _ (by decide)]
    exact h5
  · rw [getD_take_lt _ _ _ (by decide), getD_take_lt _ _ _ (by decide),
      getD_take_lt _ _ _ (by decide), getD_take_lt _ _ _ (by decide)]
    exact h6
  · rw [getD_take_lt _ _ _ (by decide), getD_take_lt _ _ _ (by decide),
      getD_take_lt _ _ _ (by decide), getD_take_lt _ _ _ (by decide)]
    exact h7
  · rw [← h8]
    exact (List.take_append_drop 16 buf).symm

/-- Witness for C4: the blob for the third quarter is sixteen bytes and holds
`0x80000000` in its third word. -/
theorem extract_blob_format_witness :
    ∃ buf blob : List Nat,
      dht_disk_layout_extract true true quarters 2 = .ok (0, some buf) ∧
      blob = buf.take 16 ∧ blob.length = 16 ∧
      blob = [0, 0, 0, 0, 0, 0, 0, 0, 128, 0, 0, 0, 191, 255, 255, 255] ∧
      blob.getD 8 0 * 16777216 + blob.getD 9 0 * 65536 + blob.getD 10 0 * 256
        + blob.getD 11 0 = 0x80000000 := by
  obtain ⟨buf, blob, h1, h2, h3, _, _, _, h6, _⟩ :=
    (extract_blob_format quarters 2 (entry_ok 0x80000000 0xBFFFFFFF 0 (some 3)) rfl
      (by decide)).1
  refine ⟨buf, blob, h1, h2, h3, ?_, h6⟩
  have hb : dht_disk_layout_extract true true quarters 2 =
      .ok (0, some [0, 0, 0, 0, 0, 0, 0, 0, 128, 0, 0, 0, 191, 255, 255, 255, 0, 0, 0, 0]) :=
    rfl
  rw [hb] at h1
  injection h1 with h1
  injection h1 with _ h1
  injection h1 with h1
  rw [h2, ← h1]
  rfl

/-! ## Merge sort: the step bounds are not reached -/

theorem msort_merge_fuel {α : Type} (cmp : α → α → Int) :
    ∀ (k k' : Nat) (b1 b2 : List α), b1.length + b2.length ≤ k → b1.length + b2.length ≤ k' →
      msort_merge cmp k b1 b2 = msort_merge cmp k' b1 b2 := by
  intro k
  induction k with
  | zero =>
    intro k' b1 b2 h _
    have h1 : b1 = [] := List.length_eq_zero.mp (by omega)
    have h2 : b2 = [] := List.length_eq_zero.mp (by omega)
    subst h1 h2
    cases k' <;> simp [msort_merge]
  | succ k ih =>
    intro k' b1 b2 h h'
    cases k' with
    | zero =>
      have h1 : b1 = [] := List.length_eq_zero.mp (by omega)
      have h2 : b2 = [] := List.length_eq_zero.mp (by omega)
      subst h1 h2
      simp [msort_merge]
    | succ k' =>
      cases b1 with
      | nil => simp [msort_merge]
      | cons x xs =>
        cases b2 with
        | nil => simp [msort_merge]
        | cons y ys =>
          simp only [List.length_cons] at h h'
          simp only [msort_merge]
          rw [ih k' xs (y :: ys) (by simp only [List.length_cons]; omega)
                (by simp only [List.length_cons]; omega),
              ih k' (x :: xs) ys (by simp only [List.length_cons]; omega)
                (by simp only [List.length_cons]; omega)]

theorem msort_fuel {α : Type} (cmp : α → α → Int) :
    ∀ (k k' : Nat) (b : List α), b.length ≤ k → b.length ≤ k' →
      msort_with_tmp cmp k b = msort_with_tmp cmp k' b := by
  intro k
  induction k with
  | zero =>
    intro k' b h _
    have h1 : b = [] := List.length_eq_zero.mp (by omega)
    subst h1
    cases k' <;> simp [msort_with_tmp]
  | succ k ih =>
    intro k' b h h'
    cases k' with
    | zero =>
      have h1 : b = [] := List.length_eq_zero.mp (by omega)
      subst h1
      simp [msort_with_tmp]
    | succ k' =>
      simp only [msort_with_tmp]
      by_cases h1 : b.length ≤ 1
      · rw [if_pos h1, if_pos h1]
      · rw [if_neg h1, if_neg h1]
        have hl1 : (b.take (b.length / 2)).length ≤ k ∧ (b.take (b.length / 2)).length ≤ k' := by
          rw [List.length_take]; omega
        have hl2 : (b.drop (b.length / 2)).length ≤ k ∧ (b.drop (b.length / 2)).length ≤ k' := by
          rw [List.length_drop]; omega
        rw [ih k' _ hl1.1 hl1.2, ih k' _ hl2.1 hl2.2]

/-- More steps than the number of elements do not change what `qsort` returns:
the bounds in `msort_merge` and `msort_with_tmp` are never reached. -/
theorem qsort_fuel {α : Type} (cmp : α → α → Int) (l : List α) (k : Nat)
    (h : l.length ≤ k) : msort_with_tmp cmp k l = qsort cmp l :=
  msort_fuel cmp k l.length l h (le_refl _)

end Dht
